import Mathlib

/-!
Verification of the ignore-file reconciliation engine of the project-config
library.  The engine (GitIgnoreFile / GitIgnoreSection / GitIgnoreEntry and
their control classes) is embedded shallowly: JavaScript strings become lists
of characters, JavaScript Map objects become insertion-ordered association
lists, and the mutable object graph (entry controllers shared between the
file registry, entry handles and per-section bookkeeping) becomes a heap of
records addressed by numeric ids inside an explicit file state.  Every
definition mirrors one source function; the source symbol is named in the
doc comment.
-/

/-- JavaScript strings are modelled as lists of characters. -/
abbrev Str := List Char

/-- Whitespace test used by trimEnd and trim.  The source relies on the
JavaScript built-ins, which strip Unicode whitespace; the characters relevant
to ignore files are the ASCII ones modelled here. -/
def wsp (c : Char) : Bool :=
  c = ' ' || c = '\t' || c = '\r' || c = '\n' || c = '\x0b' || c = '\x0c'

/-- Conversion from a Lean string literal to the model representation. -/
def strOf (s : String) : Str := s.data

/-- JavaScript String.prototype.trimEnd. -/
def strTrimEnd (s : Str) : Str := (s.reverse.dropWhile wsp).reverse

/-- JavaScript String.prototype.trim. -/
def strTrim (s : Str) : Str := (strTrimEnd s).dropWhile wsp

/-- Test for a leading character, as in String.prototype.startsWith with a
one-character argument. -/
def startsWithChar (c : Char) (s : Str) : Bool :=
  match s with
  | [] => false
  | d :: _ => d = c

/-- Test for a trailing character, as in String.prototype.endsWith with a
one-character argument. -/
def endsWithChar (c : Char) (s : Str) : Bool :=
  match s.reverse with
  | [] => false
  | d :: _ => d = c

/-- Test for a two-character leading sequence, as in
String.prototype.startsWith with a two-character argument. -/
def startsWithPair (c d : Char) (s : Str) : Bool :=
  match s with
  | a :: b :: _ => a = c && b = d
  | _ => false

/-- JavaScript content.split on the line-break pattern used by
GitIgnoreFile.parse: a CRLF pair or a lone LF separates lines, a lone CR
does not. -/
def splitLines : Str → List Str
  | [] => [[]]
  | '\r' :: '\n' :: rest => [] :: splitLines rest
  | '\n' :: rest => [] :: splitLines rest
  | c :: rest =>
    match splitLines rest with
    | [] => [[c]]
    | l :: ls => (c :: l) :: ls

/-- Replace every line feed in a string by a substitute string, as in the
replaceAll call of GitIgnoreSection.toString. -/
def strReplaceNl : Str → Str → Str
  | [], _ => []
  | c :: rest, sub => (if c = '\n' then sub else [c]) ++ strReplaceNl rest sub

/-- GitIgnoreEntry.Effect: whether matching files are ignored or re-included. -/
inductive Effect where
  | ignore
  | incl
deriving DecidableEq, Repr

/-- GitIgnoreEntry.Match: whether a pattern matches all paths or only
directories (source values are the strings all and dirs). -/
inductive MatchScope where
  | all
  | dirs
deriving DecidableEq, Repr

/-- Lookup in an insertion-ordered association list (JavaScript Map.get). -/
def mGet {α : Type} (k : Str) : List (Str × α) → Option α
  | [] => none
  | (k2, v) :: rest => if k2 = k then some v else mGet k rest

/-- JavaScript Map.set: replace the value in place if the key is present,
append otherwise. -/
def mSet {α : Type} (k : Str) (v : α) : List (Str × α) → List (Str × α)
  | [] => [(k, v)]
  | (k2, v2) :: rest => if k2 = k then (k2, v) :: rest else (k2, v2) :: mSet k v rest

/-- JavaScript Map.delete (the keys of every map in the model are unique, so
removing the first occurrence is removal). -/
def mDel {α : Type} (k : Str) : List (Str × α) → List (Str × α)
  | [] => []
  | (k2, v2) :: rest => if k2 = k then rest else (k2, v2) :: mDel k rest

/-- JavaScript Map.has. -/
def mHas {α : Type} (k : Str) (m : List (Str × α)) : Bool := (mGet k m).isSome

/-- GitIgnoreEntryCtl: the per-pattern controller record.  attachedTo holds
the title of the owning section (sections are cached one per title, so a
title identifies a section controller). -/
structure EntryCtl where
  pattern : Str
  eff : Option Effect
  mtch : Option MatchScope
  attachedTo : Option Str
  detached : Bool
deriving DecidableEq, Repr

instance : Inhabited EntryCtl := ⟨⟨[], none, none, none, false⟩⟩

/-- GitIgnoreEntry (the concrete subclass): an entry handle scoped to one
section; ctl is the heap id of its current controller, reassigned by
attach. -/
structure Handle where
  pattern : Str
  sectionTitle : Str
  ctl : Nat
deriving DecidableEq, Repr

instance : Inhabited Handle := ⟨⟨[], [], 0⟩⟩

/-- GitIgnoreSectionCtl: ordered entry bookkeeping of one section.  entries
maps a pattern to the stored handle id and stored controller id (the pair
stored by attachEntry); detachedMap models the map of a replace pass in
progress. -/
structure SectionCtl where
  title : Str
  entries : List (Str × Nat × Nat)
  detachedMap : Option (List (Str × Nat × Nat))
deriving DecidableEq, Repr

instance : Inhabited SectionCtl := ⟨⟨[], [], none⟩⟩

/-- GitIgnoreFile together with GitIgnoreFileCtl: ordered sections, the
global pattern registry, the heaps of controllers and handles, and the
modified flag. -/
structure FileState where
  sections : List SectionCtl
  entryCtls : List (Str × Nat)
  ctls : List EntryCtl
  handles : List Handle
  isModified : Bool
deriving DecidableEq, Repr

/-- A freshly constructed GitIgnoreFile. -/
def emptyFile : FileState := ⟨[], [], [], [], false⟩

def getCtl (s : FileState) (i : Nat) : EntryCtl := s.ctls.getD i default

def setCtl (i : Nat) (c : EntryCtl) (s : FileState) : FileState :=
  { s with ctls := s.ctls.set i c }

def getHandle (s : FileState) (i : Nat) : Handle := s.handles.getD i default

def setHandle (i : Nat) (h : Handle) (s : FileState) : FileState :=
  { s with handles := s.handles.set i h }

/-- Index of the section controller cached under a title. -/
def secIdx (s : FileState) (t : Str) : Option Nat :=
  s.sections.findIdx? (fun sc => sc.title = t)

def getSec (s : FileState) (t : Str) : SectionCtl :=
  match secIdx s t with
  | some i => s.sections.getD i default
  | none => default

def updSec (t : Str) (f : SectionCtl → SectionCtl) (s : FileState) : FileState :=
  match secIdx s t with
  | some i => { s with sections := s.sections.set i (f (s.sections.getD i default)) }
  | none => s

/-- GitIgnoreFileCtl.modify with no argument (sets the flag). -/
def fileModify (s : FileState) : FileState := { s with isModified := true }

/-- GitIgnoreFileCtl.modify with an explicit argument. -/
def fileSetModified (b : Bool) (s : FileState) : FileState := { s with isModified := b }

/-- GitIgnoreEntryCtl.#modify: marks the file modified only when this
controller is not detached and is attached to the section through which the
mutation was made (object identity of section controllers is title
equality). -/
def ctlModify (ci : Nat) (secT : Str) (s : FileState) : FileState :=
  let c := getCtl s ci
  if c.detached = false ∧ c.attachedTo = some secT then fileModify s else s

/-- GitIgnoreEntryCtl.setEffect. -/
def ctlSetEffect (ci : Nat) (secT : Str) (e : Effect) (s : FileState) : FileState :=
  let c := getCtl s ci
  if c.eff = some e then s
  else ctlModify ci secT (setCtl ci { c with eff := some e } s)

/-- GitIgnoreEntryCtl.setMatch. -/
def ctlSetMatch (ci : Nat) (secT : Str) (m : MatchScope) (s : FileState) : FileState :=
  let c := getCtl s ci
  if c.mtch = some m then s
  else ctlModify ci secT (setCtl ci { c with mtch := some m } s)

/-- GitIgnoreEntryCtl.updateBy, as a pure function of the two controller
records; returns the updated record and the modified flag.  A copy is taken
only when the other record carries a value (source: other.#effect is
checked for truthiness). -/
def updateBy (a b : EntryCtl) : EntryCtl × Bool :=
  let r1 := if a.attachedTo ≠ b.attachedTo then ({ a with attachedTo := b.attachedTo }, true) else (a, false)
  let r2 := match b.eff with
    | some e => if r1.1.eff ≠ some e then ({ r1.1 with eff := some e }, true) else (r1.1, false)
    | none => (r1.1, false)
  let r3 := match b.mtch with
    | some m => if r2.1.mtch ≠ some m then ({ r2.1 with mtch := some m }, true) else (r2.1, false)
    | none => (r2.1, false)
  (r3.1, r1.2 || r2.2 || r3.2)

/-- GitIgnoreFileCtl.attachEntry: merge into the registry controller when the
pattern is already registered (the source logs a debug line when nothing
changed, which has no model effect), register and mark modified otherwise.
Returns the id of the controller now registered for the pattern. -/
def fileAttachEntry (ci : Nat) (s : FileState) : FileState × Nat :=
  let p := (getCtl s ci).pattern
  match mGet p s.entryCtls with
  | some ei =>
    let r := updateBy (getCtl s ei) (getCtl s ci)
    let s := setCtl ei r.1 s
    (if r.2 then fileModify s else s, ei)
  | none =>
    (fileModify { s with entryCtls := mSet p ci s.entryCtls }, ci)

/-- GitIgnoreSectionCtl.attachEntry: record the handle and controller in the
section bookkeeping; if the pattern is pending removal in a replace pass,
un-mark it and re-attach the controller, otherwise go through the file
registry. -/
def secAttachEntry (secT : Str) (hi ci : Nat) (s : FileState) : FileState × Nat :=
  let p := (getHandle s hi).pattern
  let s := updSec secT (fun sc => { sc with entries := mSet p (hi, ci) sc.entries }) s
  match (getSec s secT).detachedMap with
  | some dm =>
    if mHas p dm then
      let s := updSec secT (fun sc => { sc with detachedMap := some (mDel p dm) }) s
      let s := setCtl ci { getCtl s ci with detached := false } s
      (s, ci)
    else fileAttachEntry ci s
  | none => fileAttachEntry ci s

/-- GitIgnoreEntryCtl.attachTo: no-op when already attached to the section
and not detached; otherwise point the controller at the section and run the
section attachment. -/
def ctlAttachTo (ci : Nat) (secT : Str) (hi : Nat) (s : FileState) : FileState × Nat :=
  let c := getCtl s ci
  if c.detached = false ∧ c.attachedTo = some secT then (s, ci)
  else
    let s := setCtl ci { c with attachedTo := some secT } s
    secAttachEntry secT hi ci s

/-- GitIgnoreEntryCtl.attachTo with the defaulted entry argument: entryFor
allocates a fresh handle for the section (used by parse); the returned
controller id is discarded, so the fresh handle keeps its controller. -/
def ctlAttachToNew (ci : Nat) (secT : Str) (s : FileState) : FileState :=
  let h : Handle := { pattern := (getCtl s ci).pattern, sectionTitle := secT, ctl := ci }
  let hi := s.handles.length
  let s := { s with handles := s.handles ++ [h] }
  (ctlAttachTo ci secT hi s).1

/-- GitIgnoreFileCtl.removeEntry: drop the pattern from the registry and mark
modified when it was present. -/
def fileRemoveEntry (ci : Nat) (s : FileState) : FileState :=
  let p := (getCtl s ci).pattern
  if mHas p s.entryCtls then fileModify { s with entryCtls := mDel p s.entryCtls } else s

/-- GitIgnoreSectionCtl.removeEntry. -/
def secRemoveEntry (secT : Str) (ci : Nat) (s : FileState) : FileState :=
  let p := (getCtl s ci).pattern
  fileRemoveEntry ci (updSec secT (fun sc => { sc with entries := mDel p sc.entries }) s)

/-- GitIgnoreEntryCtl.remove: only acts when the controller is attached to
the section through which removal was requested. -/
def ctlRemove (ci : Nat) (secT : Str) (s : FileState) : FileState :=
  let c := getCtl s ci
  if c.attachedTo = some secT then
    let s := secRemoveEntry secT ci s
    setCtl ci { getCtl s ci with attachedTo := none } s
  else s

/-- GitIgnoreEntry.setEffect (the handle delegates to its controller with its
own section). -/
def hSetEffect (hi : Nat) (e : Effect) (s : FileState) : FileState :=
  let h := getHandle s hi
  ctlSetEffect h.ctl h.sectionTitle e s

/-- GitIgnoreEntry.setMatch. -/
def hSetMatch (hi : Nat) (m : MatchScope) (s : FileState) : FileState :=
  let h := getHandle s hi
  ctlSetMatch h.ctl h.sectionTitle m s

/-- GitIgnoreEntry.attach: runs attachTo and stores the resulting controller
id back into the handle. -/
def hAttach (hi : Nat) (s : FileState) : FileState :=
  let h := getHandle s hi
  let r := ctlAttachTo h.ctl h.sectionTitle hi s
  setHandle hi { getHandle r.1 hi with ctl := r.2 } r.1

/-- Modelled from the spec: GitIgnoreEntry.ignore.  The abstract base class
implementing ignore is not among the sources (only its concrete subclass
is); spec section 4.2 defines it as setEffect(flag ? ignore : include)
followed by attach(). -/
def hIgnore (hi : Nat) (flag : Bool) (s : FileState) : FileState :=
  hAttach hi (hSetEffect hi (if flag then Effect.ignore else Effect.incl) s)

/-- GitIgnoreEntry.remove. -/
def hRemove (hi : Nat) (s : FileState) : FileState :=
  let h := getHandle s hi
  ctlRemove h.ctl h.sectionTitle s

/-- GitIgnoreEntry.#currentCtl: the registry controller for the handle's
pattern. -/
def hCurrent (s : FileState) (hi : Nat) : Option Nat :=
  mGet (getHandle s hi).pattern s.entryCtls

/-- GitIgnoreEntry.effect: local override, else the registry controller's
value, else ignore. -/
def hEffect (s : FileState) (hi : Nat) : Effect :=
  let h := getHandle s hi
  match (getCtl s h.ctl).eff with
  | some e => e
  | none =>
    match hCurrent s hi with
    | some ci => ((getCtl s ci).eff).getD Effect.ignore
    | none => Effect.ignore

/-- GitIgnoreEntry.match: local override, else the registry controller's
value, else all. -/
def hMatchScope (s : FileState) (hi : Nat) : MatchScope :=
  let h := getHandle s hi
  match (getCtl s h.ctl).mtch with
  | some m => m
  | none =>
    match hCurrent s hi with
    | some ci => ((getCtl s ci).mtch).getD MatchScope.all
    | none => MatchScope.all

/-- GitIgnoreEntry.currentSection: the section the registry controller is
attached to, if any. -/
def hCurrentSection (s : FileState) (hi : Nat) : Option Str :=
  match hCurrent s hi with
  | some ci => (getCtl s ci).attachedTo
  | none => none

/-- GitIgnoreEntry.isDetached. -/
def hIsDetached (s : FileState) (hi : Nat) : Bool :=
  let h := getHandle s hi
  (getCtl s h.ctl).attachedTo ≠ some h.sectionTitle

/-- Result of gitIgnorePattern: normalized pattern plus the decorations of
the raw pattern. -/
structure RawPattern where
  pattern : Str
  mtch : Option MatchScope
  eff : Option Effect
deriving DecidableEq, Repr

/-- gitIgnorePattern: strip one leading exclamation mark (effect include),
then one trailing slash (match dirs). -/
def gitIgnorePattern (raw : Str) : RawPattern :=
  let r1 := if startsWithChar '!' raw then (raw.drop 1, some Effect.incl) else (raw, none)
  let r2 := if endsWithChar '/' r1.1 then (r1.1.dropLast, some MatchScope.dirs) else (r1.1, none)
  ⟨r2.1, r2.2, r1.2⟩

/-- The update closure returned by gitIgnorePattern, applied to a handle:
setMatch for a dirs decoration, then setEffect for an include decoration. -/
def applyUpdate (rp : RawPattern) (hi : Nat) (s : FileState) : FileState :=
  let s := match rp.mtch with
    | some m => hSetMatch hi m s
    | none => s
  match rp.eff with
  | some e => hSetEffect hi e s
  | none => s

/-- GitIgnoreSectionCtl.entry: return the handle cached in the section
bookkeeping, else build a handle around the given controller (the registry
controller passed by GitIgnoreFile.entry) or a fresh controller; the raw
pattern's decorations are applied either way. -/
def secEntry (secT : Str) (raw : Str) (octl : Option Nat) (s : FileState) : FileState × Nat :=
  let rp := gitIgnorePattern raw
  match mGet rp.pattern (getSec s secT).entries with
  | some pr => (applyUpdate rp pr.1 s, pr.1)
  | none =>
    let fresh : EntryCtl := ⟨rp.pattern, none, none, none, false⟩
    let r : FileState × Nat := match octl with
      | some ci => (s, ci)
      | none => ({ s with ctls := s.ctls ++ [fresh] }, s.ctls.length)
    let hi := r.1.handles.length
    let s := { r.1 with handles := r.1.handles ++
      [{ pattern := rp.pattern, sectionTitle := secT, ctl := r.2 }] }
    (applyUpdate rp hi s, hi)

/-- GitIgnoreFile.section / #sectionCtl: create the section controller on
first use, appending to the ordered section sequence. -/
def fileSection (t : Str) (s : FileState) : FileState :=
  if (secIdx s t).isSome then s
  else { s with sections := s.sections ++ [{ title := t, entries := [], detachedMap := none }] }

/-- GitIgnoreFile.entry: delegate to the section the pattern is attached to,
else create the entry in the default section (which is created by the
section lookup). -/
def fileEntry (raw : Str) (s : FileState) : FileState × Nat :=
  let p := (gitIgnorePattern raw).pattern
  match mGet p s.entryCtls with
  | some ci =>
    match (getCtl s ci).attachedTo with
    | some t => secEntry t raw (some ci) s
    | none => secEntry [] raw none (fileSection [] s)
  | none => secEntry [] raw none (fileSection [] s)

/-- Keep check of the entries iteration of GitIgnoreSectionCtl: an entry is
yielded when its current section (per the registry) is this section,
otherwise its bookkeeping is pruned. -/
def liveIn (s : FileState) (t : Str) (hi : Nat) : Bool :=
  hCurrentSection s hi = some t

/-- GitIgnoreSectionCtl.entries: prunes stale bookkeeping and returns the
handles of the remaining entries in attachment order. -/
def secEntriesRun (secT : Str) (s : FileState) : FileState × List Nat :=
  let keep := (getSec s secT).entries.filter (fun e => liveIn s secT e.2.1)
  (updSec secT (fun sc => { sc with entries := keep }) s, keep.map (fun e => e.2.1))

/-- GitIgnoreEntry.toString as a function of the three resolved attributes:
prepend the exclamation mark for include, escape a leading hash otherwise;
append the slash for dirs, else a trailing backslash when the pattern ends
in whitespace. -/
def entryLine (p : Str) (e : Effect) (m : MatchScope) : Str :=
  let out := if e = Effect.incl then '!' :: p
    else if startsWithChar '#' p then '\\' :: p else p
  if m = MatchScope.dirs then out ++ ['/']
  else if strTrimEnd p ≠ p then out ++ ['\\'] else out

/-- The pattern line a handle prints (GitIgnoreEntry.toString with the
resolved effect and match of the handle). -/
def hToString (s : FileState) (hi : Nat) : Str :=
  entryLine (getHandle s hi).pattern (hEffect s hi) (hMatchScope s hi)

/-- node os.EOL on the POSIX systems this library is built and tested on. -/
def osEOL : Str := ['\n']

/-- The title comment of GitIgnoreSection.toString: one hash-space line per
title line. -/
def titleBlock (t : Str) (eol : Str) : Str :=
  if t = [] then [] else ('#' :: ' ' :: strReplaceNl t (eol ++ ['#', ' '])) ++ eol

/-- GitIgnoreSection.toString for the section cached under a title (called
by GitIgnoreFile.toString without an argument, hence with os.EOL): title
comment then one line per live entry; prunes while iterating. -/
def secToStringRun (secT : Str) (s : FileState) : FileState × Str :=
  let r := secEntriesRun secT s
  (r.1, titleBlock secT osEOL ++ (r.2.map (fun hi => hToString r.1 hi ++ osEOL)).flatten)

/-- The loop of GitIgnoreFile.toString over the section titles. -/
def fileToStringGo (titles : List Str) (eol : Str) (acc : Str) (s : FileState) : FileState × Str :=
  match titles with
  | [] => (s, acc)
  | t :: rest =>
    let sep := if acc ≠ [] then eol ++ (if t = [] then '#' :: eol else []) else []
    let r := secToStringRun t s
    fileToStringGo rest eol (acc ++ sep ++ r.2) r.1

/-- GitIgnoreFile.toString: render the sections in order, a blank separator
line between sections and a bare hash line before a trailing untitled
section; the per-section rendering uses os.EOL (the source calls
section.toString() without forwarding eol). -/
def fileToStringRun (eol : Str) (s : FileState) : FileState × Str :=
  fileToStringGo (s.sections.map (fun sc => sc.title)) eol [] s

/-- GitIgnoreEntryCtl.parse: unescape a leading hash, drop a trailing
escape, reject an empty result, then split off the pattern decorations; the
parsed controller carries explicit effect and match values. -/
def parseEntryCtl (line : Str) : Option EntryCtl :=
  let l1 := if startsWithPair '\\' '#' line then line.drop 1 else line
  let l2 := if endsWithChar '\\' l1 then l1.dropLast else l1
  if l2 = [] then none
  else
    let rp := gitIgnorePattern l2
    some ⟨rp.pattern, some (rp.eff.getD Effect.ignore), some (rp.mtch.getD MatchScope.all), none, false⟩

/-- Allocate a parsed controller and attach it to a section, as the parse
loop does (attachTo with the defaulted fresh handle, result discarded). -/
def attachParsed (c : EntryCtl) (t : Str) (s : FileState) : FileState :=
  let ci := s.ctls.length
  ctlAttachToNew ci t { s with ctls := s.ctls ++ [c] }

/-- The loop state of GitIgnoreFile.parse: the file, the pending multi-line
title and the open section. -/
structure ParseSt where
  st : FileState
  prevComment : Option Str
  openSec : Option Str
deriving Repr

/-- One line of the GitIgnoreFile.parse state machine. -/
def parseLineStep (ps : ParseSt) (line : Str) : ParseSt :=
  let l := strTrimEnd line
  if startsWithChar '#' l then
    let comment := strTrim (l.drop 1)
    let pc2 : Option Str :=
      if comment = [] then ps.prevComment
      else match ps.prevComment with
        | some pc => some (pc ++ '\n' :: comment)
        | none => some comment
    { ps with openSec := none, prevComment := pc2 }
  else
    let ec := parseEntryCtl l
    match ps.prevComment with
    | some pc =>
      let s := fileSection pc ps.st
      let s := match ec with
        | some c => attachParsed c pc s
        | none => s
      { st := s, prevComment := none, openSec := some pc }
    | none =>
      match ps.openSec with
      | some t =>
        let s := match ec with
          | some c => attachParsed c t ps.st
          | none => ps.st
        { ps with st := s }
      | none =>
        match ec with
        | none => ps
        | some c =>
          let s := fileSection [] ps.st
          { st := attachParsed c [] s, prevComment := none, openSec := some [] }

/-- GitIgnoreFile.parse: run the line machine over the split content, create
a trailing title-only section, and restore the modified flag captured at
entry. -/
def runParse (content : Str) (s : FileState) : FileState :=
  let saved := s.isModified
  let ps := (splitLines content).foldl parseLineStep ⟨s, none, none⟩
  let s2 := match ps.prevComment with
    | some pc => fileSection pc ps.st
    | none => ps.st
  fileSetModified saved s2

/-- GitIgnoreFile.save: a no-op when unmodified, otherwise renders the file
(with the pruning side effect of toString) and clears the flag; the write
itself is outside the model. -/
def runSave (s : FileState) : FileState :=
  if s.isModified = false then s
  else fileSetModified false (fileToStringRun osEOL s).1

/-- The serializable tuple sequence of a file: for every section in order,
its live entries as (section title, pattern, effect, match scope) - exactly
the data toString renders. -/
def fileTuples (s : FileState) : List (Str × Str × Effect × MatchScope) :=
  (s.sections.map (fun sc =>
    ((sc.entries.filter (fun e => liveIn s sc.title e.2.1)).map (fun e =>
      (sc.title, (getHandle s e.2.1).pattern, hEffect s e.2.1, hMatchScope s e.2.1))))).flatten

/-- The mark phase of GitIgnoreSectionCtl.replaceEntries: detach the stored
controller of every bookkept entry and snapshot the bookkeeping as the
pending-removal map. -/
def markDetached (t : Str) (s : FileState) : FileState :=
  let es := (getSec s t).entries
  let s := es.foldl (fun s e => setCtl e.2.2 { getCtl s e.2.2 with detached := true } s) s
  updSec t (fun sc => { sc with detachedMap := some (getSec s t).entries }) s

/-- The sweep phase of GitIgnoreSectionCtl.replaceEntries: remove every
still-pending entry (through its stored handle) and drop the pending map. -/
def sweepDetached (t : Str) (s : FileState) : FileState :=
  let dm := (getSec s t).detachedMap.getD []
  let s := dm.foldl (fun s e => hRemove e.2.1 s) s
  updSec t (fun sc => { sc with detachedMap := none }) s

/-- One declaration of a replace build callback: the typical
section.entry(raw).ignore(flag) call. -/
def runDecl (t : Str) (d : Str × Bool) (s : FileState) : FileState :=
  let r := secEntry t d.1 none s
  hIgnore r.2 d.2 r.1

/-- A declaration-list build callback run against a section. -/
def runDecls (t : Str) (ds : List (Str × Bool)) (s : FileState) : FileState :=
  ds.foldl (fun s d => runDecl t d s) s

/-- file.section(t).replace(build) for a declaration-list build:
GitIgnoreSectionCtl.replaceEntries around runDecls (a nested call while a
pass is in progress folds into it). -/
def replaceDecls (t : Str) (ds : List (Str × Bool)) (s : FileState) : FileState :=
  let s := fileSection t s
  if (getSec s t).detachedMap.isSome then runDecls t ds s
  else sweepDetached t (runDecls t ds (markDetached t s))

/-- file.section(t).replace(build) for a declaration-list build that throws
after its declarations: the finally clause still sweeps, then the exception
propagates (second component false). -/
def replaceDeclsFail (t : Str) (ds : List (Str × Bool)) (s : FileState) : FileState × Bool :=
  let s := fileSection t s
  if (getSec s t).detachedMap.isSome then (runDecls t ds s, false)
  else (sweepDetached t (runDecls t ds (markDetached t s)), false)

/-- The documented mutating operations of the engine, as a syntax of
operation sequences: section/entry lookups, the entry mutators (on handles
identified by their heap id), reconciliation with a nested build, and a
failing step (an exception thrown by a build callback). -/
inductive Act where
  | fsec (t : Str)
  | fent (raw : Str)
  | sent (t : Str) (raw : Str)
  | setE (h : Nat) (e : Effect)
  | setM (h : Nat) (m : MatchScope)
  | att (h : Nat)
  | ign (h : Nat) (flag : Bool)
  | rem (h : Nat)
  | failStep
  | rep (t : Str) (build : List Act)
deriving Repr

/-- Run a sequence of operations; the Bool is false when an exception
escaped (later operations are skipped, but a replace pass in progress still
sweeps, as its finally clause does). -/
def runActs : List Act → FileState → FileState × Bool
  | [], s => (s, true)
  | Act.fsec t :: rest, s => runActs rest (fileSection t s)
  | Act.fent raw :: rest, s => runActs rest (fileEntry raw s).1
  | Act.sent t raw :: rest, s => runActs rest (secEntry t raw none (fileSection t s)).1
  | Act.setE h e :: rest, s => runActs rest (hSetEffect h e s)
  | Act.setM h m :: rest, s => runActs rest (hSetMatch h m s)
  | Act.att h :: rest, s => runActs rest (hAttach h s)
  | Act.ign h flag :: rest, s => runActs rest (hIgnore h flag s)
  | Act.rem h :: rest, s => runActs rest (hRemove h s)
  | Act.failStep :: _, s => (s, false)
  | Act.rep t build :: rest, s =>
    let s1 := fileSection t s
    if (getSec s1 t).detachedMap.isSome then
      let r := runActs build s1
      if r.2 then runActs rest r.1 else r
    else
      let r := runActs build (markDetached t s1)
      let s2 := sweepDetached t r.1
      if r.2 then runActs rest s2 else (s2, false)

/-- Patterns of a section as its entries iteration yields them, without the
pruning side effect. -/
def secLivePatterns (s : FileState) (t : Str) : List Str :=
  (((getSec s t).entries.filter (fun e => liveIn s t e.2.1)).map (fun e => e.1))

/-- Bookkeeping consistency of the section maps: every stored pair is keyed
by the pattern of its stored handle (true of every state the engine
builds; attachEntry keys the map by entry.pattern). -/
def entriesConsistent (s : FileState) : Bool :=
  s.sections.all (fun sc => sc.entries.all (fun e => (getHandle s e.2.1).pattern = e.1))

/-- The file state of the move scenario of the spec: parse an
exclamation-mark pattern into the untitled section, then request the same
pattern from a section named test and ignore it. -/
def moveScenario : FileState :=
  let s0 := runParse (strOf ("!pattern\n")) emptyFile
  let r := secEntry (strOf ("test")) (strOf ("pattern")) none (fileSection (strOf ("test")) s0)
  hIgnore r.2 true r.1

/-- The attach-then-remove sequence on an empty file: section('').entry('p')
is ignored and then removed. -/
def attachRemoveScenario : FileState :=
  let r := secEntry [] (strOf ("p")) none (fileSection [] emptyFile)
  hRemove r.2 (hIgnore r.2 true r.1)

/-- A file holding one attached entry with an empty pattern (reachable via
file.entry('').attach() - the codec cannot represent it). -/
def emptyPatternScenario : FileState :=
  let r := secEntry [] [] none (fileSection [] emptyFile)
  hAttach r.2 r.1

/-- The section a pattern resolves to through the file registry. -/
def resolvedSec (s : FileState) (p : Str) : Option Str :=
  match mGet p s.entryCtls with
  | some ci => (getCtl s ci).attachedTo
  | none => none

/-- A replace pass is in progress on the section cached under a title when
its pending-removal map is present. -/
def secInProgress (t : Str) (s : FileState) : Prop :=
  (getSec s t).detachedMap.isSome = true

/-- The keys of an association list. -/
def keysOf {α : Type} (l : List (Str × α)) : List Str := l.map (fun e => e.1)

/-- The controller ids stored in a list of section bookkeeping pairs. -/
def cisOf (l : List (Str × Nat × Nat)) : List Nat := l.map (fun e => e.2.2)

/-- The detach fold of the mark phase of replaceEntries, over an explicit
pair list. -/
def detachIn (pend : List (Str × Nat × Nat)) (s : FileState) : FileState :=
  pend.foldl (fun s e => setCtl e.2.2 { getCtl s e.2.2 with detached := true } s) s

/-- The state in the middle of a replace pass over a synchronized section:
the controllers of the still-pending pairs are detached and the pending map
holds exactly those pairs. -/
def midSt (s0 : FileState) (t : Str) (pend : List (Str × Nat × Nat)) : FileState :=
  updSec t (fun sc => { sc with detachedMap := some pend }) (detachIn pend s0)

/-- The removal fold of the sweep phase of replaceEntries, over an explicit
pair list. -/
def remFold (pend : List (Str × Nat × Nat)) (s : FileState) : FileState :=
  pend.foldl (fun s e => hRemove e.2.1 s) s

/-- The normalized pattern of one declaration of a declaration-list build. -/
def declPat (d : Str × Bool) : Str := (gitIgnorePattern d.1).pattern

/-- The effect one declaration requests through ignore. -/
def declEff (d : Str × Bool) : Effect := if d.2 then Effect.ignore else Effect.incl

/-- A section bookkeeping pair is synchronized with the heaps and the
registry: indices in range, the stored handle belongs to this section and
points at the stored controller, the registry resolves the pattern to the
stored controller, and that controller is attached (and not detached) to
this section under this pattern. -/
@[reducible] def pairSynced (s : FileState) (t : Str) (e : Str × Nat × Nat) : Prop :=
  e.2.1 < s.handles.length ∧ e.2.2 < s.ctls.length
  ∧ getHandle s e.2.1 = ⟨e.1, t, e.2.2⟩
  ∧ mGet e.1 s.entryCtls = some e.2.2
  ∧ (getCtl s e.2.2).pattern = e.1
  ∧ (getCtl s e.2.2).attachedTo = some t
  ∧ (getCtl s e.2.2).detached = false

/-- One declaration restates what the section already records for its
pattern: a bookkept pair exists under the normalized pattern and its stored
controller carries exactly the declared effect and, for a decorated raw
pattern, the decoration values. -/
@[reducible] def declMatches (s : FileState) (t : Str) (d : Str × Bool) : Prop :=
  ∃ e ∈ (getSec s t).entries, e.1 = declPat d
    ∧ (getCtl s e.2.2).eff = some (declEff d)
    ∧ ((gitIgnorePattern d.1).eff = none ∨ (gitIgnorePattern d.1).eff = some (declEff d))
    ∧ ((gitIgnorePattern d.1).mtch = none ∨ (gitIgnorePattern d.1).mtch = (getCtl s e.2.2).mtch)

/-- A section is fully synchronized with a declaration list: the section
exists with no pass in progress, its bookkeeping and the registry are
duplicate-free and every bookkept pair is synchronized, every declaration
restates its recorded entry, and every bookkept pattern is declared. -/
@[reducible] def syncDecls (t : Str) (ds : List (Str × Bool)) (s : FileState) : Prop :=
  (secIdx s t).isSome = true
  ∧ (getSec s t).detachedMap = none
  ∧ (keysOf (getSec s t).entries).Nodup
  ∧ (keysOf s.entryCtls).Nodup
  ∧ (ds.map declPat).Nodup
  ∧ (∀ e ∈ (getSec s t).entries, pairSynced s t e)
  ∧ (∀ d ∈ ds, declMatches s t d)
  ∧ (∀ e ∈ (getSec s t).entries, e.1 ∈ ds.map declPat)

/-- The pending map left after a list of declarations un-marked their
patterns. -/
def dropDecls (ds : List (Str × Bool)) (pend : List (Str × Nat × Nat)) :
    List (Str × Nat × Nat) :=
  ds.foldl (fun pd d => mDel (declPat d) pd) pend

/-- A saved one-entry section reconciled from a declaration list; the state
the C3 idempotence theorem is instantiated on. -/
def c3SyncState : FileState :=
  runSave (replaceDecls (strOf ("test")) [(strOf ("p"), true)] emptyFile)

/-- A file whose pattern was first parsed into the untitled section and then
moved into a section named test by the first reconciliation, then saved:
the section bookkeeping still stores the fresh pre-merge controller while
the handle and the registry point at the merged one. -/
def c3CexBase : FileState :=
  runSave (replaceDecls (strOf ("test")) [(strOf ("p"), true)]
    (runParse (strOf ("p\n")) emptyFile))

/-- A saved two-entry section reconciled from a declaration list; the state
the C4 witness runs a failing build on. -/
def c4Base : FileState :=
  runSave (replaceDecls (strOf ("test"))
    [(strOf ("p"), true), (strOf ("q"), false)] emptyFile)

/-- The observable attributes of one bookkept entry: its key pattern and
the resolved effect and match scope of its stored handle. -/
def absEntry (s : FileState) (e : Str × Nat × Nat) : Str × Effect × MatchScope :=
  (e.1, hEffect s e.2.1, hMatchScope s e.2.1)

/-- The observable content of one section. -/
def absSec (s : FileState) (sc : SectionCtl) : Str × List (Str × Effect × MatchScope) :=
  (sc.title, sc.entries.map (absEntry s))

/-- The observable content of a file: section titles with their entries'
patterns, effects and match scopes, in order. -/
def absOf (s : FileState) : List (Str × List (Str × Effect × MatchScope)) :=
  s.sections.map (absSec s)

/-- The serializable tuples of an observable content listing. -/
def tuplesOf (L : List (Str × List (Str × Effect × MatchScope))) :
    List (Str × Str × Effect × MatchScope) :=
  (L.map (fun sec => sec.2.map (fun pem => (sec.1, pem.1, pem.2.1, pem.2.2)))).flatten

/-- The pattern lines of a section body. -/
def entryLinesOf (es : List (Str × Effect × MatchScope)) : List Str :=
  es.map (fun pem => entryLine pem.1 pem.2.1 pem.2.2)

/-- The lines of one rendered section: the title comment (single-line
titles) followed by the pattern lines. -/
def blockLines (t : Str) (es : List (Str × Effect × MatchScope)) : List Str :=
  (if t = [] then [] else [('#' :: ' ' :: t)]) ++ entryLinesOf es

/-- The lines GitIgnoreFile.toString emits for a section listing: a blank
separator line before every section but the first, a bare hash line before
a later untitled section, then the section block. -/
def fileLines : Bool → List (Str × List (Str × Effect × MatchScope)) → List Str
  | _, [] => []
  | first, sec :: rest =>
    ((if first then [] else [] :: (if sec.1 = [] then [['#']] else []))
      ++ blockLines sec.1 sec.2) ++ fileLines false rest

/-- Join lines with the POSIX line feed, one per line. -/
def linesJoin (ls : List Str) : Str := (ls.map (fun l => l ++ osEOL)).flatten

/-- The controller GitIgnoreEntryCtl.parse yields for a well-formed rendered
pattern line. -/
def parsedCtl (pem : Str × Effect × MatchScope) : EntryCtl :=
  ⟨pem.1, some pem.2.1, some pem.2.2, none, false⟩

/-- One parsed entry line attached to a section, as the parse loop does. -/
def addEntry (t : Str) (pem : Str × Effect × MatchScope) (s : FileState) : FileState :=
  attachParsed (parsedCtl pem) t s

/-- One parsed section: the section is created, then its lines attach. -/
def addSec (sec : Str × List (Str × Effect × MatchScope)) (s : FileState) : FileState :=
  sec.2.foldl (fun s pem => addEntry sec.1 pem s) (fileSection sec.1 s)

/-- The file GitIgnoreFile.parse builds from an observable content listing. -/
def buildFile (L : List (Str × List (Str × Effect × MatchScope))) : FileState :=
  L.foldl (fun s sec => addSec sec s) emptyFile

/-- A pattern round-trips through the line codec with its effect and match
scope: it is nonempty and single-line, an ignored pattern carries no leading
exclamation mark or escaped-hash prefix, and an all-paths pattern has no
trailing slash or backslash. -/
@[reducible] def goodPattern (pem : Str × Effect × MatchScope) : Prop :=
  pem.1 ≠ [] ∧ (∀ c ∈ pem.1, c ≠ '\n')
  ∧ (pem.2.1 = Effect.ignore →
      startsWithChar '!' pem.1 = false ∧ startsWithPair '\\' '#' pem.1 = false)
  ∧ (pem.2.2 = MatchScope.all →
      endsWithChar '/' pem.1 = false ∧ endsWithChar '\\' pem.1 = false)

/-- A title round-trips through the comment lines: single-line and stable
under trimming. -/
@[reducible] def goodTitle (t : Str) : Prop :=
  (∀ c ∈ t, c ≠ '\n') ∧ strTrimEnd t = t ∧ t.dropWhile wsp = t

/-- All patterns of an observable content listing, in order. -/
def allPats (L : List (Str × List (Str × Effect × MatchScope))) : List Str :=
  (L.map (fun sec => sec.2.map (fun pem => pem.1))).flatten

/-- A well-formed observable content listing: good titles, a nonempty
untitled section, good patterns, duplicate-free titles and globally
duplicate-free patterns. -/
@[reducible] def goodAbs (L : List (Str × List (Str × Effect × MatchScope))) : Prop :=
  (∀ sec ∈ L, goodTitle sec.1 ∧ (sec.1 = [] → sec.2 ≠ [])
    ∧ ∀ pem ∈ sec.2, goodPattern pem)
  ∧ (L.map (fun sec => sec.1)).Nodup
  ∧ (allPats L).Nodup

/-- A file state whose serialization round-trips: well-formed observable
content, no pass in progress, and bookkeeping synchronized with the
registry, so that nothing is pruned while rendering. -/
@[reducible] def goodState (s : FileState) : Prop :=
  goodAbs (absOf s)
  ∧ (∀ sc ∈ s.sections, sc.detachedMap = none
      ∧ ∀ e ∈ sc.entries, pairSynced s sc.title e)

/-- One freshly built bookkept entry: the key restates the declared pattern,
the stored handle and controller indices are in range and record exactly the
declared pattern, attributes and owning title, and the registry resolves the
pattern to the stored controller. -/
def entryOK (s : FileState) (tl : Str) (pem : Str × Effect × MatchScope)
    (e : Str × Nat × Nat) : Prop :=
  e.1 = pem.1 ∧ e.2.1 < s.handles.length ∧ e.2.2 < s.ctls.length
  ∧ getHandle s e.2.1 = ⟨pem.1, tl, e.2.2⟩
  ∧ getCtl s e.2.2 = ⟨pem.1, some pem.2.1, some pem.2.2, some tl, false⟩
  ∧ mGet pem.1 s.entryCtls = some e.2.2

/-- One freshly built section controller: right title, no pass in progress,
and bookkept entries matching the parsed declarations pointwise in order. -/
def secOK (s : FileState) (sec : Str × List (Str × Effect × MatchScope))
    (sc : SectionCtl) : Prop :=
  sc.title = sec.1 ∧ sc.detachedMap = none
  ∧ List.Forall₂ (entryOK s sec.1) sec.2 sc.entries

/-- The invariant of the parse build fold: the sections built so far match
the processed listing pointwise, and the registry holds only processed
patterns. -/
def buildInv (done : List (Str × List (Str × Effect × MatchScope)))
    (s : FileState) : Prop :=
  List.Forall₂ (secOK s) done s.sections
  ∧ ∀ p : Str, mGet p s.entryCtls ≠ none → p ∈ allPats done

/-! Theorems.  The claim theorems are named with their claim ids; the
lemmas before them are shared infrastructure. -/

theorem dropIf_nil_iff (l1 : Str) :
    (if endsWithChar '\\' l1 = true then l1.dropLast else l1) = [] ↔ l1 = [] ∨ l1 = ['\\'] := by
  match l1 with
  | [] => simp
  | [c] =>
    by_cases hc : c = '\\'
    · subst hc; simp [endsWithChar]
    · simp [endsWithChar, hc]
  | a :: b :: t =>
    by_cases he : endsWithChar '\\' (a :: b :: t) = true
    · simp [he, List.dropLast]
    · simp [he]

theorem startsWithPair_iff (c d : Char) (s : Str) :
    startsWithPair c d s = true ↔ ∃ t, s = c :: d :: t := by
  match s with
  | [] => simp [startsWithPair]
  | [a] => simp [startsWithPair]
  | a :: b :: t => simp [startsWithPair]

theorem parseEntryCtl_none_iff (l : Str) : parseEntryCtl l = none ↔ (l = [] ∨ l = ['\\']) := by
  by_cases hp : startsWithPair '\\' '#' l = true
  · obtain ⟨t, rfl⟩ := (startsWithPair_iff _ _ _).mp hp
    simp only [parseEntryCtl, hp, if_true, List.drop]
    have h := dropIf_nil_iff ('#' :: t)
    rcases Decidable.em ((if endsWithChar '\\' ('#' :: t) = true then ('#' :: t).dropLast else '#' :: t) = []) with he | he
    · rcases h.mp he with h1 | h1 <;> simp at h1
    · rw [if_neg he]
      constructor
      · intro hx; exact absurd hx (by simp)
      · intro hrhs; rcases hrhs with h1 | h1 <;> simp at h1
  · rw [Bool.not_eq_true] at hp
    simp only [parseEntryCtl, hp, Bool.false_eq_true, if_false]
    have h := dropIf_nil_iff l
    rcases Decidable.em ((if endsWithChar '\\' l = true then l.dropLast else l) = []) with he | he
    · rw [if_pos he]; simpa using h.mp he
    · rw [if_neg he]
      constructor
      · intro hx; exact absurd hx (by simp)
      · intro hrhs; exact absurd (h.mpr hrhs) he

theorem parseLineStep_blank (s : FileState) (l : Str) (h : strTrimEnd l = []) :
    parseLineStep ⟨s, none, none⟩ l = ⟨s, none, none⟩ := by
  simp [parseLineStep, h, startsWithChar, parseEntryCtl, startsWithPair, endsWithChar]

theorem foldl_parse_blank (lines : List Str) (s : FileState)
    (h : ∀ l ∈ lines, strTrimEnd l = []) :
    lines.foldl parseLineStep ⟨s, none, none⟩ = ⟨s, none, none⟩ := by
  induction lines with
  | nil => rfl
  | cons a rest ih =>
    rw [List.foldl_cons, parseLineStep_blank s a (h a (by simp)),
      ih (fun l hl => h l (by simp [hl]))]

theorem getSec_mem (s : FileState) (t : Str) (h : (secIdx s t).isSome) :
    getSec s t ∈ s.sections := by
  unfold getSec
  match hidx : secIdx s t with
  | some i =>
    have hi : i < s.sections.length := by
      have := List.findIdx?_eq_some_iff_findIdx_eq.mp hidx
      exact this.1
    simp [List.getD, List.getElem?_eq_getElem hi]
  | none => simp [hidx] at h

theorem live_resolved (s : FileState) (t p : Str) (hc : entriesConsistent s = true)
    (h : p ∈ secLivePatterns s t) : resolvedSec s p = some t := by
  unfold secLivePatterns at h
  obtain ⟨e, he, rfl⟩ := List.mem_map.mp h
  have hf := List.mem_filter.mp he
  have hmem := hf.1
  have hlive := hf.2
  have hsec : (secIdx s t).isSome := by
    by_contra hn
    rw [Option.not_isSome_iff_eq_none] at hn
    unfold getSec at hmem
    rw [hn] at hmem
    simp [default] at hmem
  have hsecmem := getSec_mem s t hsec
  have hc2 := (List.all_eq_true.mp hc) _ hsecmem
  have hpat := (List.all_eq_true.mp hc2) _ hmem
  have hpat2 : (getHandle s e.2.1).pattern = e.1 := by simpa using hpat
  unfold liveIn at hlive
  unfold hCurrentSection hCurrent at hlive
  rw [hpat2] at hlive
  unfold resolvedSec
  revert hlive
  match mGet e.1 s.entryCtls with
  | some ci => intro hlive; simpa using hlive
  | none => intro hlive; simp at hlive

/-- C5 every pattern is attached to at most one section at a time: live
membership in two sections forces the same section; concretely, after
parsing an exclamation pattern into the untitled section and ignoring the
same pattern from the section named test, the untitled section iterates no
entries, the test section iterates exactly the moved pattern, and the file
renders as the test header followed by the bare pattern line. -/
theorem c5_unique_attachment :
    (∀ s t1 t2 p, entriesConsistent s = true →
      p ∈ secLivePatterns s t1 → p ∈ secLivePatterns s t2 → t1 = t2)
    ∧ (secEntriesRun [] moveScenario).2 = []
    ∧ ((secEntriesRun (strOf ("test")) moveScenario).2.map
        (fun hi => (getHandle moveScenario hi).pattern)) = [strOf ("pattern")]
    ∧ (fileToStringRun osEOL moveScenario).2 = strOf ("# test\npattern\n") := by
  refine ⟨?_, by decide, by decide, by decide⟩
  intro s t1 t2 p hc h1 h2
  have r1 := live_resolved s t1 p hc h1
  have r2 := live_resolved s t2 p hc h2
  have r3 := r1.symm.trans r2
  exact Option.some.inj r3

/-- C5 witness: the uniqueness part applied to the move scenario itself. -/
theorem c5_witness : entriesConsistent moveScenario = true ∧ strOf ("test") = strOf ("test") :=
  ⟨by decide,
    c5_unique_attachment.1 moveScenario (strOf ("test")) (strOf ("test")) (strOf ("pattern"))
      (by decide) (by decide) (by decide)⟩

/-- C6 parsing restores the modified flag captured on entry, so parse leaves
isModified exactly as it was, whatever state the file is in and whatever the
input text. -/
theorem c6_parse_preserves_modified (content : Str) (s : FileState) :
    (runParse content s).isModified = s.isModified := rfl

/-- C7 the pattern line codec round-trips the two documented special shapes:
a leading hash is escaped and unescaped, and three protected trailing spaces
survive through the trailing backslash convention (the parse side receives
the line after the trailing-whitespace trim of the file parser). -/
theorem c7_codec_roundtrip :
    entryLine (strOf ("#comment-like")) Effect.ignore MatchScope.all = strOf ("\\#comment-like")
    ∧ parseEntryCtl (strTrimEnd (strOf ("\\#comment-like")))
      = some ⟨strOf ("#comment-like"), some Effect.ignore, some MatchScope.all, none, false⟩
    ∧ entryLine (strOf ("pattern   ")) Effect.ignore MatchScope.all = strOf ("pattern   \\")
    ∧ parseEntryCtl (strTrimEnd (strOf ("pattern   \\")))
      = some ⟨strOf ("pattern   "), some Effect.ignore, some MatchScope.all, none, false⟩ := by
  decide

/-- C9 counterexample: the line holding one backslash is non-blank after
trimming and is not a comment, yet parsing it yields no entry and no section
(the file state is unchanged), refuting that every non-comment non-blank
line is accepted as a pattern. -/
theorem c9_counterexample :
    strTrimEnd (strOf ("\\")) = strOf ("\\")
    ∧ startsWithChar '#' (strOf ("\\")) = false
    ∧ runParse (strOf ("\\")) emptyFile = emptyFile
    ∧ fileTuples (runParse (strOf ("\\")) emptyFile) = [] := by
  decide

/-- C9 amended: parsing is total (the parse function is a total function of
the input) and a text of blank lines parses to the unchanged state - in
particular a blank line with no pending title and no open section produces
no entry and no section; a line is rejected by the entry codec exactly when
it is empty or the single trailing-escape backslash, so every other
non-comment line yields an entry. -/
theorem c9_parse_total_amended :
    (∀ content s, ((splitLines content).all (fun l => strTrimEnd l = [])) = true →
      runParse content s = s)
    ∧ (∀ l, parseEntryCtl l = none ↔ (l = [] ∨ l = ['\\'])) :=
  ⟨fun content s hall => by
      unfold runParse
      rw [foldl_parse_blank _ s (by simpa [List.all_eq_true] using hall)]
      rfl,
    parseEntryCtl_none_iff⟩

/-- C9 witness: the blank-skip part applied to a concrete blank text. -/
theorem c9_witness : runParse (strOf ("\n \n\t")) emptyFile = emptyFile :=
  c9_parse_total_amended.1 (strOf ("\n \n\t")) emptyFile (by decide)

/-- C1 counterexample: ignoring and then removing a pattern on a fresh file
returns the serializable tuple set to the baseline (both empty), yet
isModified remains true, refuting that the flag is true exactly when the
tuple set differs from the baseline. -/
theorem c1_counterexample :
    attachRemoveScenario.isModified = true
    ∧ fileTuples attachRemoveScenario = fileTuples emptyFile
    ∧ emptyFile.isModified = false := by
  decide

/-- C2 counterexample: a file with one attached empty pattern renders as a
single blank line, which parses back to a file with no tuples at all, so the
round trip loses the entry. -/
theorem c2_counterexample :
    fileTuples emptyPatternScenario = [([], [], Effect.ignore, MatchScope.all)]
    ∧ fileTuples (runParse (fileToStringRun osEOL emptyPatternScenario).2 emptyFile) = [] := by
  decide

theorem setCtl_isModified (i : Nat) (c : EntryCtl) (s : FileState) :
    (setCtl i c s).isModified = s.isModified := rfl

theorem setHandle_isModified (i : Nat) (h : Handle) (s : FileState) :
    (setHandle i h s).isModified = s.isModified := rfl

theorem updSec_isModified (t : Str) (f : SectionCtl → SectionCtl) (s : FileState) :
    (updSec t f s).isModified = s.isModified := by
  unfold updSec; split <;> rfl

theorem fileSection_isModified (t : Str) (s : FileState) :
    (fileSection t s).isModified = s.isModified := by
  unfold fileSection; split <;> rfl

theorem mono_ctlModify (ci : Nat) (t : Str) (s : FileState) (h : s.isModified = true) :
    (ctlModify ci t s).isModified = true := by
  unfold ctlModify; dsimp only; split <;> simp [fileModify, h]

theorem mono_ctlSetEffect (ci : Nat) (t : Str) (e : Effect) (s : FileState)
    (h : s.isModified = true) : (ctlSetEffect ci t e s).isModified = true := by
  unfold ctlSetEffect; dsimp only
  split
  · exact h
  · exact mono_ctlModify _ _ _ (by simp [setCtl_isModified, h])

theorem mono_ctlSetMatch (ci : Nat) (t : Str) (m : MatchScope) (s : FileState)
    (h : s.isModified = true) : (ctlSetMatch ci t m s).isModified = true := by
  unfold ctlSetMatch; dsimp only
  split
  · exact h
  · exact mono_ctlModify _ _ _ (by simp [setCtl_isModified, h])

theorem mono_fileAttachEntry (ci : Nat) (s : FileState) (h : s.isModified = true) :
    (fileAttachEntry ci s).1.isModified = true := by
  unfold fileAttachEntry; dsimp only
  split
  · dsimp only; split <;> simp [fileModify, setCtl_isModified, h]
  · simp [fileModify]

theorem mono_secAttachEntry (t : Str) (hi ci : Nat) (s : FileState) (h : s.isModified = true) :
    (secAttachEntry t hi ci s).1.isModified = true := by
  unfold secAttachEntry; dsimp only
  split
  · split
    · simp [setCtl_isModified, updSec_isModified, h]
    · exact mono_fileAttachEntry _ _ (by simp [updSec_isModified, h])
  · exact mono_fileAttachEntry _ _ (by simp [updSec_isModified, h])

theorem mono_ctlAttachTo (ci : Nat) (t : Str) (hi : Nat) (s : FileState)
    (h : s.isModified = true) : (ctlAttachTo ci t hi s).1.isModified = true := by
  unfold ctlAttachTo; dsimp only
  split
  · exact h
  · exact mono_secAttachEntry _ _ _ _ (by simp [setCtl_isModified, h])

theorem mono_ctlAttachToNew (ci : Nat) (t : Str) (s : FileState)
    (h : s.isModified = true) : (ctlAttachToNew ci t s).isModified = true := by
  unfold ctlAttachToNew; dsimp only
  exact mono_ctlAttachTo _ _ _ _ (by simpa using h)

theorem mono_fileRemoveEntry (ci : Nat) (s : FileState) (h : s.isModified = true) :
    (fileRemoveEntry ci s).isModified = true := by
  unfold fileRemoveEntry; dsimp only
  split <;> simp [fileModify, h]

theorem mono_secRemoveEntry (t : Str) (ci : Nat) (s : FileState) (h : s.isModified = true) :
    (secRemoveEntry t ci s).isModified = true := by
  unfold secRemoveEntry; dsimp only
  exact mono_fileRemoveEntry _ _ (by simp [updSec_isModified, h])

theorem mono_ctlRemove (ci : Nat) (t : Str) (s : FileState) (h : s.isModified = true) :
    (ctlRemove ci t s).isModified = true := by
  unfold ctlRemove; dsimp only
  split
  · rw [setCtl_isModified]
    exact mono_secRemoveEntry _ _ _ h
  · exact h

theorem mono_hSetEffect (hi : Nat) (e : Effect) (s : FileState) (h : s.isModified = true) :
    (hSetEffect hi e s).isModified = true := mono_ctlSetEffect _ _ _ _ h

theorem mono_hSetMatch (hi : Nat) (m : MatchScope) (s : FileState) (h : s.isModified = true) :
    (hSetMatch hi m s).isModified = true := mono_ctlSetMatch _ _ _ _ h

theorem mono_hAttach (hi : Nat) (s : FileState) (h : s.isModified = true) :
    (hAttach hi s).isModified = true := by
  unfold hAttach; dsimp only
  rw [setHandle_isModified]
  exact mono_ctlAttachTo _ _ _ _ h

theorem mono_hIgnore (hi : Nat) (flag : Bool) (s : FileState) (h : s.isModified = true) :
    (hIgnore hi flag s).isModified = true :=
  mono_hAttach _ _ (mono_hSetEffect _ _ _ h)

theorem mono_hRemove (hi : Nat) (s : FileState) (h : s.isModified = true) :
    (hRemove hi s).isModified = true := mono_ctlRemove _ _ _ h

theorem mono_applyUpdate (rp : RawPattern) (hi : Nat) (s : FileState) (h : s.isModified = true) :
    (applyUpdate rp hi s).isModified = true := by
  unfold applyUpdate; dsimp only
  match he : rp.eff, hm : rp.mtch with
  | some e, some m => exact mono_hSetEffect _ _ _ (mono_hSetMatch _ _ _ h)
  | some e, none => exact mono_hSetEffect _ _ _ h
  | none, some m => exact mono_hSetMatch _ _ _ h
  | none, none => exact h

theorem mono_secEntry (t : Str) (raw : Str) (octl : Option Nat) (s : FileState)
    (h : s.isModified = true) : (secEntry t raw octl s).1.isModified = true := by
  unfold secEntry; dsimp only
  split
  · exact mono_applyUpdate _ _ _ h
  · split <;> exact mono_applyUpdate _ _ _ (by simpa using h)

theorem mono_fileEntry (raw : Str) (s : FileState) (h : s.isModified = true) :
    (fileEntry raw s).1.isModified = true := by
  unfold fileEntry; dsimp only
  split
  · split
    · exact mono_secEntry _ _ _ _ h
    · exact mono_secEntry _ _ _ _ (by simp [fileSection_isModified, h])
  · exact mono_secEntry _ _ _ _ (by simp [fileSection_isModified, h])

theorem markDetached_isModified (t : Str) (s : FileState) :
    (markDetached t s).isModified = s.isModified := by
  unfold markDetached; dsimp only
  rw [updSec_isModified]
  generalize (getSec s t).entries = es
  induction es generalizing s with
  | nil => rfl
  | cons a rest ih => rw [List.foldl_cons, ih, setCtl_isModified]

theorem mono_sweepDetached (t : Str) (s : FileState) (h : s.isModified = true) :
    (sweepDetached t s).isModified = true := by
  unfold sweepDetached; dsimp only
  rw [updSec_isModified]
  generalize ((getSec s t).detachedMap.getD []) = es
  induction es generalizing s with
  | nil => exact h
  | cons a rest ih => rw [List.foldl_cons]; exact ih _ (mono_hRemove _ _ h)

theorem runActs_mono (l : List Act) (s : FileState) (h : s.isModified = true) :
    (runActs l s).1.isModified = true := by
  induction l, s using runActs.induct with
  | case1 s => simpa [runActs] using h
  | case2 t rest s ih =>
    simp only [runActs]; exact ih (by simp [fileSection_isModified, h])
  | case3 raw rest s ih =>
    simp only [runActs]; exact ih (mono_fileEntry _ _ h)
  | case4 t raw rest s ih =>
    simp only [runActs]
    exact ih (mono_secEntry _ _ _ _ (by simp [fileSection_isModified, h]))
  | case5 hh e rest s ih =>
    simp only [runActs]; exact ih (mono_hSetEffect _ _ _ h)
  | case6 hh m rest s ih =>
    simp only [runActs]; exact ih (mono_hSetMatch _ _ _ h)
  | case7 hh rest s ih =>
    simp only [runActs]; exact ih (mono_hAttach _ _ h)
  | case8 hh flag rest s ih =>
    simp only [runActs]; exact ih (mono_hIgnore _ _ _ h)
  | case9 hh rest s ih =>
    simp only [runActs]; exact ih (mono_hRemove _ _ h)
  | case10 tail s => simpa [runActs] using h
  | case11 t build rest s s1 hs r hr2 m1 m2 m3 =>
    simp only [runActs]
    split
    · exact m3 (m2 (by rw [fileSection_isModified]; exact h))
    · next h2 => exact absurd hs h2
  | case12 t build rest s s1 hs r hr2 m1 =>
    simp only [runActs]
    split
    · exact m1 (by rw [fileSection_isModified]; exact h)
    · next h2 => exact absurd hs h2
  | case13 t build rest s s1 hns r s2 hr2 m1 m2 m3 =>
    simp only [runActs]
    split
    · next h2 => exact absurd h2 hns
    · exact m3 (mono_sweepDetached _ _ (m2 (by rw [markDetached_isModified, fileSection_isModified]; exact h)))
  | case14 t build rest s s1 hns r hr2 m1 =>
    simp only [runActs]
    split
    · next h2 => exact absurd h2 hns
    · exact mono_sweepDetached _ _ (m1 (by rw [markDetached_isModified, fileSection_isModified]; exact h))

/-- C1 amended: the modified flag is conservative and one-way across the
documented operations: any operation sequence started on a file whose flag
is set leaves it set (no documented operation writes false - only save,
parse restoring its captured value, and the explicit modify reset do), so
the flag does not track equality of the serializable tuple set with the
last parsed or saved baseline: after attach-then-remove the set returns to
the baseline while the flag stays true. -/
theorem c1_flag_conservative (acts : List Act) (s : FileState) (h : s.isModified = true) :
    (runActs acts s).1.isModified = true := runActs_mono acts s h

/-- C1 witness: a concrete sequence run on a flagged file keeps the flag. -/
theorem c1_witness :
    (runActs [Act.sent [] (strOf ("p")), Act.ign 0 true] (fileModify emptyFile)).1.isModified = true :=
  c1_flag_conservative [Act.sent [] (strOf ("p")), Act.ign 0 true] (fileModify emptyFile) (by decide)

theorem getD_set_self {α : Type} (l : List α) (i : Nat) (c d : α) (h : i < l.length) :
    (l.set i c).getD i d = c := by
  induction l generalizing i with
  | nil => simp at h
  | cons a rest ih =>
    match i with
    | 0 => rfl
    | n + 1 => exact ih n (by simpa using h)

theorem ctl_lt_of_attached (s : FileState) (ci : Nat) (t : Str)
    (h : (getCtl s ci).attachedTo = some t) : ci < s.ctls.length := by
  by_contra hn
  push_neg at hn
  unfold getCtl at h
  rw [List.getD_eq_default _ _ hn] at h
  simp [default] at h

theorem getCtl_setCtl_self (s : FileState) (ci : Nat) (c : EntryCtl)
    (h : ci < s.ctls.length) : getCtl (setCtl ci c s) ci = c := by
  unfold getCtl setCtl
  exact getD_set_self _ _ _ _ h

theorem gitIgnorePattern_plain (p : Str) (hnb : startsWithChar '!' p = false)
    (hns : endsWithChar '/' p = false) : gitIgnorePattern p = ⟨p, none, none⟩ := by
  unfold gitIgnorePattern
  simp [hnb, hns]

theorem startsWithChar_append_false (c : Char) (p q : Str) (h : startsWithChar c p = false)
    (hq : startsWithChar c q = false) : startsWithChar c (p ++ q) = false := by
  match p with
  | [] => simpa using hq
  | a :: r => simpa [startsWithChar] using h

theorem gitIgnorePattern_slash (p : Str) (hnb : startsWithChar '!' p = false) :
    gitIgnorePattern (p ++ ['/']) = ⟨p, some MatchScope.dirs, none⟩ := by
  unfold gitIgnorePattern
  rw [startsWithChar_append_false '!' p ['/'] hnb (by decide)]
  simp [endsWithChar, List.reverse_append]

theorem gitIgnorePattern_bang (p : Str) (hns : endsWithChar '/' p = false) :
    gitIgnorePattern ('!' :: p) = ⟨p, none, some Effect.incl⟩ := by
  unfold gitIgnorePattern
  simp [startsWithChar, hns]

theorem hMatchScope_getD (s : FileState) (hi ci : Nat) (p t : Str)
    (hh : getHandle s hi = ⟨p, t, ci⟩) (hreg : mGet p s.entryCtls = some ci) :
    hMatchScope s hi = ((getCtl s ci).mtch).getD MatchScope.all := by
  unfold hMatchScope hCurrent
  rw [hh]
  dsimp only
  rw [hreg]
  cases hx : (getCtl s ci).mtch <;> simp [hx]

theorem hEffect_getD (s : FileState) (hi ci : Nat) (p t : Str)
    (hh : getHandle s hi = ⟨p, t, ci⟩) (hreg : mGet p s.entryCtls = some ci) :
    hEffect s hi = ((getCtl s ci).eff).getD Effect.ignore := by
  unfold hEffect hCurrent
  rw [hh]
  dsimp only
  rw [hreg]
  cases hx : (getCtl s ci).eff <;> simp [hx]

/-- C10 creating an entry handle through file.entry on an attached pattern:
the bare pattern is observation-only (the state is unchanged, hence
isModified, all sections entries and toString are unchanged); the
slash-decorated raw pattern updates the attached entry's match scope to
dirs and sets isModified exactly when the resolved value actually changes
(the call is again the identity when the value is already dirs), and the
exclamation-decorated raw pattern does the same for the effect. -/
theorem c10_entry_lookup_effects (s : FileState) (p t : Str) (ci hi ci2 : Nat)
    (hnb : startsWithChar '!' p = false) (hns : endsWithChar '/' p = false)
    (hreg : mGet p s.entryCtls = some ci)
    (hatt : (getCtl s ci).attachedTo = some t)
    (hent : mGet p (getSec s t).entries = some (hi, ci2))
    (hh : getHandle s hi = ⟨p, t, ci⟩)
    (hdet : (getCtl s ci).detached = false) :
    (fileEntry p s).1 = s
    ∧ (hMatchScope s hi = MatchScope.dirs → (fileEntry (p ++ ['/']) s).1 = s)
    ∧ (hMatchScope s hi ≠ MatchScope.dirs →
        (fileEntry (p ++ ['/']) s).1.isModified = true
        ∧ hMatchScope (fileEntry (p ++ ['/']) s).1 hi = MatchScope.dirs)
    ∧ (hEffect s hi = Effect.incl → (fileEntry ('!' :: p) s).1 = s)
    ∧ (hEffect s hi ≠ Effect.incl →
        (fileEntry ('!' :: p) s).1.isModified = true
        ∧ hEffect (fileEntry ('!' :: p) s).1 hi = Effect.incl) := by
  have hplain := gitIgnorePattern_plain p hnb hns
  have hslash := gitIgnorePattern_slash p hnb
  have hbang := gitIgnorePattern_bang p hns
  have hlt := ctl_lt_of_attached s ci t hatt
  have hms := hMatchScope_getD s hi ci p t hh hreg
  have hes := hEffect_getD s hi ci p t hh hreg
  refine ⟨?_, ?_, ?_, ?_, ?_⟩
  · unfold fileEntry
    rw [hplain]
    dsimp only
    rw [hreg]
    dsimp only
    rw [hatt]
    unfold secEntry
    rw [hplain]
    dsimp only
    rw [hent]
    rfl
  · intro hm
    rw [hms] at hm
    have hmtch : (getCtl s ci).mtch = some MatchScope.dirs := by
      cases hx : (getCtl s ci).mtch with
      | none => rw [hx] at hm; simp at hm
      | some m => rw [hx] at hm; simp at hm; rw [hm]
    unfold fileEntry
    rw [hslash]
    dsimp only
    rw [hreg]
    dsimp only
    rw [hatt]
    unfold secEntry
    rw [hslash]
    dsimp only
    rw [hent]
    dsimp only [applyUpdate]
    unfold hSetMatch
    rw [hh]
    dsimp only
    unfold ctlSetMatch
    dsimp only
    rw [if_pos hmtch]
  · intro hm
    rw [hms] at hm
    have hmtch : (getCtl s ci).mtch ≠ some MatchScope.dirs := by
      intro hc
      rw [hc] at hm
      simp at hm
    unfold fileEntry
    rw [hslash]
    dsimp only
    rw [hreg]
    dsimp only
    rw [hatt]
    unfold secEntry
    rw [hslash]
    dsimp only
    rw [hent]
    dsimp only [applyUpdate]
    unfold hSetMatch
    rw [hh]
    dsimp only
    unfold ctlSetMatch
    dsimp only
    rw [if_neg hmtch]
    unfold ctlModify
    dsimp only
    have hmm := getCtl_setCtl_self s ci { getCtl s ci with mtch := some MatchScope.dirs } hlt
    rw [hmm]
    dsimp only
    rw [if_pos (by exact ⟨hdet, hatt⟩)]
    refine ⟨rfl, ?_⟩
    have hh2 : getHandle (fileModify (setCtl ci { getCtl s ci with mtch := some MatchScope.dirs } s)) hi = ⟨p, t, ci⟩ := hh
    have hreg2 : mGet p (fileModify (setCtl ci { getCtl s ci with mtch := some MatchScope.dirs } s)).entryCtls = some ci := hreg
    rw [hMatchScope_getD _ hi ci p t hh2 hreg2]
    have : getCtl (fileModify (setCtl ci { getCtl s ci with mtch := some MatchScope.dirs } s)) ci
        = { getCtl s ci with mtch := some MatchScope.dirs } := hmm
    rw [this]
    simp
  · intro he
    rw [hes] at he
    have heff : (getCtl s ci).eff = some Effect.incl := by
      cases hx : (getCtl s ci).eff with
      | none => rw [hx] at he; simp at he
      | some e => rw [hx] at he; simp at he; rw [he]
    unfold fileEntry
    rw [hbang]
    dsimp only
    rw [hreg]
    dsimp only
    rw [hatt]
    unfold secEntry
    rw [hbang]
    dsimp only
    rw [hent]
    dsimp only [applyUpdate]
    unfold hSetEffect
    rw [hh]
    dsimp only
    unfold ctlSetEffect
    dsimp only
    rw [if_pos heff]
  · intro he
    rw [hes] at he
    have heff : (getCtl s ci).eff ≠ some Effect.incl := by
      intro hc
      rw [hc] at he
      simp at he
    unfold fileEntry
    rw [hbang]
    dsimp only
    rw [hreg]
    dsimp only
    rw [hatt]
    unfold secEntry
    rw [hbang]
    dsimp only
    rw [hent]
    dsimp only [applyUpdate]
    unfold hSetEffect
    rw [hh]
    dsimp only
    unfold ctlSetEffect
    dsimp only
    rw [if_neg heff]
    unfold ctlModify
    dsimp only
    have hmm := getCtl_setCtl_self s ci { getCtl s ci with eff := some Effect.incl } hlt
    rw [hmm]
    dsimp only
    rw [if_pos (by exact ⟨hdet, hatt⟩)]
    refine ⟨rfl, ?_⟩
    have hh2 : getHandle (fileModify (setCtl ci { getCtl s ci with eff := some Effect.incl } s)) hi = ⟨p, t, ci⟩ := hh
    have hreg2 : mGet p (fileModify (setCtl ci { getCtl s ci with eff := some Effect.incl } s)).entryCtls = some ci := hreg
    rw [hEffect_getD _ hi ci p t hh2 hreg2]
    have : getCtl (fileModify (setCtl ci { getCtl s ci with eff := some Effect.incl } s)) ci
        = { getCtl s ci with eff := some Effect.incl } := hmm
    rw [this]
    simp

/-- C10 witness: the bare-pattern identity on a parsed file. -/
theorem c10_witness :
    (fileEntry (strOf ("pattern")) (runParse (strOf ("# test\npattern\n")) emptyFile)).1
      = runParse (strOf ("# test\npattern\n")) emptyFile :=
  (c10_entry_lookup_effects (runParse (strOf ("# test\npattern\n")) emptyFile)
    (strOf ("pattern")) (strOf ("test")) 0 0 0 (by decide) (by decide) (by decide)
    (by decide) (by decide) (by decide) (by decide)).1

theorem getD_set_ne {α : Type} (l : List α) (i j : Nat) (x : α) (d : α) (h : i ≠ j) :
    (l.set i x).getD j d = l.getD j d := by
  induction l generalizing i j with
  | nil => simp [List.set]
  | cons a rest ih =>
    match i, j with
    | 0, 0 => exact absurd rfl h
    | 0, n + 1 => rfl
    | m + 1, 0 => rfl
    | m + 1, n + 1 => exact ih m n (by omega)

theorem findIdx?_set_eq {α : Type} (p : α → Bool) (l : List α) (i : Nat) (x : α) (k : Nat)
    (h : ∀ hl : i < l.length, p x = p (l.get ⟨i, hl⟩)) :
    List.findIdx? p (l.set i x) k = List.findIdx? p l k := by
  induction l generalizing i k with
  | nil => simp [List.set]
  | cons a rest ih =>
    match i with
    | 0 =>
      have hp : p x = p a := h (by simp)
      simp only [List.set, List.findIdx?_cons, hp]
    | m + 1 =>
      simp only [List.set, List.findIdx?_cons]
      rw [ih m (k + 1) (fun hl => h (by simpa using hl))]

theorem secIdx_updSec (t2 t : Str) (f : SectionCtl → SectionCtl) (s : FileState)
    (htitle : ∀ sc, (f sc).title = sc.title) :
    secIdx (updSec t2 f s) t = secIdx s t := by
  unfold updSec
  match hidx : secIdx s t2 with
  | none => rfl
  | some i =>
    unfold secIdx
    dsimp only
    apply findIdx?_set_eq
    intro hl
    have hti := htitle (s.sections.get ⟨i, hl⟩)
    rw [List.get_eq_getElem] at hti
    simp [List.getD_eq_getElem?_getD, List.getElem?_eq_getElem hl, hti]

theorem getSec_updSec_or (t2 t : Str) (f : SectionCtl → SectionCtl) (s : FileState)
    (htitle : ∀ sc, (f sc).title = sc.title) :
    getSec (updSec t2 f s) t = getSec s t ∨ getSec (updSec t2 f s) t = f (getSec s t) := by
  unfold getSec
  rw [secIdx_updSec t2 t f s htitle]
  match hidx : secIdx s t with
  | none => exact Or.inl rfl
  | some j =>
    unfold updSec
    match hidx2 : secIdx s t2 with
    | none => exact Or.inl rfl
    | some i =>
      dsimp only
      by_cases hij : i = j
      · subst hij
        right
        have hi : i < s.sections.length := by
          have := List.findIdx?_eq_some_iff_findIdx_eq.mp hidx2
          exact this.1
        exact getD_set_self _ _ _ _ hi
      · left
        exact getD_set_ne _ _ _ _ _ hij

theorem getSec_updSec_ne (t2 t : Str) (f : SectionCtl → SectionCtl) (s : FileState)
    (htitle : ∀ sc, (f sc).title = sc.title) (hne : t ≠ t2) :
    getSec (updSec t2 f s) t = getSec s t := by
  unfold getSec
  rw [secIdx_updSec t2 t f s htitle]
  match hidx : secIdx s t with
  | none => rfl
  | some j =>
    unfold updSec
    match hidx2 : secIdx s t2 with
    | none => rfl
    | some i =>
      dsimp only
      have hij : i ≠ j := by
        intro hc
        subst hc
        unfold secIdx at hidx hidx2
        obtain ⟨hl, hp, _⟩ := List.findIdx?_eq_some_iff_getElem.mp hidx
        obtain ⟨hl2, hp2, _⟩ := List.findIdx?_eq_some_iff_getElem.mp hidx2
        simp only [decide_eq_true_eq] at hp hp2
        exact hne (hp ▸ hp2 ▸ rfl)
      exact getD_set_ne _ _ _ _ _ hij

theorem secIdx_fileSection (t2 t : Str) (s : FileState) (h : (secIdx s t).isSome) :
    secIdx (fileSection t2 s) t = secIdx s t := by
  unfold fileSection
  split
  · rfl
  · unfold secIdx at h ⊢
    dsimp only
    rw [List.findIdx?_append]
    match hidx : List.findIdx? (fun sc => decide (sc.title = t)) s.sections with
    | some i => rw [hidx]; rfl
    | none => rw [hidx] at h; simp at h

theorem getSec_fileSection (t2 t : Str) (s : FileState) (h : (secIdx s t).isSome) :
    getSec (fileSection t2 s) t = getSec s t := by
  unfold getSec
  rw [secIdx_fileSection t2 t s h]
  match hidx : secIdx s t with
  | none => rfl
  | some j =>
    dsimp only
    have hj : j < s.sections.length := by
      unfold secIdx at hidx
      exact (List.findIdx?_eq_some_iff_findIdx_eq.mp hidx).1
    unfold fileSection
    split
    · rfl
    · exact List.getD_append _ _ _ _ hj


theorem secInProgress_exists (t : Str) (s : FileState) (h : secInProgress t s) :
    (secIdx s t).isSome := by
  unfold secInProgress getSec at h
  match hidx : secIdx s t with
  | some i => simp
  | none => rw [hidx] at h; simp [default] at h

theorem fileSection_of_exists (t : Str) (s : FileState) (h : (secIdx s t).isSome) :
    fileSection t s = s := by
  unfold fileSection
  rw [if_pos h]

theorem pres_updSec_keep (t2 t : Str) (f : SectionCtl → SectionCtl) (s : FileState)
    (htitle : ∀ sc, (f sc).title = sc.title)
    (hdm : ∀ sc, (f sc).detachedMap = sc.detachedMap ∨ ((f sc).detachedMap).isSome = true)
    (h : secInProgress t s) : secInProgress t (updSec t2 f s) := by
  unfold secInProgress at h ⊢
  rcases getSec_updSec_or t2 t f s htitle with he | he
  · rw [he]; exact h
  · rw [he]
    rcases hdm (getSec s t) with hd | hd
    · rw [hd]; exact h
    · exact hd

theorem pres_ctlModify (ci : Nat) (t2 t : Str) (s : FileState) (h : secInProgress t s) :
    secInProgress t (ctlModify ci t2 s) := by
  unfold ctlModify
  dsimp only
  split
  · exact h
  · exact h

theorem pres_ctlSetEffect (ci : Nat) (t2 t : Str) (e : Effect) (s : FileState)
    (h : secInProgress t s) : secInProgress t (ctlSetEffect ci t2 e s) := by
  unfold ctlSetEffect
  dsimp only
  split
  · exact h
  · exact pres_ctlModify _ _ _ _ h

theorem pres_ctlSetMatch (ci : Nat) (t2 t : Str) (m : MatchScope) (s : FileState)
    (h : secInProgress t s) : secInProgress t (ctlSetMatch ci t2 m s) := by
  unfold ctlSetMatch
  dsimp only
  split
  · exact h
  · exact pres_ctlModify _ _ _ _ h

theorem pres_fileAttachEntry (ci : Nat) (t : Str) (s : FileState) (h : secInProgress t s) :
    secInProgress t (fileAttachEntry ci s).1 := by
  unfold fileAttachEntry
  dsimp only
  split
  · dsimp only; split
    · exact h
    · exact h
  · exact h

theorem pres_secAttachEntry (t2 t : Str) (hi ci : Nat) (s : FileState) (h : secInProgress t s) :
    secInProgress t (secAttachEntry t2 hi ci s).1 := by
  unfold secAttachEntry
  dsimp only
  have h1 : secInProgress t (updSec t2 (fun sc => { sc with entries := mSet (getHandle s hi).pattern (hi, ci) sc.entries }) s) :=
    pres_updSec_keep _ _ _ _ (fun sc => rfl) (fun sc => Or.inl rfl) h
  split
  · split
    · exact pres_updSec_keep _ _ _ _ (fun sc => rfl) (fun sc => Or.inr (by simp)) h1
    · exact pres_fileAttachEntry _ _ _ h1
  · exact pres_fileAttachEntry _ _ _ h1

theorem pres_ctlAttachTo (ci : Nat) (t2 t : Str) (hi : Nat) (s : FileState)
    (h : secInProgress t s) : secInProgress t (ctlAttachTo ci t2 hi s).1 := by
  unfold ctlAttachTo
  dsimp only
  split
  · exact h
  · exact pres_secAttachEntry _ _ _ _ _ h

theorem pres_fileRemoveEntry (ci : Nat) (t : Str) (s : FileState) (h : secInProgress t s) :
    secInProgress t (fileRemoveEntry ci s) := by
  unfold fileRemoveEntry
  dsimp only
  split
  · exact h
  · exact h

theorem pres_secRemoveEntry (t2 t : Str) (ci : Nat) (s : FileState) (h : secInProgress t s) :
    secInProgress t (secRemoveEntry t2 ci s) := by
  unfold secRemoveEntry
  dsimp only
  exact pres_fileRemoveEntry _ _ _
    (pres_updSec_keep _ _ _ _ (fun sc => rfl) (fun sc => Or.inl rfl) h)

theorem pres_ctlRemove (ci : Nat) (t2 t : Str) (s : FileState) (h : secInProgress t s) :
    secInProgress t (ctlRemove ci t2 s) := by
  unfold ctlRemove
  dsimp only
  split
  · exact pres_secRemoveEntry _ _ _ _ h
  · exact h

theorem pres_hSetEffect (hi : Nat) (e : Effect) (t : Str) (s : FileState)
    (h : secInProgress t s) : secInProgress t (hSetEffect hi e s) :=
  pres_ctlSetEffect _ _ _ _ _ h

theorem pres_hSetMatch (hi : Nat) (m : MatchScope) (t : Str) (s : FileState)
    (h : secInProgress t s) : secInProgress t (hSetMatch hi m s) :=
  pres_ctlSetMatch _ _ _ _ _ h

theorem pres_hAttach (hi : Nat) (t : Str) (s : FileState) (h : secInProgress t s) :
    secInProgress t (hAttach hi s) := by
  unfold hAttach
  dsimp only
  exact pres_ctlAttachTo _ _ _ _ _ h

theorem pres_hIgnore (hi : Nat) (flag : Bool) (t : Str) (s : FileState)
    (h : secInProgress t s) : secInProgress t (hIgnore hi flag s) :=
  pres_hAttach _ _ _ (pres_hSetEffect _ _ _ _ h)

theorem pres_hRemove (hi : Nat) (t : Str) (s : FileState) (h : secInProgress t s) :
    secInProgress t (hRemove hi s) := pres_ctlRemove _ _ _ _ h

theorem pres_applyUpdate (rp : RawPattern) (hi : Nat) (t : Str) (s : FileState)
    (h : secInProgress t s) : secInProgress t (applyUpdate rp hi s) := by
  unfold applyUpdate
  dsimp only
  match rp.eff, rp.mtch with
  | some e, some m => exact pres_hSetEffect _ _ _ _ (pres_hSetMatch _ _ _ _ h)
  | some e, none => exact pres_hSetEffect _ _ _ _ h
  | none, some m => exact pres_hSetMatch _ _ _ _ h
  | none, none => exact h

theorem pres_secEntry (t2 : Str) (raw : Str) (octl : Option Nat) (t : Str) (s : FileState)
    (h : secInProgress t s) : secInProgress t (secEntry t2 raw octl s).1 := by
  unfold secEntry
  dsimp only
  split
  · exact pres_applyUpdate _ _ _ _ h
  · split <;> exact pres_applyUpdate _ _ _ _ h

theorem pres_fileSection (t2 t : Str) (s : FileState) (h : secInProgress t s) :
    secInProgress t (fileSection t2 s) := by
  unfold secInProgress at h ⊢
  rw [getSec_fileSection t2 t s (secInProgress_exists t s h)]
  exact h

theorem pres_fileEntry (raw : Str) (t : Str) (s : FileState) (h : secInProgress t s) :
    secInProgress t (fileEntry raw s).1 := by
  unfold fileEntry
  dsimp only
  split
  · split
    · exact pres_secEntry _ _ _ _ _ h
    · exact pres_secEntry _ _ _ _ _ (pres_fileSection _ _ _ h)
  · exact pres_secEntry _ _ _ _ _ (pres_fileSection _ _ _ h)

theorem pres_markDetached (t2 t : Str) (s : FileState) (h : secInProgress t s) :
    secInProgress t (markDetached t2 s) := by
  unfold markDetached
  dsimp only
  have hfold : secInProgress t
      (List.foldl (fun s e => setCtl e.2.2 { getCtl s e.2.2 with detached := true } s) s
        (getSec s t2).entries) := by
    generalize (getSec s t2).entries = es
    unfold secInProgress at h ⊢
    induction es generalizing s with
    | nil => exact h
    | cons a rest ih => rw [List.foldl_cons]; exact ih _ h
  exact pres_updSec_keep _ _ _ _ (fun sc => rfl) (fun sc => Or.inr (by simp)) hfold

theorem pres_sweepDetached_ne (t2 t : Str) (s : FileState) (hne : t ≠ t2)
    (h : secInProgress t s) : secInProgress t (sweepDetached t2 s) := by
  unfold sweepDetached
  dsimp only
  have hstep : ∀ (es : List (Str × Nat × Nat)) (s2 : FileState), secInProgress t s2 →
      secInProgress t (es.foldl (fun s e => hRemove e.2.1 s) s2) := by
    intro es
    induction es with
    | nil => intro s2 h2; exact h2
    | cons a rest ih =>
      intro s2 h2
      rw [List.foldl_cons]
      exact ih _ (pres_hRemove _ _ _ h2)
  have h2 := hstep ((getSec s t2).detachedMap.getD []) s h
  unfold secInProgress at h2 ⊢
  rw [getSec_updSec_ne t2 t (fun sc => { sc with detachedMap := none }) _ (fun sc => rfl) hne]
  exact h2

theorem runActs_pres (t : Str) (l : List Act) (s : FileState) (h : secInProgress t s) :
    secInProgress t (runActs l s).1 := by
  induction l, s using runActs.induct with
  | case1 s => simpa [runActs] using h
  | case2 t2 rest s ih => simp only [runActs]; exact ih (pres_fileSection _ _ _ h)
  | case3 raw rest s ih => simp only [runActs]; exact ih (pres_fileEntry _ _ _ h)
  | case4 t2 raw rest s ih =>
    simp only [runActs]
    exact ih (pres_secEntry _ _ _ _ _ (pres_fileSection _ _ _ h))
  | case5 hh e rest s ih => simp only [runActs]; exact ih (pres_hSetEffect _ _ _ _ h)
  | case6 hh m rest s ih => simp only [runActs]; exact ih (pres_hSetMatch _ _ _ _ h)
  | case7 hh rest s ih => simp only [runActs]; exact ih (pres_hAttach _ _ _ h)
  | case8 hh flag rest s ih => simp only [runActs]; exact ih (pres_hIgnore _ _ _ _ h)
  | case9 hh rest s ih => simp only [runActs]; exact ih (pres_hRemove _ _ _ h)
  | case10 tail s => simpa [runActs] using h
  | case11 t2 build rest s s1 hs r hr2 m1 m2 m3 =>
    simp only [runActs]
    split
    · exact m3 (m2 (pres_fileSection _ _ _ h))
    · next h2 => exact absurd hs h2
  | case12 t2 build rest s s1 hs r hr2 m1 =>
    simp only [runActs]
    split
    · exact m1 (pres_fileSection _ _ _ h)
    · next h2 => exact absurd hs h2
  | case13 t2 build rest s s1 hns r s2 hr2 m1 m2 m3 =>
    simp only [runActs]
    split
    · next h2 => exact absurd h2 hns
    · have hne : t ≠ t2 := fun hc => hns (by rw [← hc]; exact pres_fileSection t2 t s h)
      exact m3 (pres_sweepDetached_ne _ _ _ hne
        (m2 (pres_markDetached _ _ _ (pres_fileSection _ _ _ h))))
  | case14 t2 build rest s s1 hns r hr2 m1 =>
    simp only [runActs]
    split
    · next h2 => exact absurd h2 hns
    · have hne : t ≠ t2 := fun hc => hns (by rw [← hc]; exact pres_fileSection t2 t s h)
      exact pres_sweepDetached_ne _ _ _ hne
        (m1 (pres_markDetached _ _ _ (pres_fileSection _ _ _ h)))

theorem runActs_cons (a : Act) (rest : List Act) (s : FileState) :
    runActs (a :: rest) s =
      (if (runActs [a] s).2 = true then runActs rest (runActs [a] s).1 else runActs [a] s) := by
  cases a with
  | fsec t => simp [runActs]
  | fent raw => simp [runActs]
  | sent t raw => simp [runActs]
  | setE h e => simp [runActs]
  | setM h m => simp [runActs]
  | att h => simp [runActs]
  | ign h flag => simp [runActs]
  | rem h => simp [runActs]
  | failStep => simp [runActs]
  | rep t build =>
    by_cases hs : (getSec (fileSection t s) t).detachedMap.isSome = true
    · simp only [runActs, hs, if_true]
      by_cases hr : (runActs build (fileSection t s)).2 = true
      · simp [hr, runActs]
      · simp [hr, runActs]
    · simp only [runActs, hs, if_false]
      by_cases hr : (runActs build (markDetached t (fileSection t s))).2 = true
      · simp [hs, hr, runActs]
      · simp [hs, hr, runActs]

theorem runActs_append (xs ys : List Act) (s : FileState) :
    runActs (xs ++ ys) s =
      (if (runActs xs s).2 = true then runActs ys (runActs xs s).1 else runActs xs s) := by
  induction xs generalizing s with
  | nil => simp [runActs]
  | cons a rest ih =>
    rw [List.cons_append, runActs_cons a (rest ++ ys) s, runActs_cons a rest s]
    by_cases h1 : (runActs [a] s).2 = true
    · rw [if_pos h1, if_pos h1, ih]
    · rw [if_neg h1, if_neg h1, if_neg h1]

theorem runActs_fold_inner (t : Str) (b1 b2 b3 : List Act) (s1 : FileState)
    (h : secInProgress t s1) :
    runActs (b1 ++ Act.rep t b2 :: b3) s1 = runActs (b1 ++ (b2 ++ b3)) s1 := by
  rw [runActs_append, runActs_append]
  by_cases h1 : (runActs b1 s1).2 = true
  · rw [if_pos h1, if_pos h1]
    have hp : secInProgress t (runActs b1 s1).1 := runActs_pres t b1 s1 h
    rw [runActs_cons, runActs_append]
    have hfs : fileSection t (runActs b1 s1).1 = (runActs b1 s1).1 :=
      fileSection_of_exists t _ (secInProgress_exists t _ hp)
    have hguard : (getSec (fileSection t (runActs b1 s1).1) t).detachedMap.isSome = true := by
      rw [hfs]; exact hp
    have hone : runActs [Act.rep t b2] (runActs b1 s1).1 = runActs b2 (runActs b1 s1).1 := by
      simp only [runActs, hguard, if_true]
      rw [hfs]
      by_cases h2 : (runActs b2 (runActs b1 s1).1).2 = true
      · simp only [runActs, h2, if_true]
        rw [← h2]
      · simp [runActs, h2]
    rw [hone]
  · rw [if_neg h1, if_neg h1]

theorem getSec_updSec_self (t : Str) (f : SectionCtl → SectionCtl) (s : FileState)
    (htitle : ∀ sc, (f sc).title = sc.title) (h : (secIdx s t).isSome) :
    getSec (updSec t f s) t = f (getSec s t) := by
  unfold getSec
  rw [secIdx_updSec t t f s htitle]
  match hidx : secIdx s t with
  | none => rw [hidx] at h; simp at h
  | some i =>
    unfold updSec
    rw [hidx]
    dsimp only
    have hi : i < s.sections.length := by
      unfold secIdx at hidx
      exact (List.findIdx?_eq_some_iff_findIdx_eq.mp hidx).1
    exact getD_set_self _ _ _ _ hi

theorem detachFold_sections (es : List (Str × Nat × Nat)) (s : FileState) :
    (es.foldl (fun s e => setCtl e.2.2 { getCtl s e.2.2 with detached := true } s) s).sections
      = s.sections := by
  induction es generalizing s with
  | nil => rfl
  | cons a rest ih => rw [List.foldl_cons, ih]; rfl

theorem mark_inProgress (t : Str) (s : FileState) (h : (secIdx s t).isSome) :
    secInProgress t (markDetached t s) := by
  unfold markDetached
  dsimp only
  have hsec : (secIdx (List.foldl (fun s e => setCtl e.2.2 { getCtl s e.2.2 with detached := true } s) s (getSec s t).entries) t).isSome := by
    unfold secIdx
    rw [detachFold_sections]
    exact h
  unfold secInProgress
  rw [getSec_updSec_self t
    (fun sc => { sc with detachedMap := some (getSec (List.foldl (fun s e => setCtl e.2.2 { getCtl s e.2.2 with detached := true } s) s (getSec s t).entries) t).entries })
    _ (fun sc => rfl) hsec]
  simp

/-- C8 a replace call on a section while a replace pass on the same section
is in progress does not start a new mark/sweep pass: running the outer pass
with the nested call is the same computation as running it with the nested
build inlined, so the declarations fold into the one outermost pass and the
removal of undeclared entries happens only when the outermost pass
completes (the single sweep of the non-nested run). -/
theorem c8_nested_replace_folds (t : Str) (b1 b2 b3 rest : List Act) (s : FileState) :
    runActs (Act.rep t (b1 ++ Act.rep t b2 :: b3) :: rest) s
      = runActs (Act.rep t (b1 ++ (b2 ++ b3)) :: rest) s := by
  rw [runActs_cons, runActs_cons _ rest s]
  have hhead : runActs [Act.rep t (b1 ++ Act.rep t b2 :: b3)] s
      = runActs [Act.rep t (b1 ++ (b2 ++ b3))] s := by
    by_cases hs : (getSec (fileSection t s) t).detachedMap.isSome = true
    · simp only [runActs, hs, if_true]
      rw [runActs_fold_inner t b1 b2 b3 (fileSection t s) hs]
    · simp only [runActs, hs, Bool.false_eq_true, if_false]
      have hx : (secIdx (fileSection t s) t).isSome := by
        unfold fileSection
        split
        · assumption
        · unfold secIdx
          dsimp only
          rw [List.findIdx?_append]
          cases hidx : List.findIdx? (fun sc => decide (sc.title = t)) s.sections with
          | some i => simp [hidx]
          | none => simp [hidx, List.findIdx?_cons]
      have hmark : secInProgress t (markDetached t (fileSection t s)) :=
        mark_inProgress t (fileSection t s) hx
      rw [runActs_fold_inner t b1 b2 b3 (markDetached t (fileSection t s)) hmark]
  rw [hhead]

theorem set_getD_eq {α : Type} (l : List α) (i : Nat) (d : α) :
    l.set i (l.getD i d) = l := by
  induction l generalizing i with
  | nil => rfl
  | cons a rest ih =>
    match i with
    | 0 => rfl
    | n + 1 => simpa [List.set] using ih n

theorem setCtl_refl (s : FileState) (i : Nat) (c : EntryCtl) (h : getCtl s i = c) :
    setCtl i c s = s := by
  unfold setCtl
  unfold getCtl at h
  rw [← h, set_getD_eq]

theorem setHandle_refl (s : FileState) (i : Nat) (hd : Handle) (h : getHandle s i = hd) :
    setHandle i hd s = s := by
  unfold setHandle
  unfold getHandle at h
  rw [← h, set_getD_eq]

theorem getCtl_setCtl_ne (s : FileState) (i j : Nat) (c : EntryCtl) (h : i ≠ j) :
    getCtl (setCtl i c s) j = getCtl s j := by
  unfold getCtl setCtl
  exact getD_set_ne _ _ _ _ _ h

theorem mGet_cons {α : Type} (k : Str) (x : Str × α) (rest : List (Str × α)) :
    mGet k (x :: rest) = if x.1 = k then some x.2 else mGet k rest := by
  rcases x with ⟨a, b⟩
  rfl

theorem mSet_same {α : Type} (k : Str) (v : α) (m : List (Str × α)) (h : mGet k m = some v) :
    mSet k v m = m := by
  induction m with
  | nil => simp [mGet] at h
  | cons a rest ih =>
    by_cases hk : a.1 = k
    · have h2 : a.2 = v := by
        unfold mGet at h
        rw [if_pos hk] at h
        simpa using h
      unfold mSet
      rw [if_pos hk, ← h2]
    · unfold mGet at h
      rw [if_neg hk] at h
      unfold mSet
      rw [if_neg hk, ih h]

theorem mDel_eq_filter {α : Type} (k : Str) (m : List (Str × α))
    (h : (keysOf m).Nodup) : mDel k m = m.filter (fun e => !(e.1 = k)) := by
  induction m with
  | nil => rfl
  | cons a rest ih =>
    simp only [keysOf, List.map_cons, List.nodup_cons] at h
    unfold mDel
    by_cases hk : a.1 = k
    · rw [if_pos hk]
      subst hk
      have : rest.filter (fun e => !(e.1 = a.1)) = rest := by
        apply List.filter_eq_self.mpr
        intro e he
        simp only [Bool.not_eq_true']
        rw [decide_eq_false_iff_not]
        intro hc
        exact h.1 (by rw [← hc]; exact List.mem_map_of_mem (fun e => e.1) he)
      simp [this]
    · rw [if_neg hk]
      rw [ih h.2]
      have : (decide (a.1 = k)) = false := by simp [hk]
      simp [List.filter_cons, this]

theorem mGet_of_mem {α : Type} (k : Str) (v : α) (m : List (Str × α))
    (hn : (keysOf m).Nodup) (h : (k, v) ∈ m) : mGet k m = some v := by
  induction m with
  | nil => simp at h
  | cons a rest ih =>
    simp only [keysOf, List.map_cons, List.nodup_cons] at hn
    rcases List.mem_cons.mp h with he | he
    · unfold mGet
      rw [← he]
      simp
    · have hk : ¬(a.1 = k) :=
        fun hc => hn.1 (hc ▸ List.mem_map_of_mem (fun e => e.1) he)
      unfold mGet
      rw [if_neg hk]
      exact ih hn.2 he

theorem mem_of_mGet {α : Type} (k : Str) (v : α) (m : List (Str × α))
    (h : mGet k m = some v) : (k, v) ∈ m := by
  induction m with
  | nil => simp [mGet] at h
  | cons a rest ih =>
    unfold mGet at h
    split at h
    · next heq =>
      have h2 : a.2 = v := by simpa using h
      rw [← heq, ← h2]
      exact List.mem_cons_self _ _
    · next hne => exact List.mem_cons_of_mem _ (ih h)

theorem mGet_mDel_ne {α : Type} (k k2 : Str) (m : List (Str × α)) (h : k2 ≠ k) :
    mGet k2 (mDel k m) = mGet k2 m := by
  induction m with
  | nil => rfl
  | cons a rest ih =>
    by_cases hk : a.1 = k
    · unfold mDel
      rw [if_pos hk]
      have hne : ¬(a.1 = k2) := by rw [hk]; exact fun hc => h hc.symm
      rw [mGet_cons, if_neg hne]
    · unfold mDel
      rw [if_neg hk]
      unfold mGet
      by_cases hk2 : a.1 = k2
      · rw [if_pos hk2, if_pos hk2]
      · rw [if_neg hk2, if_neg hk2, ih]

theorem mGet_eq_none_of_not_mem {α : Type} (k : Str) (m : List (Str × α))
    (h : k ∉ keysOf m) : mGet k m = none := by
  induction m with
  | nil => rfl
  | cons a rest ih =>
    simp only [keysOf, List.map_cons, List.mem_cons] at h
    push_neg at h
    rw [mGet_cons, if_neg (fun hc => h.1 hc.symm)]
    exact ih h.2

theorem mGet_mDel_self {α : Type} (k : Str) (m : List (Str × α))
    (hn : (keysOf m).Nodup) : mGet k (mDel k m) = none := by
  induction m with
  | nil => rfl
  | cons a rest ih =>
    simp only [keysOf, List.map_cons, List.nodup_cons] at hn
    by_cases hk : a.1 = k
    · unfold mDel
      rw [if_pos hk]
      exact mGet_eq_none_of_not_mem _ _ (hk ▸ hn.1)
    · unfold mDel
      rw [if_neg hk, mGet_cons, if_neg hk]
      exact ih hn.2

theorem keysOf_mDel_nodup {α : Type} (k : Str) (m : List (Str × α))
    (hn : (keysOf m).Nodup) : (keysOf (mDel k m)).Nodup := by
  rw [mDel_eq_filter k m hn]
  exact List.Nodup.sublist (List.Sublist.map _ (List.filter_sublist m)) hn

theorem fileState_ext (a b : FileState) (h1 : a.sections = b.sections)
    (h2 : a.entryCtls = b.entryCtls) (h3 : a.ctls = b.ctls)
    (h4 : a.handles = b.handles) (h5 : a.isModified = b.isModified) : a = b := by
  cases a
  cases b
  simp_all

theorem sectionCtl_dm_id (sc : SectionCtl) (h : sc.detachedMap = none) :
    { sc with detachedMap := none } = sc := by
  cases sc
  simp_all

theorem ctl_detached_false_id (c : EntryCtl) (h : c.detached = false) :
    { c with detached := false } = c := by
  cases c
  simp_all

theorem updSec_ctls (t : Str) (f : SectionCtl → SectionCtl) (s : FileState) :
    (updSec t f s).ctls = s.ctls := by
  unfold updSec
  cases secIdx s t <;> rfl

theorem updSec_handles (t : Str) (f : SectionCtl → SectionCtl) (s : FileState) :
    (updSec t f s).handles = s.handles := by
  unfold updSec
  cases secIdx s t <;> rfl

theorem updSec_entryCtls (t : Str) (f : SectionCtl → SectionCtl) (s : FileState) :
    (updSec t f s).entryCtls = s.entryCtls := by
  unfold updSec
  cases secIdx s t <;> rfl

theorem getCtl_updSec (t : Str) (f : SectionCtl → SectionCtl) (s : FileState) (j : Nat) :
    getCtl (updSec t f s) j = getCtl s j := by
  unfold getCtl
  rw [updSec_ctls]

theorem getHandle_updSec (t : Str) (f : SectionCtl → SectionCtl) (s : FileState) (j : Nat) :
    getHandle (updSec t f s) j = getHandle s j := by
  unfold getHandle
  rw [updSec_handles]

theorem secIdx_congr (s1 s2 : FileState) (t : Str) (h : s1.sections = s2.sections) :
    secIdx s1 t = secIdx s2 t := by
  unfold secIdx
  rw [h]

theorem getSec_congr (s1 s2 : FileState) (t : Str) (h : s1.sections = s2.sections) :
    getSec s1 t = getSec s2 t := by
  unfold getSec secIdx
  rw [h]

theorem detachIn_sections (pend : List (Str × Nat × Nat)) (s : FileState) :
    (detachIn pend s).sections = s.sections := detachFold_sections pend s

theorem detachIn_entryCtls (pend : List (Str × Nat × Nat)) (s : FileState) :
    (detachIn pend s).entryCtls = s.entryCtls := by
  induction pend generalizing s with
  | nil => rfl
  | cons a rest ih => exact ih _

theorem detachIn_handles (pend : List (Str × Nat × Nat)) (s : FileState) :
    (detachIn pend s).handles = s.handles := by
  induction pend generalizing s with
  | nil => rfl
  | cons a rest ih => exact ih _

theorem detachIn_isModified (pend : List (Str × Nat × Nat)) (s : FileState) :
    (detachIn pend s).isModified = s.isModified := by
  induction pend generalizing s with
  | nil => rfl
  | cons a rest ih => exact ih _

theorem detachIn_ctls_length (pend : List (Str × Nat × Nat)) (s : FileState) :
    (detachIn pend s).ctls.length = s.ctls.length := by
  induction pend generalizing s with
  | nil => rfl
  | cons a rest ih =>
    have := ih (setCtl a.2.2 { getCtl s a.2.2 with detached := true } s)
    simpa [setCtl] using this

theorem getCtl_detachIn (pend : List (Str × Nat × Nat)) (s : FileState)
    (hnd : (cisOf pend).Nodup) (hlt : ∀ e ∈ pend, e.2.2 < s.ctls.length) (j : Nat) :
    getCtl (detachIn pend s) j =
      if j ∈ cisOf pend then { getCtl s j with detached := true } else getCtl s j := by
  induction pend generalizing s with
  | nil => simp [detachIn, cisOf]
  | cons a rest ih =>
    rw [show cisOf (a :: rest) = a.2.2 :: cisOf rest from rfl, List.nodup_cons] at hnd
    have hstep : detachIn (a :: rest) s
        = detachIn rest (setCtl a.2.2 { getCtl s a.2.2 with detached := true } s) := rfl
    rw [hstep]
    have hlt2 : ∀ e ∈ rest,
        e.2.2 < (setCtl a.2.2 { getCtl s a.2.2 with detached := true } s).ctls.length := by
      intro e he
      have : (setCtl a.2.2 { getCtl s a.2.2 with detached := true } s).ctls.length
          = s.ctls.length := by simp [setCtl]
      rw [this]
      exact hlt e (List.mem_cons_of_mem _ he)
    rw [ih _ hnd.2 hlt2]
    have hmemc : j ∈ cisOf (a :: rest) ↔ j = a.2.2 ∨ j ∈ cisOf rest := by
      rw [show cisOf (a :: rest) = a.2.2 :: cisOf rest from rfl, List.mem_cons]
    by_cases h1 : j = a.2.2
    · subst h1
      rw [if_neg hnd.1, if_pos (hmemc.mpr (Or.inl rfl))]
      exact getCtl_setCtl_self s a.2.2 _ (hlt a (List.mem_cons_self _ _))
    · have hc : getCtl (setCtl a.2.2 { getCtl s a.2.2 with detached := true } s) j
          = getCtl s j := getCtl_setCtl_ne s a.2.2 j _ (fun hcc => h1 hcc.symm)
      by_cases h2 : j ∈ cisOf rest
      · rw [if_pos h2, if_pos (hmemc.mpr (Or.inr h2)), hc]
      · rw [if_neg h2, if_neg (fun hcc => (hmemc.mp hcc).elim h1 h2), hc]

theorem cisOf_nodup_of_keys (l : List (Str × Nat × Nat)) (s : FileState)
    (hk : (keysOf l).Nodup) (hp : ∀ e ∈ l, (getCtl s e.2.2).pattern = e.1) :
    (cisOf l).Nodup := by
  have hl : l.Nodup := List.Nodup.of_map _ hk
  apply List.Nodup.map_on ?_ hl
  intro x hx y hy hxy
  have hkey : x.1 = y.1 := by rw [← hp x hx, ← hp y hy, hxy]
  exact List.inj_on_of_nodup_map hk hx hy hkey

theorem mem_cisOf_mDel (l : List (Str × Nat × Nat)) (p : Str) (pr : Nat × Nat)
    (hk : (keysOf l).Nodup) (hc : (cisOf l).Nodup)
    (hget : mGet p l = some pr) (j : Nat) :
    j ∈ cisOf (mDel p l) ↔ j ∈ cisOf l ∧ j ≠ pr.2 := by
  have hmem : (p, pr) ∈ l := mem_of_mGet _ _ _ hget
  rw [mDel_eq_filter p l hk]
  constructor
  · intro hj
    simp only [cisOf, List.mem_map] at hj
    obtain ⟨e, he, hje⟩ := hj
    rw [List.mem_filter] at he
    refine ⟨by simp only [cisOf, List.mem_map]; exact ⟨e, he.1, hje⟩, ?_⟩
    intro hcontra
    have heq : e = (p, pr) := by
      apply List.inj_on_of_nodup_map hc he.1 hmem
      show e.2.2 = (p, pr).2.2
      rw [hje, hcontra]
    have hne : ¬(e.1 = p) := by
      have := he.2
      simp only [Bool.not_eq_true', decide_eq_false_iff_not] at this
      exact this
    exact hne (by rw [heq])
  · rintro ⟨hj, hne⟩
    simp only [cisOf, List.mem_map] at hj ⊢
    obtain ⟨e, he, hje⟩ := hj
    refine ⟨e, List.mem_filter.mpr ⟨he, ?_⟩, hje⟩
    simp only [Bool.not_eq_true', decide_eq_false_iff_not]
    intro hc2
    have hgete : mGet e.1 l = some e.2 := by
      apply mGet_of_mem _ _ _ hk
      show (e.1, e.2) ∈ l
      simpa using he
    rw [hc2, hget] at hgete
    have he2 : e.2 = pr := by
      injection hgete with hx
      exact hx.symm
    exact hne (by rw [← hje, he2])

theorem getCtl_eq_getElem (s : FileState) (j : Nat) (h : j < s.ctls.length) :
    s.ctls[j] = getCtl s j := by
  unfold getCtl
  rw [List.getD_eq_getElem?_getD, List.getElem?_eq_getElem h]
  rfl

theorem setCtl_detachIn_del (s : FileState) (pend : List (Str × Nat × Nat)) (p : Str)
    (hi ci : Nat) (hk : (keysOf pend).Nodup) (hc : (cisOf pend).Nodup)
    (hlt : ∀ e ∈ pend, e.2.2 < s.ctls.length)
    (hget : mGet p pend = some (hi, ci)) :
    setCtl ci (getCtl s ci) (detachIn pend s) = detachIn (mDel p pend) s := by
  have hmem : (p, hi, ci) ∈ pend := mem_of_mGet _ _ _ hget
  have hsubl : List.Sublist (mDel p pend) pend := by
    rw [mDel_eq_filter p pend hk]
    exact List.filter_sublist pend
  have hcd : (cisOf (mDel p pend)).Nodup :=
    List.Nodup.sublist (List.Sublist.map _ hsubl) hc
  have hltd : ∀ e ∈ mDel p pend, e.2.2 < s.ctls.length :=
    fun e he => hlt e (hsubl.subset he)
  have hcin : ci ∈ cisOf pend := by
    simp only [cisOf, List.mem_map]
    exact ⟨(p, hi, ci), hmem, rfl⟩
  have hltpr : ci < s.ctls.length := hlt _ hmem
  have hiff2 : ∀ j, j ∈ cisOf (mDel p pend) ↔ j ∈ cisOf pend ∧ j ≠ ci :=
    mem_cisOf_mDel pend p (hi, ci) hk hc hget
  apply fileState_ext
  · show (detachIn pend s).sections = (detachIn (mDel p pend) s).sections
    rw [detachIn_sections, detachIn_sections]
  · show (detachIn pend s).entryCtls = (detachIn (mDel p pend) s).entryCtls
    rw [detachIn_entryCtls, detachIn_entryCtls]
  · show ((detachIn pend s).ctls.set ci (getCtl s ci)) = (detachIn (mDel p pend) s).ctls
    apply List.ext_getElem
    · simp [detachIn_ctls_length]
    · intro j hj1 hj2
      have hjlen : j < s.ctls.length := by
        rw [detachIn_ctls_length] at hj2
        exact hj2
      have hjlen2 : j < (setCtl ci (getCtl s ci) (detachIn pend s)).ctls.length := by
        simpa [setCtl] using hj1
      have hl : (((detachIn pend s).ctls.set ci (getCtl s ci)))[j]
          = getCtl (setCtl ci (getCtl s ci) (detachIn pend s)) j :=
        getCtl_eq_getElem (setCtl ci (getCtl s ci) (detachIn pend s)) j hjlen2
      rw [hl, getCtl_eq_getElem _ _ hj2]
      rw [getCtl_detachIn _ _ hcd hltd]
      by_cases hjp : j = ci
      · subst hjp
        have hnotin : j ∉ cisOf (mDel p pend) := by
          rw [hiff2 j]
          intro hx
          exact hx.2 rfl
        rw [if_neg hnotin]
        have : getCtl (setCtl j (getCtl s j) (detachIn pend s)) j = getCtl s j := by
          apply getCtl_setCtl_self
          rw [detachIn_ctls_length]
          exact hltpr
        rw [this]
      · have hstep : getCtl (setCtl ci (getCtl s ci) (detachIn pend s)) j
            = getCtl (detachIn pend s) j :=
          getCtl_setCtl_ne _ _ _ _ (fun hcc => hjp hcc.symm)
        rw [hstep, getCtl_detachIn _ _ hc hlt]
        have hiff : j ∈ cisOf (mDel p pend) ↔ j ∈ cisOf pend :=
          (hiff2 j).trans (and_iff_left hjp)
        by_cases hin : j ∈ cisOf pend
        · rw [if_pos hin, if_pos (hiff.mpr hin)]
        · rw [if_neg hin, if_neg (fun hcc => hin (hiff.mp hcc))]
  · show (detachIn pend s).handles = (detachIn (mDel p pend) s).handles
    rw [detachIn_handles, detachIn_handles]
  · show (detachIn pend s).isModified = (detachIn (mDel p pend) s).isModified
    rw [detachIn_isModified, detachIn_isModified]

theorem secIdx_some_lt (s : FileState) (t : Str) (i : Nat) (h : secIdx s t = some i) :
    i < s.sections.length := by
  unfold secIdx at h
  exact (List.findIdx?_eq_some_iff_findIdx_eq.mp h).1

theorem updSec_eq_none (t : Str) (f : SectionCtl → SectionCtl) (s : FileState)
    (h : secIdx s t = none) : updSec t f s = s := by
  unfold updSec
  rw [h]

theorem updSec_eq_some (t : Str) (f : SectionCtl → SectionCtl) (s : FileState) (i : Nat)
    (h : secIdx s t = some i) :
    updSec t f s = { s with sections := s.sections.set i (f (s.sections.getD i default)) } := by
  unfold updSec
  rw [h]

theorem updSec_updSec (t : Str) (f g : SectionCtl → SectionCtl) (s : FileState)
    (hf : ∀ sc, (f sc).title = sc.title) :
    updSec t g (updSec t f s) = updSec t (fun sc => g (f sc)) s := by
  cases hidx : secIdx s t with
  | none =>
    rw [updSec_eq_none t f s hidx, updSec_eq_none t g s hidx,
      updSec_eq_none t (fun sc => g (f sc)) s hidx]
  | some i =>
    have hi : i < s.sections.length := secIdx_some_lt s t i hidx
    have hidx2 : secIdx (updSec t f s) t = some i := by
      rw [secIdx_updSec t t f s hf, hidx]
    rw [updSec_eq_some t g (updSec t f s) i hidx2, updSec_eq_some t f s i hidx]
    dsimp only
    rw [getD_set_self _ _ _ _ hi, List.set_set]
    rw [updSec_eq_some t _ s i hidx]

theorem updSec_congr_id (t : Str) (f : SectionCtl → SectionCtl) (s : FileState)
    (h : f (getSec s t) = getSec s t) : updSec t f s = s := by
  cases hidx : secIdx s t with
  | none =>
    unfold updSec
    rw [hidx]
  | some i =>
    unfold getSec at h
    rw [hidx] at h
    unfold updSec
    rw [hidx]
    dsimp only
    rw [h, set_getD_eq]

theorem setCtl_updSec (i : Nat) (c : EntryCtl) (t : Str) (f : SectionCtl → SectionCtl)
    (s : FileState) : setCtl i c (updSec t f s) = updSec t f (setCtl i c s) := by
  have hids : secIdx (setCtl i c s) t = secIdx s t := rfl
  cases hidx : secIdx s t with
  | none =>
    rw [updSec_eq_none t f s hidx, updSec_eq_none t f (setCtl i c s) (hids.trans hidx)]
  | some i2 =>
    rw [updSec_eq_some t f s i2 hidx, updSec_eq_some t f (setCtl i c s) i2 (hids.trans hidx)]
    rfl

theorem secIdx_detachIn (pend : List (Str × Nat × Nat)) (s : FileState) (t : Str) :
    secIdx (detachIn pend s) t = secIdx s t :=
  secIdx_congr _ _ _ (detachIn_sections pend s)

theorem secIdx_midSt (s0 : FileState) (t t2 : Str) (pend : List (Str × Nat × Nat)) :
    secIdx (midSt s0 t pend) t2 = secIdx s0 t2 := by
  unfold midSt
  rw [secIdx_updSec t t2 (fun sc => { sc with detachedMap := some pend })
    (detachIn pend s0) (fun sc => rfl), secIdx_detachIn]

theorem getSec_midSt_self (s0 : FileState) (t : Str) (pend : List (Str × Nat × Nat))
    (h : (secIdx s0 t).isSome = true) :
    getSec (midSt s0 t pend) t = { getSec s0 t with detachedMap := some pend } := by
  unfold midSt
  rw [getSec_updSec_self t (fun sc => { sc with detachedMap := some pend })
    (detachIn pend s0) (fun sc => rfl) (by rw [secIdx_detachIn]; exact h)]
  rw [getSec_congr (detachIn pend s0) s0 t (detachIn_sections pend s0)]

theorem getCtl_midSt (s0 : FileState) (t : Str) (pend : List (Str × Nat × Nat)) (j : Nat) :
    getCtl (midSt s0 t pend) j = getCtl (detachIn pend s0) j := by
  unfold midSt
  rw [getCtl_updSec]

theorem midSt_handles (s0 : FileState) (t : Str) (pend : List (Str × Nat × Nat)) :
    (midSt s0 t pend).handles = s0.handles := by
  unfold midSt
  rw [updSec_handles, detachIn_handles]

theorem midSt_entryCtls (s0 : FileState) (t : Str) (pend : List (Str × Nat × Nat)) :
    (midSt s0 t pend).entryCtls = s0.entryCtls := by
  unfold midSt
  rw [updSec_entryCtls, detachIn_entryCtls]

theorem getHandle_midSt (s0 : FileState) (t : Str) (pend : List (Str × Nat × Nat)) (j : Nat) :
    getHandle (midSt s0 t pend) j = getHandle s0 j := by
  unfold getHandle
  rw [midSt_handles]

theorem getHandle_congr (s1 s2 : FileState) (j : Nat) (h : s1.handles = s2.handles) :
    getHandle s1 j = getHandle s2 j := by
  unfold getHandle
  rw [h]

theorem ctl_attachedTo_id (c : EntryCtl) (t : Str) (h : c.attachedTo = some t) :
    { c with attachedTo := some t } = c := by
  cases c
  simp_all

theorem sectionCtl_entries_id (sc : SectionCtl) (x : List (Str × Nat × Nat))
    (h : x = sc.entries) : { sc with entries := x } = sc := by
  cases sc
  simp_all

theorem runDecl_sync (s0 : FileState) (t : Str) (pend : List (Str × Nat × Nat))
    (d : Str × Bool) (hi2 ci2 : Nat)
    (hidx : (secIdx s0 t).isSome = true)
    (hkeysE : (keysOf (getSec s0 t).entries).Nodup)
    (hsyncE : ∀ e ∈ (getSec s0 t).entries, pairSynced s0 t e)
    (hsub : List.Sublist pend (getSec s0 t).entries)
    (hget : mGet (declPat d) pend = some (hi2, ci2))
    (hgetE : mGet (declPat d) (getSec s0 t).entries = some (hi2, ci2))
    (heff : (getCtl s0 ci2).eff = some (declEff d))
    (hreff : (gitIgnorePattern d.1).eff = none
      ∨ (gitIgnorePattern d.1).eff = some (declEff d))
    (hrmtch : (gitIgnorePattern d.1).mtch = none
      ∨ (gitIgnorePattern d.1).mtch = (getCtl s0 ci2).mtch) :
    runDecl t d (midSt s0 t pend) = midSt s0 t (mDel (declPat d) pend) := by
  have hmemP : (declPat d, hi2, ci2) ∈ pend := mem_of_mGet _ _ _ hget
  have hmemE : (declPat d, hi2, ci2) ∈ (getSec s0 t).entries := hsub.subset hmemP
  have hps := hsyncE _ hmemE
  obtain ⟨hlt1, hlt2, hh, hreg, hpat, hatt, hdet⟩ := hps
  have hkeysP : (keysOf pend).Nodup :=
    List.Nodup.sublist (List.Sublist.map _ hsub) hkeysE
  have hcisE : (cisOf (getSec s0 t).entries).Nodup :=
    cisOf_nodup_of_keys _ s0 hkeysE (fun e he => (hsyncE e he).2.2.2.2.1)
  have hcisP : (cisOf pend).Nodup :=
    List.Nodup.sublist (List.Sublist.map _ hsub) hcisE
  have hltP : ∀ e ∈ pend, e.2.2 < s0.ctls.length :=
    fun e he => (hsyncE e (hsub.subset he)).2.1
  have hcimem : ci2 ∈ cisOf pend := by
    simp only [cisOf, List.mem_map]
    exact ⟨(declPat d, hi2, ci2), hmemP, rfl⟩
  have hsecm : getSec (midSt s0 t pend) t = { getSec s0 t with detachedMap := some pend } :=
    getSec_midSt_self s0 t pend hidx
  have hgc : getCtl (midSt s0 t pend) ci2 = { getCtl s0 ci2 with detached := true } := by
    rw [getCtl_midSt, getCtl_detachIn pend s0 hcisP hltP, if_pos hcimem]
  have hgh : getHandle (midSt s0 t pend) hi2 = ⟨declPat d, t, ci2⟩ := by
    rw [getHandle_midSt]
    exact hh
  have hSetE : ∀ ee : Effect, (getCtl s0 ci2).eff = some ee →
      hSetEffect hi2 ee (midSt s0 t pend) = midSt s0 t pend := by
    intro ee he
    unfold hSetEffect
    dsimp only
    rw [hgh]
    dsimp only
    unfold ctlSetEffect
    dsimp only
    rw [hgc]
    rw [if_pos (show ({ getCtl s0 ci2 with detached := true } : EntryCtl).eff = some ee from he)]
  have hSetM : ∀ mm : MatchScope, (getCtl s0 ci2).mtch = some mm →
      hSetMatch hi2 mm (midSt s0 t pend) = midSt s0 t pend := by
    intro mm hmv
    unfold hSetMatch
    dsimp only
    rw [hgh]
    dsimp only
    unfold ctlSetMatch
    dsimp only
    rw [hgc]
    rw [if_pos (show ({ getCtl s0 ci2 with detached := true } : EntryCtl).mtch = some mm from hmv)]
  have happly : applyUpdate (gitIgnorePattern d.1) hi2 (midSt s0 t pend) = midSt s0 t pend := by
    unfold applyUpdate
    dsimp only
    cases hm : (gitIgnorePattern d.1).mtch with
    | none =>
      cases he2 : (gitIgnorePattern d.1).eff with
      | none => rfl
      | some ee =>
        have hee : ee = declEff d := by
          rcases hreff with h1 | h1
          · rw [he2] at h1; simp at h1
          · rw [he2] at h1; exact Option.some_injective _ h1
        dsimp only
        rw [hee]
        exact hSetE _ heff
    | some mm =>
      have hmv : (getCtl s0 ci2).mtch = some mm := by
        rcases hrmtch with h1 | h1
        · rw [hm] at h1; simp at h1
        · rw [← h1]; exact hm
      dsimp only
      rw [hSetM mm hmv]
      cases he2 : (gitIgnorePattern d.1).eff with
      | none => rfl
      | some ee =>
        have hee : ee = declEff d := by
          rcases hreff with h1 | h1
          · rw [he2] at h1; simp at h1
          · rw [he2] at h1; exact Option.some_injective _ h1
        dsimp only
        rw [hee]
        exact hSetE _ heff
  have hstepA : secEntry t d.1 none (midSt s0 t pend) = (midSt s0 t pend, hi2) := by
    unfold secEntry
    dsimp only
    have hentm : (getSec (midSt s0 t pend) t).entries = (getSec s0 t).entries := by
      rw [hsecm]
    rw [hentm]
    rw [show mGet (gitIgnorePattern d.1).pattern (getSec s0 t).entries
      = some (hi2, ci2) from hgetE]
    dsimp only
    rw [happly]
  have hgcu : getCtl (updSec t
      (fun sc => { sc with detachedMap := some (mDel (declPat d) pend) })
      (midSt s0 t pend)) ci2 = { getCtl s0 ci2 with detached := true } := by
    rw [getCtl_updSec]
    exact hgc
  have hctlAtt : ctlAttachTo ci2 t hi2 (midSt s0 t pend)
      = (setCtl ci2 (getCtl s0 ci2) (updSec t
          (fun sc => { sc with detachedMap := some (mDel (declPat d) pend) })
          (midSt s0 t pend)), ci2) := by
    unfold ctlAttachTo
    dsimp only
    rw [hgc]
    rw [if_neg (fun hx => absurd (show true = false from hx.1) (by decide))]
    have hattc : ({ { getCtl s0 ci2 with detached := true } with attachedTo := some t } : EntryCtl)
        = { getCtl s0 ci2 with detached := true } :=
      ctl_attachedTo_id _ t (show (getCtl s0 ci2).attachedTo = some t from hatt)
    rw [hattc]
    rw [setCtl_refl _ _ _ hgc]
    unfold secAttachEntry
    dsimp only
    rw [hgh]
    dsimp only
    have hupd1 : updSec t
        (fun sc => { sc with entries := mSet (declPat d) (hi2, ci2) sc.entries })
        (midSt s0 t pend) = midSt s0 t pend := by
      apply updSec_congr_id
      apply sectionCtl_entries_id
      rw [hsecm]
      show mSet (declPat d) (hi2, ci2) (getSec s0 t).entries = (getSec s0 t).entries
      exact mSet_same _ _ _ hgetE
    rw [hupd1]
    rw [hsecm]
    dsimp only
    have hhas : mHas (declPat d) pend = true := by
      unfold mHas
      rw [hget]
      rfl
    rw [if_pos hhas]
    rw [hgcu]
    have hcoll : ({ { getCtl s0 ci2 with detached := true } with detached := false } : EntryCtl)
        = getCtl s0 ci2 := by
      have h2 : ({ { getCtl s0 ci2 with detached := true } with detached := false } : EntryCtl)
          = { getCtl s0 ci2 with detached := false } := rfl
      rw [h2]
      exact ctl_detached_false_id _ hdet
    rw [hcoll]
  have hS4 : setCtl ci2 (getCtl s0 ci2) (updSec t
      (fun sc => { sc with detachedMap := some (mDel (declPat d) pend) })
      (midSt s0 t pend)) = midSt s0 t (mDel (declPat d) pend) := by
    have e1 : updSec t
        (fun sc => { sc with detachedMap := some (mDel (declPat d) pend) })
        (midSt s0 t pend)
        = updSec t (fun sc => { sc with detachedMap := some (mDel (declPat d) pend) })
          (detachIn pend s0) := by
      unfold midSt
      rw [updSec_updSec t
        (fun sc => { sc with detachedMap := some pend })
        (fun sc => { sc with detachedMap := some (mDel (declPat d) pend) })
        (detachIn pend s0) (fun sc => rfl)]
    rw [e1, setCtl_updSec]
    rw [setCtl_detachIn_del s0 pend (declPat d) hi2 ci2 hkeysP hcisP hltP hget]
    rfl
  have hgh2 : getHandle (midSt s0 t (mDel (declPat d) pend)) hi2 = ⟨declPat d, t, ci2⟩ := by
    rw [getHandle_midSt]
    exact hh
  have hstepC : hAttach hi2 (midSt s0 t pend) = midSt s0 t (mDel (declPat d) pend) := by
    unfold hAttach
    dsimp only
    rw [hgh]
    dsimp only
    rw [hctlAtt]
    dsimp only
    rw [hS4]
    exact setHandle_refl _ _ _ (by rw [hgh2])
  unfold runDecl
  dsimp only
  rw [hstepA]
  dsimp only
  unfold hIgnore
  rw [hSetE (if d.2 then Effect.ignore else Effect.incl)
    (show (getCtl s0 ci2).eff = some (if d.2 then Effect.ignore else Effect.incl) from heff)]
  exact hstepC

theorem runDecls_sync (s0 : FileState) (t : Str)
    (hidx : (secIdx s0 t).isSome = true)
    (hkeysE : (keysOf (getSec s0 t).entries).Nodup)
    (hsyncE : ∀ e ∈ (getSec s0 t).entries, pairSynced s0 t e)
    (ds : List (Str × Bool)) (pend : List (Str × Nat × Nat))
    (hsub : List.Sublist pend (getSec s0 t).entries)
    (hnodup : (ds.map declPat).Nodup)
    (hmatch : ∀ d ∈ ds, declMatches s0 t d)
    (hpres : ∀ d ∈ ds, mGet (declPat d) pend = mGet (declPat d) (getSec s0 t).entries) :
    runDecls t ds (midSt s0 t pend) = midSt s0 t (dropDecls ds pend) := by
  induction ds generalizing pend with
  | nil => rfl
  | cons d rest ih =>
    simp only [List.map_cons, List.nodup_cons] at hnodup
    obtain ⟨e, heE, hkey, heff, hreff, hrmtch⟩ := hmatch d (List.mem_cons_self _ _)
    have hkeysP : (keysOf pend).Nodup :=
      List.Nodup.sublist (List.Sublist.map _ hsub) hkeysE
    have hmemE2 : (declPat d, e.2) ∈ (getSec s0 t).entries := by
      rw [← hkey]
      exact heE
    have hgetE : mGet (declPat d) (getSec s0 t).entries = some (e.2.1, e.2.2) :=
      mGet_of_mem _ _ _ hkeysE hmemE2
    have hget2 : mGet (declPat d) pend = some (e.2.1, e.2.2) := by
      rw [hpres d (List.mem_cons_self _ _)]
      exact hgetE
    have hstep := runDecl_sync s0 t pend d e.2.1 e.2.2 hidx hkeysE hsyncE hsub
      hget2 hgetE heff hreff hrmtch
    show runDecls t rest (runDecl t d (midSt s0 t pend))
      = midSt s0 t (dropDecls (d :: rest) pend)
    rw [hstep]
    have hsub2 : List.Sublist (mDel (declPat d) pend) (getSec s0 t).entries := by
      rw [mDel_eq_filter _ _ hkeysP]
      exact (List.filter_sublist pend).trans hsub
    have hpres2 : ∀ d2 ∈ rest, mGet (declPat d2) (mDel (declPat d) pend)
        = mGet (declPat d2) (getSec s0 t).entries := by
      intro d2 hd2
      have hne : declPat d2 ≠ declPat d := by
        intro hc
        exact hnodup.1 (hc ▸ List.mem_map_of_mem declPat hd2)
      rw [mGet_mDel_ne _ _ _ hne]
      exact hpres d2 (List.mem_cons_of_mem _ hd2)
    exact ih (mDel (declPat d) pend) hsub2 hnodup.2
      (fun d2 hd2 => hmatch d2 (List.mem_cons_of_mem _ hd2)) hpres2

theorem dropDecls_sub (ds : List (Str × Bool)) (pend : List (Str × Nat × Nat))
    (hk : (keysOf pend).Nodup) :
    dropDecls ds pend = pend.filter (fun e => !(decide (e.1 ∈ ds.map declPat))) := by
  induction ds generalizing pend with
  | nil => simp [dropDecls]
  | cons d rest ih =>
    show dropDecls rest (mDel (declPat d) pend) = _
    rw [ih (mDel (declPat d) pend) (keysOf_mDel_nodup _ _ hk)]
    rw [mDel_eq_filter _ _ hk]
    rw [List.filter_filter]
    apply List.filter_congr
    intro e he
    by_cases h1 : e.1 = declPat d <;> by_cases h2 : e.1 ∈ rest.map declPat <;>
      simp [h1, h2]

theorem dropDecls_nil_of_cover (ds : List (Str × Bool)) (pend : List (Str × Nat × Nat))
    (hk : (keysOf pend).Nodup) (hcov : ∀ e ∈ pend, e.1 ∈ ds.map declPat) :
    dropDecls ds pend = [] := by
  rw [dropDecls_sub ds pend hk]
  apply List.filter_eq_nil_iff.mpr
  intro e he
  simp [hcov e he]

theorem markDetached_eq (t : Str) (s : FileState) :
    markDetached t s = midSt s t (getSec s t).entries := by
  unfold markDetached midSt detachIn
  dsimp only
  have hgs : getSec (List.foldl
      (fun s e => setCtl e.2.2 { getCtl s e.2.2 with detached := true } s)
      s (getSec s t).entries) t = getSec s t :=
    getSec_congr _ _ _ (detachFold_sections _ _)
  simp only [hgs]

theorem sweep_mid_nil (s0 : FileState) (t : Str)
    (hidx : (secIdx s0 t).isSome = true) (hdm : (getSec s0 t).detachedMap = none) :
    sweepDetached t (midSt s0 t []) = s0 := by
  unfold sweepDetached
  dsimp only
  rw [getSec_midSt_self s0 t [] hidx]
  dsimp only
  simp only [Option.getD_some]
  rw [List.foldl_nil]
  unfold midSt
  rw [show detachIn [] s0 = s0 from rfl]
  rw [updSec_updSec t (fun sc => { sc with detachedMap := some [] })
    (fun sc => { sc with detachedMap := none }) s0 (fun sc => rfl)]
  apply updSec_congr_id
  show ({ getSec s0 t with detachedMap := none } : SectionCtl) = getSec s0 t
  exact sectionCtl_dm_id _ hdm

/-- C3 counterexample to the literal claim: after parsing the pattern into
the untitled section and moving it into the section named test by a first
reconciliation, then saving (isModified is false), a second reconciliation
with the identical declaration list leaves isModified true - and even
removes the declared entry - because the section bookkeeping still stores
the stale pre-merge controller: the mark phase detaches that stale
controller, so the re-declaration's attach call sees the merged registry
controller as attached-and-not-detached and returns early without un-marking
the pattern, and the sweep then removes it. -/
theorem c3_counterexample :
    c3CexBase.isModified = false
    ∧ (replaceDecls (strOf ("test")) [(strOf ("p"), true)] c3CexBase).isModified = true
    ∧ secLivePatterns (replaceDecls (strOf ("test")) [(strOf ("p"), true)] c3CexBase)
        (strOf ("test")) = [] := by
  refine ⟨by decide, by decide, by decide⟩

/-- C3 amended: a reconciliation whose declaration list restates exactly the
section's current content is the state identity - hence isModified keeps
whatever value it had, false after a save - provided the section's
bookkeeping is synchronized: its stored handle and controller ids agree with
the registry for every entry (which the move scenario of the counterexample
violates), no pass is in progress, bookkeeping, registry and declarations
are duplicate-free, every declaration restates its entry's recorded
attributes and every bookkept pattern is re-declared. -/
theorem c3_replace_idempotent (t : Str) (ds : List (Str × Bool)) (s : FileState)
    (h : syncDecls t ds s) : replaceDecls t ds s = s := by
  obtain ⟨hidx, hdm, hkeysE, hkeysR, hnodup, hsyncE, hmatch, hcover⟩ := h
  unfold replaceDecls
  dsimp only
  rw [fileSection_of_exists t s hidx]
  rw [if_neg (show ¬((getSec s t).detachedMap.isSome = true) from by rw [hdm]; simp)]
  rw [markDetached_eq]
  rw [runDecls_sync s t hidx hkeysE hsyncE ds (getSec s t).entries
    (List.Sublist.refl _) hnodup hmatch (fun d hd => rfl)]
  rw [dropDecls_nil_of_cover ds (getSec s t).entries hkeysE hcover]
  exact sweep_mid_nil s t hidx hdm

/-- C3 witness: the saved one-entry section is synchronized with its
declaration list and the repeated reconciliation is the identity on it. -/
theorem c3_witness :
    syncDecls (strOf ("test")) [(strOf ("p"), true)] c3SyncState
    ∧ replaceDecls (strOf ("test")) [(strOf ("p"), true)] c3SyncState = c3SyncState :=
  ⟨by decide, c3_replace_idempotent _ _ _ (by decide)⟩

theorem getCtl_congr (s1 s2 : FileState) (j : Nat) (h : s1.ctls = s2.ctls) :
    getCtl s1 j = getCtl s2 j := by
  unfold getCtl
  rw [h]

theorem hRemove_synced (s : FileState) (t p : Str) (hi ci : Nat)
    (hh : getHandle s hi = ⟨p, t, ci⟩)
    (hpat : (getCtl s ci).pattern = p)
    (hatt : (getCtl s ci).attachedTo = some t)
    (hreg : mHas p s.entryCtls = true) :
    (hRemove hi s).handles = s.handles
    ∧ (hRemove hi s).entryCtls = mDel p s.entryCtls
    ∧ (hRemove hi s).isModified = true
    ∧ (hRemove hi s).sections
        = (updSec t (fun sc => { sc with entries := mDel p sc.entries }) s).sections
    ∧ (∀ j, getCtl (hRemove hi s) j
        = if j = ci then { getCtl s ci with attachedTo := none } else getCtl s j) := by
  have hlt := ctl_lt_of_attached s ci t hatt
  have hstep : hRemove hi s = setCtl ci
      { getCtl (fileModify { (updSec t (fun sc => { sc with entries := mDel p sc.entries }) s) with entryCtls := mDel p s.entryCtls }) ci with attachedTo := none }
      (fileModify { (updSec t (fun sc => { sc with entries := mDel p sc.entries }) s) with entryCtls := mDel p s.entryCtls }) := by
    unfold hRemove
    dsimp only
    rw [hh]
    dsimp only
    unfold ctlRemove
    dsimp only
    rw [if_pos hatt]
    unfold secRemoveEntry
    dsimp only
    rw [hpat]
    unfold fileRemoveEntry
    dsimp only
    rw [getCtl_updSec, hpat, updSec_entryCtls]
    rw [if_pos hreg]
  have hctls1 : (fileModify { (updSec t (fun sc => { sc with entries := mDel p sc.entries }) s) with entryCtls := mDel p s.entryCtls }).ctls = s.ctls := by
    show (updSec t (fun sc => { sc with entries := mDel p sc.entries }) s).ctls = s.ctls
    exact updSec_ctls _ _ _
  have hgc1 : ∀ j, getCtl (fileModify { (updSec t (fun sc => { sc with entries := mDel p sc.entries }) s) with entryCtls := mDel p s.entryCtls }) j = getCtl s j :=
    fun j => getCtl_congr _ _ _ hctls1
  refine ⟨?_, ?_, ?_, ?_, ?_⟩
  · rw [hstep]
    show (updSec t (fun sc => { sc with entries := mDel p sc.entries }) s).handles = s.handles
    exact updSec_handles _ _ _
  · rw [hstep]
    rfl
  · rw [hstep]
    rfl
  · rw [hstep]
    rfl
  · intro j
    rw [hstep]
    by_cases hj : j = ci
    · rw [hj, if_pos rfl]
      have hlen2 : ci < (fileModify { (updSec t (fun sc => { sc with entries := mDel p sc.entries }) s) with entryCtls := mDel p s.entryCtls }).ctls.length := by
        rw [hctls1]
        exact hlt
      rw [getCtl_setCtl_self _ _ _ hlen2]
      rw [hgc1 ci]
    · rw [if_neg hj, getCtl_setCtl_ne _ _ _ _ (fun hc => hj hc.symm), hgc1 j]

theorem remFold_props (t : Str) (pend : List (Str × Nat × Nat)) (s : FileState)
    (hidx : (secIdx s t).isSome = true)
    (hkpend : (keysOf pend).Nodup)
    (hcpend : (cisOf pend).Nodup)
    (hkreg : (keysOf s.entryCtls).Nodup)
    (hkent : (keysOf (getSec s t).entries).Nodup)
    (hpend : ∀ e ∈ pend, getHandle s e.2.1 = ⟨e.1, t, e.2.2⟩
      ∧ (getCtl s e.2.2).pattern = e.1
      ∧ (getCtl s e.2.2).attachedTo = some t
      ∧ mGet e.1 s.entryCtls = some e.2.2) :
    (remFold pend s).handles = s.handles
    ∧ (∀ t2, secIdx (remFold pend s) t2 = secIdx s t2)
    ∧ (∀ q, q ∉ keysOf pend → mGet q (remFold pend s).entryCtls = mGet q s.entryCtls)
    ∧ (∀ e ∈ pend, mGet e.1 (remFold pend s).entryCtls = none)
    ∧ (∀ q, q ∉ keysOf pend →
        mGet q (getSec (remFold pend s) t).entries = mGet q (getSec s t).entries)
    ∧ (∀ e ∈ pend, mGet e.1 (getSec (remFold pend s) t).entries = none)
    ∧ (∀ j, j ∉ cisOf pend → getCtl (remFold pend s) j = getCtl s j)
    ∧ (getSec (remFold pend s) t).detachedMap = (getSec s t).detachedMap
    ∧ (pend = [] ∨ (remFold pend s).isModified = true) := by
  induction pend generalizing s with
  | nil =>
    refine ⟨rfl, fun t2 => rfl, fun q hq => rfl, ?_, fun q hq => rfl, ?_,
      fun j hj => rfl, rfl, Or.inl rfl⟩
    · intro e he
      simp at he
    · intro e he
      simp at he
  | cons a rest ih =>
    have hkc : a.1 ∉ keysOf rest ∧ (keysOf rest).Nodup := by
      rw [show keysOf (a :: rest) = a.1 :: keysOf rest from rfl, List.nodup_cons] at hkpend
      exact hkpend
    have hcc : a.2.2 ∉ cisOf rest ∧ (cisOf rest).Nodup := by
      rw [show cisOf (a :: rest) = a.2.2 :: cisOf rest from rfl, List.nodup_cons] at hcpend
      exact hcpend
    obtain ⟨hha, hpata, hatta, hrega⟩ := hpend a (List.mem_cons_self _ _)
    have hregb : mHas a.1 s.entryCtls = true := by
      unfold mHas
      rw [hrega]
      rfl
    obtain ⟨hH, hE, hM, hS, hC⟩ := hRemove_synced s t a.1 a.2.1 a.2.2 hha hpata hatta hregb
    have hshow : remFold (a :: rest) s = remFold rest (hRemove a.2.1 s) := rfl
    have hidx2 : ∀ t2, secIdx (hRemove a.2.1 s) t2 = secIdx s t2 := by
      intro t2
      rw [secIdx_congr (hRemove a.2.1 s)
        (updSec t (fun sc => { sc with entries := mDel a.1 sc.entries }) s) t2 hS]
      exact secIdx_updSec t t2 (fun sc => { sc with entries := mDel a.1 sc.entries }) s
        (fun sc => rfl)
    have hsec2 : getSec (hRemove a.2.1 s) t
        = { getSec s t with entries := mDel a.1 (getSec s t).entries } := by
      rw [getSec_congr (hRemove a.2.1 s)
        (updSec t (fun sc => { sc with entries := mDel a.1 sc.entries }) s) t hS]
      exact getSec_updSec_self t (fun sc => { sc with entries := mDel a.1 sc.entries }) s
        (fun sc => rfl) hidx
    have hpend2 : ∀ e ∈ rest, getHandle (hRemove a.2.1 s) e.2.1 = ⟨e.1, t, e.2.2⟩
        ∧ (getCtl (hRemove a.2.1 s) e.2.2).pattern = e.1
        ∧ (getCtl (hRemove a.2.1 s) e.2.2).attachedTo = some t
        ∧ mGet e.1 (hRemove a.2.1 s).entryCtls = some e.2.2 := by
      intro e he
      obtain ⟨hhe, hpate, hatte, hrege⟩ := hpend e (List.mem_cons_of_mem _ he)
      have hcne : e.2.2 ≠ a.2.2 := by
        intro hc
        exact hcc.1 (hc ▸ List.mem_map_of_mem (fun x => x.2.2) he)
      have hkne : e.1 ≠ a.1 := by
        intro hc
        exact hkc.1 (hc ▸ List.mem_map_of_mem (fun x => x.1) he)
      have hctl : getCtl (hRemove a.2.1 s) e.2.2 = getCtl s e.2.2 := by
        rw [hC e.2.2, if_neg hcne]
      refine ⟨?_, ?_, ?_, ?_⟩
      · rw [getHandle_congr _ s _ hH]
        exact hhe
      · rw [hctl]
        exact hpate
      · rw [hctl]
        exact hatte
      · rw [hE, mGet_mDel_ne _ _ _ hkne]
        exact hrege
    have hidxS : (secIdx (hRemove a.2.1 s) t).isSome = true := by
      rw [hidx2 t]
      exact hidx
    have hkregS : (keysOf (hRemove a.2.1 s).entryCtls).Nodup := by
      rw [hE]
      exact keysOf_mDel_nodup _ _ hkreg
    have hkentS : (keysOf (getSec (hRemove a.2.1 s) t).entries).Nodup := by
      rw [hsec2]
      exact keysOf_mDel_nodup _ _ hkent
    obtain ⟨iH, iIdx, iRegF, iRegN, iSecF, iSecN, iCtl, iDM, iMod⟩ :=
      ih (hRemove a.2.1 s) hidxS hkc.2 hcc.2 hkregS hkentS hpend2
    refine ⟨?_, ?_, ?_, ?_, ?_, ?_, ?_, ?_, ?_⟩
    · rw [hshow, iH, hH]
    · intro t2
      rw [hshow, iIdx t2, hidx2 t2]
    · intro q hq
      have hqa : q ≠ a.1 ∧ q ∉ keysOf rest := by
        rw [show keysOf (a :: rest) = a.1 :: keysOf rest from rfl, List.mem_cons] at hq
        push_neg at hq
        exact hq
      rw [hshow, iRegF q hqa.2, hE, mGet_mDel_ne _ _ _ hqa.1]
    · intro e he
      rcases List.mem_cons.mp he with he1 | he2
      · rw [hshow, iRegF e.1 (by rw [he1]; exact hkc.1), hE, he1]
        exact mGet_mDel_self _ _ hkreg
      · rw [hshow]
        exact iRegN e he2
    · intro q hq
      have hqa : q ≠ a.1 ∧ q ∉ keysOf rest := by
        rw [show keysOf (a :: rest) = a.1 :: keysOf rest from rfl, List.mem_cons] at hq
        push_neg at hq
        exact hq
      rw [hshow, iSecF q hqa.2, hsec2]
      show mGet q (mDel a.1 (getSec s t).entries) = mGet q (getSec s t).entries
      exact mGet_mDel_ne _ _ _ hqa.1
    · intro e he
      rcases List.mem_cons.mp he with he1 | he2
      · rw [hshow, iSecF e.1 (by rw [he1]; exact hkc.1), hsec2]
        show mGet e.1 (mDel a.1 (getSec s t).entries) = none
        rw [he1]
        exact mGet_mDel_self _ _ hkent
      · rw [hshow]
        exact iSecN e he2
    · intro j hj
      have hja : j ≠ a.2.2 ∧ j ∉ cisOf rest := by
        rw [show cisOf (a :: rest) = a.2.2 :: cisOf rest from rfl, List.mem_cons] at hj
        push_neg at hj
        exact hj
      rw [hshow, iCtl j hja.2, hC j, if_neg hja.1]
    · rw [hshow, iDM, hsec2]
    · right
      rw [hshow]
      rcases iMod with h1 | h2
      · rw [h1]
        exact hM
      · exact h2

/-- C4 replace with a failing build: on a synchronized section, a build that
re-declares the sublist dsDone of its declarations and then throws still
sweeps before the exception propagates (the result's second component is
false and the pending map is cleared): every entry attached at the start of
the pass whose pattern was not re-declared before the exception is removed
from the registry and from the section bookkeeping - once, its key being
gone afterwards - while each re-declared pattern keeps its registry
controller, which is still attached to the section (no rollback), and the
file is marked modified whenever some entry was actually removed. -/
theorem c4_failing_build_cleanup (t : Str) (dsDone dsRest : List (Str × Bool))
    (s : FileState) (h : syncDecls t (dsDone ++ dsRest) s) :
    (replaceDeclsFail t dsDone s).2 = false
    ∧ (getSec (replaceDeclsFail t dsDone s).1 t).detachedMap = none
    ∧ (∀ e ∈ (getSec s t).entries, e.1 ∉ dsDone.map declPat →
        mGet e.1 (replaceDeclsFail t dsDone s).1.entryCtls = none
        ∧ mGet e.1 (getSec (replaceDeclsFail t dsDone s).1 t).entries = none)
    ∧ (∀ d ∈ dsDone, ∀ hi ci, mGet (declPat d) (getSec s t).entries = some (hi, ci) →
        mGet (declPat d) (replaceDeclsFail t dsDone s).1.entryCtls = some ci
        ∧ (getCtl (replaceDeclsFail t dsDone s).1 ci).attachedTo = some t)
    ∧ ((∃ e ∈ (getSec s t).entries, e.1 ∉ dsDone.map declPat) →
        (replaceDeclsFail t dsDone s).1.isModified = true) := by
  obtain ⟨hidx, hdm, hkeysE, hkeysR, hnodup, hsyncE, hmatch, hcover⟩ := h
  have hnodupD : (dsDone.map declPat).Nodup := by
    rw [List.map_append] at hnodup
    exact List.Nodup.of_append_left hnodup
  have hmatchD : ∀ d ∈ dsDone, declMatches s t d :=
    fun d hd => hmatch d (List.mem_append_left _ hd)
  have hcisE : (cisOf (getSec s t).entries).Nodup :=
    cisOf_nodup_of_keys _ s hkeysE (fun e he => (hsyncE e he).2.2.2.2.1)
  have hres : replaceDeclsFail t dsDone s
      = (sweepDetached t (runDecls t dsDone (markDetached t s)), false) := by
    unfold replaceDeclsFail
    dsimp only
    rw [fileSection_of_exists t s hidx]
    rw [if_neg (show ¬((getSec s t).detachedMap.isSome = true) from by rw [hdm]; simp)]
  have hrun : runDecls t dsDone (markDetached t s)
      = midSt s t (dropDecls dsDone (getSec s t).entries) := by
    rw [markDetached_eq]
    exact runDecls_sync s t hidx hkeysE hsyncE dsDone (getSec s t).entries
      (List.Sublist.refl _) hnodupD hmatchD (fun d hd => rfl)
  have hpfsub : List.Sublist (dropDecls dsDone (getSec s t).entries) (getSec s t).entries := by
    rw [dropDecls_sub _ _ hkeysE]
    exact List.filter_sublist _
  have hpfmem : ∀ e, e ∈ dropDecls dsDone (getSec s t).entries
      ↔ (e ∈ (getSec s t).entries ∧ e.1 ∉ dsDone.map declPat) := by
    intro e
    rw [dropDecls_sub _ _ hkeysE, List.mem_filter]
    simp
  have hkpendF : (keysOf (dropDecls dsDone (getSec s t).entries)).Nodup :=
    List.Nodup.sublist (List.Sublist.map _ hpfsub) hkeysE
  have hcpendF : (cisOf (dropDecls dsDone (getSec s t).entries)).Nodup :=
    List.Nodup.sublist (List.Sublist.map _ hpfsub) hcisE
  have hltP : ∀ e ∈ dropDecls dsDone (getSec s t).entries, e.2.2 < s.ctls.length :=
    fun e he => (hsyncE e (hpfsub.subset he)).2.1
  have hidxM : (secIdx (midSt s t (dropDecls dsDone (getSec s t).entries)) t).isSome = true := by
    rw [secIdx_midSt]
    exact hidx
  have hsecM : getSec (midSt s t (dropDecls dsDone (getSec s t).entries)) t
      = { getSec s t with detachedMap := some (dropDecls dsDone (getSec s t).entries) } :=
    getSec_midSt_self s t _ hidx
  have hkregM : (keysOf (midSt s t (dropDecls dsDone (getSec s t).entries)).entryCtls).Nodup := by
    rw [midSt_entryCtls]
    exact hkeysR
  have hkentM : (keysOf (getSec (midSt s t (dropDecls dsDone (getSec s t).entries)) t).entries).Nodup := by
    rw [hsecM]
    exact hkeysE
  have hgcM : ∀ e ∈ dropDecls dsDone (getSec s t).entries,
      getCtl (midSt s t (dropDecls dsDone (getSec s t).entries)) e.2.2
        = { getCtl s e.2.2 with detached := true } := by
    intro e he
    rw [getCtl_midSt, getCtl_detachIn _ _ hcpendF hltP]
    rw [if_pos (by simp only [cisOf, List.mem_map]; exact ⟨e, he, rfl⟩)]
  have hpendM : ∀ e ∈ dropDecls dsDone (getSec s t).entries,
      getHandle (midSt s t (dropDecls dsDone (getSec s t).entries)) e.2.1 = ⟨e.1, t, e.2.2⟩
      ∧ (getCtl (midSt s t (dropDecls dsDone (getSec s t).entries)) e.2.2).pattern = e.1
      ∧ (getCtl (midSt s t (dropDecls dsDone (getSec s t).entries)) e.2.2).attachedTo = some t
      ∧ mGet e.1 (midSt s t (dropDecls dsDone (getSec s t).entries)).entryCtls = some e.2.2 := by
    intro e he
    obtain ⟨l1, l2, hh, hreg, hpat, hatt, hdet⟩ := hsyncE e (hpfsub.subset he)
    refine ⟨?_, ?_, ?_, ?_⟩
    · rw [getHandle_midSt]
      exact hh
    · rw [hgcM e he]
      exact hpat
    · rw [hgcM e he]
      exact hatt
    · rw [midSt_entryCtls]
      exact hreg
  obtain ⟨iH, iIdx, iRegF, iRegN, iSecF, iSecN, iCtl, iDM, iMod⟩ :=
    remFold_props t (dropDecls dsDone (getSec s t).entries)
      (midSt s t (dropDecls dsDone (getSec s t).entries))
      hidxM hkpendF hcpendF hkregM hkentM hpendM
  have hsweep : sweepDetached t (midSt s t (dropDecls dsDone (getSec s t).entries))
      = updSec t (fun sc => { sc with detachedMap := none })
        (remFold (dropDecls dsDone (getSec s t).entries)
          (midSt s t (dropDecls dsDone (getSec s t).entries))) := by
    unfold sweepDetached
    dsimp only
    rw [hsecM]
    dsimp only
    simp only [Option.getD_some]
    rfl
  have hidxR : (secIdx (remFold (dropDecls dsDone (getSec s t).entries)
      (midSt s t (dropDecls dsDone (getSec s t).entries))) t).isSome = true := by
    rw [iIdx t]
    exact hidxM
  have hsecR : getSec (updSec t (fun sc => { sc with detachedMap := none })
      (remFold (dropDecls dsDone (getSec s t).entries)
        (midSt s t (dropDecls dsDone (getSec s t).entries)))) t
      = { getSec (remFold (dropDecls dsDone (getSec s t).entries)
          (midSt s t (dropDecls dsDone (getSec s t).entries))) t with detachedMap := none } :=
    getSec_updSec_self t (fun sc => { sc with detachedMap := none }) _ (fun sc => rfl) hidxR
  refine ⟨?_, ?_, ?_, ?_, ?_⟩
  · rw [hres]
  · rw [hres]
    dsimp only
    rw [hrun, hsweep, hsecR]
  · intro e he hnd
    have hepf : e ∈ dropDecls dsDone (getSec s t).entries := (hpfmem e).mpr ⟨he, hnd⟩
    constructor
    · rw [hres]
      dsimp only
      rw [hrun, hsweep, updSec_entryCtls]
      exact iRegN e hepf
    · rw [hres]
      dsimp only
      rw [hrun, hsweep, hsecR]
      show mGet e.1 (getSec (remFold (dropDecls dsDone (getSec s t).entries)
        (midSt s t (dropDecls dsDone (getSec s t).entries))) t).entries = none
      exact iSecN e hepf
  · intro d hd hi ci hgetDE
    have hmemDE : (declPat d, hi, ci) ∈ (getSec s t).entries := mem_of_mGet _ _ _ hgetDE
    obtain ⟨l1, l2, hh, hreg, hpat, hatt, hdet⟩ := hsyncE _ hmemDE
    have hdp : declPat d ∈ dsDone.map declPat := List.mem_map_of_mem declPat hd
    have hnk : declPat d ∉ keysOf (dropDecls dsDone (getSec s t).entries) := by
      intro hc
      simp only [keysOf, List.mem_map] at hc
      obtain ⟨e2, he2, hke2⟩ := hc
      have := ((hpfmem e2).mp he2).2
      rw [hke2] at this
      exact this hdp
    have hnc : ci ∉ cisOf (dropDecls dsDone (getSec s t).entries) := by
      intro hc
      simp only [cisOf, List.mem_map] at hc
      obtain ⟨e2, he2, hce2⟩ := hc
      have heq : e2 = (declPat d, hi, ci) :=
        List.inj_on_of_nodup_map hcisE ((hpfmem e2).mp he2).1 hmemDE hce2
      have := ((hpfmem e2).mp he2).2
      rw [heq] at this
      exact this hdp
    constructor
    · rw [hres]
      dsimp only
      rw [hrun, hsweep, updSec_entryCtls]
      rw [iRegF (declPat d) hnk, midSt_entryCtls]
      exact hreg
    · rw [hres]
      dsimp only
      rw [hrun, hsweep]
      rw [getCtl_updSec]
      rw [iCtl ci hnc, getCtl_midSt, getCtl_detachIn _ _ hcpendF hltP, if_neg hnc]
      exact hatt
  · rintro ⟨e, he, hnd⟩
    have hepf : e ∈ dropDecls dsDone (getSec s t).entries := (hpfmem e).mpr ⟨he, hnd⟩
    rw [hres]
    dsimp only
    rw [hrun, hsweep, updSec_isModified]
    rcases iMod with h1 | h2
    · rw [h1] at hepf
      simp at hepf
    · exact h2

/-- C4 witness: on the saved two-entry section, a build that re-declares
only the first pattern and then throws removes the second one from the
registry and the bookkeeping, keeps the first attached, clears the pending
map, marks the file modified, and reports the exception. -/
theorem c4_witness :
    (replaceDeclsFail (strOf ("test")) [(strOf ("p"), true)] c4Base).2 = false
    ∧ (getSec (replaceDeclsFail (strOf ("test")) [(strOf ("p"), true)] c4Base).1
        (strOf ("test"))).detachedMap = none
    ∧ (∀ e ∈ (getSec c4Base (strOf ("test"))).entries,
        e.1 ∉ [(strOf ("p"), true)].map declPat →
        mGet e.1 (replaceDeclsFail (strOf ("test")) [(strOf ("p"), true)] c4Base).1.entryCtls = none
        ∧ mGet e.1 (getSec (replaceDeclsFail (strOf ("test")) [(strOf ("p"), true)] c4Base).1
            (strOf ("test"))).entries = none)
    ∧ (∀ d ∈ [(strOf ("p"), true)], ∀ hi ci,
        mGet (declPat d) (getSec c4Base (strOf ("test"))).entries = some (hi, ci) →
        mGet (declPat d) (replaceDeclsFail (strOf ("test")) [(strOf ("p"), true)] c4Base).1.entryCtls
          = some ci
        ∧ (getCtl (replaceDeclsFail (strOf ("test")) [(strOf ("p"), true)] c4Base).1 ci).attachedTo
          = some (strOf ("test")))
    ∧ ((∃ e ∈ (getSec c4Base (strOf ("test"))).entries,
        e.1 ∉ [(strOf ("p"), true)].map declPat) →
        (replaceDeclsFail (strOf ("test")) [(strOf ("p"), true)] c4Base).1.isModified = true) :=
  c4_failing_build_cleanup (strOf ("test")) [(strOf ("p"), true)] [(strOf ("q"), false)]
    c4Base (by decide)

theorem getD_append_len {α : Type} (l : List α) (x d : α) :
    (l ++ [x]).getD l.length d = x := by
  induction l with
  | nil => rfl
  | cons a rest ih => simpa using ih

theorem set_append_len {α : Type} (l : List α) (x y : α) :
    (l ++ [x]).set l.length y = l ++ [y] := by
  induction l with
  | nil => rfl
  | cons a rest ih => simpa [List.set] using ih

theorem mGet_append_left {α : Type} (k : Str) (m1 m2 : List (Str × α)) (v : α)
    (h : mGet k m1 = some v) : mGet k (m1 ++ m2) = some v := by
  induction m1 with
  | nil => simp [mGet] at h
  | cons a rest ih =>
    rw [List.cons_append, mGet_cons]
    rw [mGet_cons] at h
    by_cases hk : a.1 = k
    · rw [if_pos hk] at h ⊢
      exact h
    · rw [if_neg hk] at h ⊢
      exact ih h

theorem mGet_append_right {α : Type} (k : Str) (m1 m2 : List (Str × α))
    (h : mGet k m1 = none) : mGet k (m1 ++ m2) = mGet k m2 := by
  induction m1 with
  | nil => rfl
  | cons a rest ih =>
    rw [List.cons_append, mGet_cons]
    rw [mGet_cons] at h
    by_cases hk : a.1 = k
    · rw [if_pos hk] at h
      simp at h
    · rw [if_neg hk] at h ⊢
      exact ih h

theorem mSet_fresh {α : Type} (k : Str) (v : α) (m : List (Str × α))
    (h : mGet k m = none) : mSet k v m = m ++ [(k, v)] := by
  induction m with
  | nil => rfl
  | cons a rest ih =>
    rw [mGet_cons] at h
    by_cases hk : a.1 = k
    · rw [if_pos hk] at h
      simp at h
    · rw [if_neg hk] at h
      unfold mSet
      rw [if_neg hk, ih h]
      rfl

theorem mGet_singleton_ne {α : Type} (k p : Str) (v : α) (h : p ≠ k) :
    mGet k [(p, v)] = none := by
  unfold mGet
  rw [if_neg h]
  rfl

theorem endsWithChar_cons (x c : Char) (l : Str) (h : l ≠ []) :
    endsWithChar x (c :: l) = endsWithChar x l := by
  unfold endsWithChar
  cases hr : l.reverse with
  | nil => exact absurd (by simpa using congrArg List.reverse hr) h
  | cons a r => simp [List.reverse_cons, hr]

theorem endsWithChar_concat (x c : Char) (l : Str) :
    endsWithChar x (l ++ [c]) = (c = x : Bool) := by
  unfold endsWithChar
  rw [List.reverse_append]
  rfl

theorem startsWithChar_append_left (c : Char) (x y : Str) (h : x ≠ []) :
    startsWithChar c (x ++ y) = startsWithChar c x := by
  cases x with
  | nil => exact absurd rfl h
  | cons a r => rfl

theorem strReplaceNl_id (t sub : Str) (h : ∀ c ∈ t, c ≠ '\n') :
    strReplaceNl t sub = t := by
  induction t with
  | nil => rfl
  | cons c rest ih =>
    unfold strReplaceNl
    rw [if_neg (h c (List.mem_cons_self _ _)), ih (fun d hd => h d (List.mem_cons_of_mem _ hd))]
    rfl

theorem rev_head_nonwsp (p : Str) (hp : strTrimEnd p = p) (hne : p ≠ []) :
    ∃ a r, p.reverse = a :: r ∧ wsp a = false := by
  cases hr : p.reverse with
  | nil => exact absurd (by simpa using congrArg List.reverse hr) hne
  | cons a r =>
    refine ⟨a, r, rfl, ?_⟩
    by_contra hw
    rw [Bool.not_eq_false] at hw
    unfold strTrimEnd at hp
    rw [hr, List.dropWhile_cons, if_pos hw] at hp
    have hlen := congrArg List.length hp
    simp at hlen
    have hsub2 : List.Sublist (r.dropWhile wsp) r := List.dropWhile_sublist _
    have := List.Sublist.length_le hsub2
    have hrl : r.length + 1 ≤ p.length := by
      have := congrArg List.length hr
      simp at this
      omega
    omega

theorem strTrimEnd_append_of (pre p : Str) (hp : strTrimEnd p = p) (hne : p ≠ []) :
    strTrimEnd (pre ++ p) = pre ++ p := by
  obtain ⟨a, r, hr, hw⟩ := rev_head_nonwsp p hp hne
  unfold strTrimEnd
  rw [List.reverse_append, hr, List.cons_append, List.dropWhile_cons, if_neg (by rw [hw]; simp)]
  rw [← List.cons_append, ← hr, ← List.reverse_append, List.reverse_reverse]

theorem strTrimEnd_concat_nonwsp (l : Str) (c : Char) (h : wsp c = false) :
    strTrimEnd (l ++ [c]) = l ++ [c] := by
  unfold strTrimEnd
  rw [List.reverse_append]
  show ((c :: l.reverse).dropWhile wsp).reverse = l ++ [c]
  rw [List.dropWhile_cons, if_neg (by rw [h]; simp)]
  simp

theorem fileTuples_setModified (b : Bool) (x : FileState) :
    fileTuples (fileSetModified b x) = fileTuples x := rfl

theorem splitLines_cons_other (c : Char) (rest2 : Str) (l : Str) (ls : List Str)
    (hc1 : c ≠ '\n') (hc2 : c = '\r' → startsWithChar '\n' rest2 = false)
    (hs : splitLines rest2 = l :: ls) :
    splitLines (c :: rest2) = (c :: l) :: ls := by
  rw [splitLines.eq_def]
  split
  · next heq => simp at heq
  · next r heq =>
    injection heq with h1 h2
    have := hc2 h1
    rw [h2] at this
    simp [startsWithChar] at this
  · next r heq =>
    injection heq with h1 h2
    exact absurd h1 hc1
  · next c2 r heq =>
    injection heq with h1 h2
    subst h1
    subst h2
    rw [hs]

theorem splitLines_chunk (l rest : Str) (h1 : ∀ c ∈ l, c ≠ '\n')
    (h2 : endsWithChar '\r' l = false) :
    splitLines (l ++ '\n' :: rest) = l :: splitLines rest := by
  induction l with
  | nil => rfl
  | cons c l2 ih =>
    have hc : c ≠ '\n' := h1 c (List.mem_cons_self _ _)
    have h1b : ∀ d ∈ l2, d ≠ '\n' := fun d hd => h1 d (List.mem_cons_of_mem _ hd)
    have h2b : endsWithChar '\r' l2 = false := by
      cases l2 with
      | nil => rfl
      | cons d l3 =>
        rw [← endsWithChar_cons '\r' c (d :: l3) (by simp)]
        exact h2
    have hnext : c = '\r' → startsWithChar '\n' (l2 ++ '\n' :: rest) = false := by
      intro hcr
      cases l2 with
      | nil =>
        rw [hcr] at h2
        simp [endsWithChar] at h2
      | cons d l3 =>
        have hd : d ≠ '\n' := h1b d (List.mem_cons_self _ _)
        simp [startsWithChar, hd]
    rw [show (c :: l2) ++ '\n' :: rest = c :: (l2 ++ '\n' :: rest) from rfl]
    rw [splitLines_cons_other c _ l2 (splitLines rest) hc hnext (ih h1b h2b)]

theorem splitLines_join (ls : List Str)
    (h : ∀ l ∈ ls, (∀ c ∈ l, c ≠ '\n') ∧ endsWithChar '\r' l = false) :
    splitLines (linesJoin ls) = ls ++ [[]] := by
  induction ls with
  | nil => rfl
  | cons l rest ih =>
    have hjoin : linesJoin (l :: rest) = l ++ '\n' :: linesJoin rest := by
      unfold linesJoin osEOL
      simp
    rw [hjoin, splitLines_chunk l _ (h l (List.mem_cons_self _ _)).1
      (h l (List.mem_cons_self _ _)).2]
    rw [ih (fun x hx => h x (List.mem_cons_of_mem _ hx))]
    rfl

theorem startsWithPair_head_ne (c d a : Char) (l : Str) (h : a ≠ c) :
    startsWithPair c d (a :: l) = false := by
  cases l with
  | nil => rfl
  | cons b r => simp [startsWithPair, h]

theorem startsWithPair_concat_ne (c d : Char) (p : Str) (x : Char)
    (hp : startsWithPair c d p = false) (hx : x ≠ d) (hne : p ≠ []) :
    startsWithPair c d (p ++ [x]) = false := by
  match p with
  | [] => exact absurd rfl hne
  | [a] =>
    show startsWithPair c d (a :: [x]) = false
    simp [startsWithPair, hx]
  | a :: b :: r =>
    show startsWithPair c d (a :: b :: (r ++ [x])) = false
    simpa [startsWithPair] using hp

theorem startsWith_ne_of (a b : Char) (p : Str) (h : startsWithChar a p = true)
    (hab : a ≠ b) : startsWithChar b p = false := by
  cases p with
  | nil => simp [startsWithChar] at h
  | cons x r =>
    simp only [startsWithChar, decide_eq_true_eq] at h
    subst h
    simp [startsWithChar, hab]

theorem endsWith_wsp_false (p : Str) (hp : strTrimEnd p = p) (hne : p ≠ [])
    (c : Char) (hc : wsp c = true) : endsWithChar c p = false := by
  obtain ⟨a, r, hr, hw⟩ := rev_head_nonwsp p hp hne
  unfold endsWithChar
  rw [hr]
  simp only [decide_eq_false_iff_not]
  intro hac
  rw [hac, hc] at hw
  cases hw

theorem gitIgnorePattern_bang_slash (p : Str) :
    gitIgnorePattern ('!' :: (p ++ ['/'])) = ⟨p, some MatchScope.dirs, some Effect.incl⟩ := by
  unfold gitIgnorePattern
  simp [startsWithChar, endsWithChar_concat, List.dropLast_concat]

theorem entryLine_no_nl (p : Str) (e : Effect) (m : MatchScope)
    (hp : ∀ c ∈ p, c ≠ '\n') : ∀ c ∈ entryLine p e m, c ≠ '\n' := by
  intro c hc
  have hout : ∀ c2 ∈ (if e = Effect.incl then '!' :: p
      else if startsWithChar '#' p then '\\' :: p else p), c2 ≠ '\n' := by
    intro c2 hc2
    split at hc2
    · rcases List.mem_cons.mp hc2 with h | h
      · rw [h]; decide
      · exact hp c2 h
    · split at hc2
      · rcases List.mem_cons.mp hc2 with h | h
        · rw [h]; decide
        · exact hp c2 h
      · exact hp c2 hc2
  unfold entryLine at hc
  dsimp only at hc
  split at hc
  · rcases List.mem_append.mp hc with h | h
    · exact hout c h
    · rw [List.mem_singleton.mp h]; decide
  · split at hc
    · rcases List.mem_append.mp hc with h | h
      · exact hout c h
      · rw [List.mem_singleton.mp h]; decide
    · exact hout c hc

theorem entryLine_trimEnd (p : Str) (e : Effect) (m : MatchScope) (hne : p ≠ [])
    (hall : m = MatchScope.all →
      endsWithChar '/' p = false ∧ endsWithChar '\\' p = false) :
    strTrimEnd (entryLine p e m) = entryLine p e m
    ∧ endsWithChar '\r' (entryLine p e m) = false := by
  have houtne : (if e = Effect.incl then '!' :: p
      else if startsWithChar '#' p then '\\' :: p else p) ≠ [] := by
    split
    · simp
    · split
      · simp
      · exact hne
  unfold entryLine
  dsimp only
  split
  · constructor
    · exact strTrimEnd_concat_nonwsp _ '/' (by decide)
    · rw [endsWithChar_concat]
      decide
  · split
    · constructor
      · exact strTrimEnd_concat_nonwsp _ '\\' (by decide)
      · rw [endsWithChar_concat]
        decide
    · next hmd hesc =>
      have hts : strTrimEnd p = p := by
        by_contra hcc
        exact hesc hcc
      have hm2 : m = MatchScope.all := by
        cases m with
        | all => rfl
        | dirs => exact absurd rfl hmd
      constructor
      · split
        · exact strTrimEnd_append_of ['!'] p hts hne
        · split
          · exact strTrimEnd_append_of ['\\'] p hts hne
          · exact hts
      · have hpr : endsWithChar '\r' p = false :=
          endsWith_wsp_false p hts hne '\r' (by decide)
        split
        · rw [endsWithChar_cons _ _ _ hne]
          exact hpr
        · split
          · rw [endsWithChar_cons _ _ _ hne]
            exact hpr
          · exact hpr

theorem entryLine_not_comment (p : Str) (e : Effect) (m : MatchScope) (hne : p ≠ [])
    (hsh : e = Effect.ignore → startsWithChar '!' p = false) :
    startsWithChar '#' (entryLine p e m) = false := by
  have hout : startsWithChar '#' (if e = Effect.incl then '!' :: p
      else if startsWithChar '#' p then '\\' :: p else p) = false := by
    split
    · simp [startsWithChar]
    · split
      · simp [startsWithChar]
      · next hni hnsh =>
        cases p with
        | nil => rfl
        | cons a r =>
          simp only [startsWithChar, decide_eq_true_eq] at hnsh ⊢
          simpa using hnsh
  have houtne : (if e = Effect.incl then '!' :: p
      else if startsWithChar '#' p then '\\' :: p else p) ≠ [] := by
    split
    · simp
    · split
      · simp
      · exact hne
  unfold entryLine
  dsimp only
  split
  · rw [startsWithChar_append_left _ _ _ houtne]
    exact hout
  · split
    · rw [startsWithChar_append_left _ _ _ houtne]
      exact hout
    · exact hout

theorem entryLine_parse (p : Str) (e : Effect) (m : MatchScope)
    (hne : p ≠ [])
    (hig : e = Effect.ignore →
      startsWithChar '!' p = false ∧ startsWithPair '\\' '#' p = false)
    (hall : m = MatchScope.all →
      endsWithChar '/' p = false ∧ endsWithChar '\\' p = false) :
    parseEntryCtl (entryLine p e m) = some (parsedCtl (p, e, m)) := by
  cases e with
  | incl =>
    by_cases hm : m = MatchScope.dirs
    · have hline : entryLine p Effect.incl m = '!' :: (p ++ ['/']) := by
        unfold entryLine
        rw [if_pos rfl, if_pos hm]
        rfl
      rw [hline, hm]
      unfold parseEntryCtl
      dsimp only
      rw [if_neg (show ¬(startsWithPair '\\' '#' ('!' :: (p ++ ['/'])) = true) from by
        rw [startsWithPair_head_ne _ _ _ _ (by decide)]; simp)]
      rw [if_neg (show ¬(endsWithChar '\\' ('!' :: (p ++ ['/'])) = true) from by
        rw [show '!' :: (p ++ ['/']) = ('!' :: p) ++ ['/'] from rfl, endsWithChar_concat]
        decide)]
      rw [if_neg (show ¬('!' :: (p ++ ['/']) = []) from by simp)]
      rw [gitIgnorePattern_bang_slash]
      rfl
    · have hm2 : m = MatchScope.all := by
        cases m with
        | all => rfl
        | dirs => exact absurd rfl hm
      obtain ⟨hnslash, hnbsl⟩ := hall hm2
      by_cases hesc : strTrimEnd p ≠ p
      · have hline : entryLine p Effect.incl m = ('!' :: p) ++ ['\\'] := by
          unfold entryLine
          rw [if_pos rfl, if_neg hm, if_pos hesc]
        rw [hline, hm2]
        unfold parseEntryCtl
        dsimp only
        rw [if_neg (show ¬(startsWithPair '\\' '#' (('!' :: p) ++ ['\\']) = true) from by
          rw [show ('!' :: p) ++ ['\\'] = '!' :: (p ++ ['\\']) from rfl]
          rw [startsWithPair_head_ne _ _ _ _ (by decide)]; simp)]
        rw [if_pos (show endsWithChar '\\' (('!' :: p) ++ ['\\']) = true from by
          rw [endsWithChar_concat]; decide)]
        rw [List.dropLast_concat]
        rw [if_neg (show ¬('!' :: p = []) from by simp)]
        rw [gitIgnorePattern_bang p hnslash]
        rfl
      · have hline : entryLine p Effect.incl m = '!' :: p := by
          unfold entryLine
          rw [if_pos rfl, if_neg hm, if_neg hesc]
        rw [hline, hm2]
        unfold parseEntryCtl
        dsimp only
        rw [if_neg (show ¬(startsWithPair '\\' '#' ('!' :: p) = true) from by
          rw [startsWithPair_head_ne _ _ _ _ (by decide)]; simp)]
        rw [if_neg (show ¬(endsWithChar '\\' ('!' :: p) = true) from by
          rw [endsWithChar_cons _ _ _ hne, hnbsl]; simp)]
        rw [if_neg (show ¬('!' :: p = []) from by simp)]
        rw [gitIgnorePattern_bang p hnslash]
        rfl
  | ignore =>
    obtain ⟨hnbang, hnpair⟩ := hig rfl
    by_cases hsh : startsWithChar '#' p = true
    · obtain ⟨p2, hp2⟩ : ∃ p2, p = '#' :: p2 := by
        cases p with
        | nil => simp [startsWithChar] at hsh
        | cons a r =>
          simp only [startsWithChar, decide_eq_true_eq] at hsh
          exact ⟨r, by rw [hsh]⟩
      subst hp2
      by_cases hm : m = MatchScope.dirs
      · have hline : entryLine ('#' :: p2) Effect.ignore m = ('\\' :: ('#' :: p2)) ++ ['/'] := by
          unfold entryLine
          rw [if_neg (show ¬(Effect.ignore = Effect.incl) from by decide), if_pos hsh, if_pos hm]
        rw [hline, hm]
        unfold parseEntryCtl
        dsimp only
        rw [if_pos (show startsWithPair '\\' '#' (('\\' :: ('#' :: p2)) ++ ['/']) = true from by
          simp [startsWithPair])]
        rw [show List.drop 1 (('\\' :: ('#' :: p2)) ++ ['/']) = ('#' :: p2) ++ ['/'] from rfl]
        rw [if_neg (show ¬(endsWithChar '\\' (('#' :: p2) ++ ['/']) = true) from by
          rw [endsWithChar_concat]; decide)]
        rw [if_neg (show ¬(('#' :: p2) ++ ['/'] = []) from by simp)]
        rw [gitIgnorePattern_slash ('#' :: p2) hnbang]
        rfl
      · have hm2 : m = MatchScope.all := by
          cases m with
          | all => rfl
          | dirs => exact absurd rfl hm
        obtain ⟨hnslash, hnbsl⟩ := hall hm2
        by_cases hesc : strTrimEnd ('#' :: p2) ≠ ('#' :: p2)
        · have hline : entryLine ('#' :: p2) Effect.ignore m = ('\\' :: ('#' :: p2)) ++ ['\\'] := by
            unfold entryLine
            rw [if_neg (show ¬(Effect.ignore = Effect.incl) from by decide), if_pos hsh, if_neg hm, if_pos hesc]
          rw [hline, hm2]
          unfold parseEntryCtl
          dsimp only
          rw [if_pos (show startsWithPair '\\' '#' (('\\' :: ('#' :: p2)) ++ ['\\']) = true from by
            simp [startsWithPair])]
          rw [show List.drop 1 (('\\' :: ('#' :: p2)) ++ ['\\']) = ('#' :: p2) ++ ['\\'] from rfl]
          rw [if_pos (show endsWithChar '\\' (('#' :: p2) ++ ['\\']) = true from by
            rw [endsWithChar_concat]; decide)]
          rw [List.dropLast_concat]
          rw [if_neg (show ¬('#' :: p2 = []) from by simp)]
          rw [gitIgnorePattern_plain ('#' :: p2) hnbang hnslash]
          rfl
        · have hline : entryLine ('#' :: p2) Effect.ignore m = '\\' :: ('#' :: p2) := by
            unfold entryLine
            rw [if_neg (show ¬(Effect.ignore = Effect.incl) from by decide), if_pos hsh, if_neg hm, if_neg hesc]
          rw [hline, hm2]
          unfold parseEntryCtl
          dsimp only
          rw [if_pos (show startsWithPair '\\' '#' ('\\' :: ('#' :: p2)) = true from by
            simp [startsWithPair])]
          rw [show List.drop 1 ('\\' :: ('#' :: p2)) = '#' :: p2 from rfl]
          rw [if_neg (show ¬(endsWithChar '\\' ('#' :: p2) = true) from by
            rw [hnbsl]; simp)]
          rw [if_neg (show ¬('#' :: p2 = []) from by simp)]
          rw [gitIgnorePattern_plain ('#' :: p2) hnbang hnslash]
          rfl
    · have hsh2 : startsWithChar '#' p = false := by
        by_contra hc
        exact hsh (by simpa using hc)
      by_cases hm : m = MatchScope.dirs
      · have hline : entryLine p Effect.ignore m = p ++ ['/'] := by
          unfold entryLine
          rw [if_neg (show ¬(Effect.ignore = Effect.incl) from by decide), if_neg (show ¬(startsWithChar '#' p = true) from by rw [hsh2]; simp), if_pos hm]
        rw [hline, hm]
        unfold parseEntryCtl
        dsimp only
        rw [if_neg (show ¬(startsWithPair '\\' '#' (p ++ ['/']) = true) from by
          rw [startsWithPair_concat_ne _ _ p '/' hnpair (by decide) hne]; simp)]
        rw [if_neg (show ¬(endsWithChar '\\' (p ++ ['/']) = true) from by
          rw [endsWithChar_concat]; decide)]
        rw [if_neg (show ¬(p ++ ['/'] = []) from by simp)]
        rw [gitIgnorePattern_slash p hnbang]
        rfl
      · have hm2 : m = MatchScope.all := by
          cases m with
          | all => rfl
          | dirs => exact absurd rfl hm
        obtain ⟨hnslash, hnbsl⟩ := hall hm2
        by_cases hesc : strTrimEnd p ≠ p
        · have hline : entryLine p Effect.ignore m = p ++ ['\\'] := by
            unfold entryLine
            rw [if_neg (show ¬(Effect.ignore = Effect.incl) from by decide), if_neg (show ¬(startsWithChar '#' p = true) from by rw [hsh2]; simp), if_neg hm, if_pos hesc]
          rw [hline, hm2]
          unfold parseEntryCtl
          dsimp only
          rw [if_neg (show ¬(startsWithPair '\\' '#' (p ++ ['\\']) = true) from by
            rw [startsWithPair_concat_ne _ _ p '\\' hnpair (by decide) hne]; simp)]
          rw [if_pos (show endsWithChar '\\' (p ++ ['\\']) = true from by
            rw [endsWithChar_concat]; decide)]
          rw [List.dropLast_concat]
          rw [if_neg hne]
          rw [gitIgnorePattern_plain p hnbang hnslash]
          rfl
        · have hline : entryLine p Effect.ignore m = p := by
            unfold entryLine
            rw [if_neg (show ¬(Effect.ignore = Effect.incl) from by decide), if_neg (show ¬(startsWithChar '#' p = true) from by rw [hsh2]; simp), if_neg hm, if_neg hesc]
          rw [hline, hm2]
          unfold parseEntryCtl
          dsimp only
          rw [if_neg (show ¬(startsWithPair '\\' '#' p = true) from by
            rw [hnpair]; simp)]
          rw [if_neg (show ¬(endsWithChar '\\' p = true) from by
            rw [hnbsl]; simp)]
          rw [if_neg hne]
          rw [gitIgnorePattern_plain p hnbang hnslash]
          rfl

theorem getSec_of_mem_nodup (s : FileState) (sc : SectionCtl)
    (hnd : (s.sections.map (fun x => x.title)).Nodup) (hmem : sc ∈ s.sections) :
    getSec s sc.title = sc := by
  unfold getSec
  cases hidx : secIdx s sc.title with
  | none =>
    unfold secIdx at hidx
    rw [List.findIdx?_eq_none_iff] at hidx
    have := hidx sc hmem
    simp at this
  | some i =>
    unfold secIdx at hidx
    obtain ⟨hlt, hp, _⟩ := List.findIdx?_eq_some_iff_getElem.mp hidx
    simp only [decide_eq_true_eq] at hp
    have hmemi : s.sections[i] ∈ s.sections := List.getElem_mem _
    have heq : s.sections[i] = sc := List.inj_on_of_nodup_map hnd hmemi hmem hp
    dsimp only
    rw [List.getD_eq_getElem?_getD, List.getElem?_eq_getElem hlt]
    simpa using heq

theorem liveIn_of_synced (s : FileState) (t : Str) (e : Str × Nat × Nat)
    (hp : pairSynced s t e) : liveIn s t e.2.1 = true := by
  obtain ⟨h1, h2, hh, hreg, hpat, hatt, hdet⟩ := hp
  unfold liveIn hCurrentSection hCurrent
  rw [hh]
  dsimp only
  rw [hreg]
  dsimp only
  rw [hatt]
  simp

theorem secEntriesRun_id (t : Str) (s : FileState)
    (hl : ∀ e ∈ (getSec s t).entries, liveIn s t e.2.1 = true) :
    secEntriesRun t s = (s, (getSec s t).entries.map (fun e => e.2.1)) := by
  unfold secEntriesRun
  dsimp only
  have hf : (getSec s t).entries.filter (fun e => liveIn s t e.2.1) = (getSec s t).entries :=
    List.filter_eq_self.mpr hl
  rw [hf, updSec_congr_id t _ s (sectionCtl_entries_id _ _ rfl)]

theorem titleBlock_single (t : Str) (h : ∀ c ∈ t, c ≠ '\n') :
    titleBlock t osEOL = if t = [] then [] else ('#' :: ' ' :: t) ++ osEOL := by
  unfold titleBlock
  by_cases ht : t = []
  · rw [if_pos ht, if_pos ht]
  · rw [if_neg ht, if_neg ht, strReplaceNl_id t _ h]

theorem linesJoin_append (a b : List Str) :
    linesJoin (a ++ b) = linesJoin a ++ linesJoin b := by
  unfold linesJoin
  simp

theorem linesJoin_cons_ne_nil (l : Str) (ls : List Str) : linesJoin (l :: ls) ≠ [] := by
  intro hc
  unfold linesJoin at hc
  rw [List.map_cons, List.flatten_cons] at hc
  obtain ⟨h1, h2⟩ := List.append_eq_nil.mp hc
  obtain ⟨h3, h4⟩ := List.append_eq_nil.mp h1
  exact absurd h4 (by decide)

theorem secToStringRun_abs (t : Str) (s : FileState)
    (hnl : ∀ c ∈ t, c ≠ '\n')
    (hl : ∀ e ∈ (getSec s t).entries, liveIn s t e.2.1 = true)
    (hpat : ∀ e ∈ (getSec s t).entries, (getHandle s e.2.1).pattern = e.1) :
    secToStringRun t s
      = (s, linesJoin (blockLines t ((getSec s t).entries.map (absEntry s)))) := by
  unfold secToStringRun
  dsimp only
  rw [secEntriesRun_id t s hl]
  dsimp only
  congr 1
  rw [titleBlock_single t hnl]
  unfold blockLines linesJoin entryLinesOf
  simp only [List.map_append, List.flatten_append, List.map_map]
  congr 1
  · by_cases ht : t = [] <;> simp [ht]
  · congr 1
    apply List.map_congr_left
    intro e he
    show hToString s e.2.1 ++ osEOL = entryLine (absEntry s e).1 (absEntry s e).2.1 (absEntry s e).2.2 ++ osEOL
    unfold hToString absEntry
    rw [hpat e he]

theorem absOf_titles (s : FileState) :
    (absOf s).map (fun sec => sec.1) = s.sections.map (fun x => x.title) := by
  unfold absOf absSec
  rw [List.map_map]
  rfl

theorem fileToStringGo_abs (s : FileState) (hg : goodState s) (secs : List SectionCtl)
    (hsub : ∀ sc ∈ secs, sc ∈ s.sections) :
    ∀ (acc : Str) (first : Bool), (acc = [] ↔ first = true) →
    fileToStringGo (secs.map (fun sc => sc.title)) osEOL acc s
      = (s, acc ++ linesJoin (fileLines first (secs.map (absSec s)))) := by
  induction secs with
  | nil =>
    intro acc first hfirst
    have hfl : fileLines first [] = [] := by cases first <;> rfl
    show (s, acc) = _
    rw [List.map_nil, hfl]
    show (s, acc) = (s, acc ++ [])
    rw [List.append_nil]
  | cons sc rest ih =>
    intro acc first hfirst
    obtain ⟨hgabs, hsync⟩ := hg
    obtain ⟨hgall, htnd, hpnd⟩ := hgabs
    have hmem : sc ∈ s.sections := hsub sc (List.mem_cons_self _ _)
    have htnd2 : (s.sections.map (fun x => x.title)).Nodup := by
      rw [← absOf_titles]
      exact htnd
    have hgsec : getSec s sc.title = sc := getSec_of_mem_nodup s sc htnd2 hmem
    have habs_mem : absSec s sc ∈ absOf s := List.mem_map_of_mem _ hmem
    obtain ⟨hgt, hune, hgpats⟩ := hgall (absSec s sc) habs_mem
    have hnl : ∀ c ∈ sc.title, c ≠ '\n' := hgt.1
    have hpairs := hsync sc hmem
    have hl : ∀ e ∈ (getSec s sc.title).entries, liveIn s sc.title e.2.1 = true := by
      rw [hgsec]
      exact fun e he => liveIn_of_synced s sc.title e (hpairs.2 e he)
    have hpat : ∀ e ∈ (getSec s sc.title).entries, (getHandle s e.2.1).pattern = e.1 := by
      rw [hgsec]
      intro e he
      have hhh := (hpairs.2 e he).2.2.1
      rw [hhh]
    rw [show fileToStringGo (List.map (fun x => x.title) (sc :: rest)) osEOL acc s
        = fileToStringGo (rest.map (fun x => x.title)) osEOL
            (acc ++ (if acc ≠ [] then osEOL ++ (if sc.title = [] then '#' :: osEOL else []) else [])
              ++ (secToStringRun sc.title s).2) (secToStringRun sc.title s).1 from rfl]
    rw [secToStringRun_abs sc.title s hnl hl hpat]
    rw [hgsec]
    dsimp only
    have hBne : linesJoin (blockLines sc.title (sc.entries.map (absEntry s))) ≠ [] := by
      unfold blockLines
      by_cases ht : sc.title = []
      · rw [if_pos ht]
        have h2 := hune ht
        cases hmap : sc.entries.map (absEntry s) with
        | nil => exact absurd hmap h2
        | cons a l =>
          rw [List.nil_append]
          exact linesJoin_cons_ne_nil _ _
      · rw [if_neg ht]
        exact linesJoin_cons_ne_nil _ _
    have haccne : (acc ++ (if acc ≠ [] then osEOL ++ (if sc.title = [] then '#' :: osEOL else []) else [])
        ++ linesJoin (blockLines sc.title (sc.entries.map (absEntry s)))) ≠ [] := by
      intro hc
      obtain ⟨h1, h2⟩ := List.append_eq_nil.mp hc
      exact hBne h2
    rw [ih (fun x hx => hsub x (List.mem_cons_of_mem _ hx)) _ false
      (by constructor
          · intro hc; exact absurd hc haccne
          · intro hc; cases hc)]
    have hsep : (if acc ≠ [] then osEOL ++ (if sc.title = [] then '#' :: osEOL else []) else [])
        = linesJoin (if first then [] else [] :: (if sc.title = [] then [['#']] else [])) := by
      cases first with
      | true =>
        have hae : acc = [] := hfirst.mpr rfl
        rw [if_neg (by rw [hae]; simp)]
        rfl
      | false =>
        have hacc : acc ≠ [] := by
          intro hc
          have := hfirst.mp hc
          cases this
        rw [if_pos hacc]
        by_cases ht : sc.title = []
        · rw [if_pos ht, if_pos ht]
          rfl
        · rw [if_neg ht, if_neg ht]
          rfl
    rw [List.map_cons]
    rw [show fileLines first (absSec s sc :: rest.map (absSec s))
        = ((if first then [] else [] :: (if (absSec s sc).1 = [] then [['#']] else []))
          ++ blockLines (absSec s sc).1 (absSec s sc).2)
          ++ fileLines false (rest.map (absSec s)) from rfl]
    rw [linesJoin_append, linesJoin_append]
    show (s, acc ++ (if acc ≠ [] then osEOL ++ (if sc.title = [] then '#' :: osEOL else []) else [])
        ++ linesJoin (blockLines sc.title (sc.entries.map (absEntry s)))
        ++ linesJoin (fileLines false (rest.map (absSec s))))
      = (s, acc ++ ((linesJoin (if first then [] else [] :: (if sc.title = [] then [['#']] else []))
        ++ linesJoin (blockLines sc.title (sc.entries.map (absEntry s))))
        ++ linesJoin (fileLines false (rest.map (absSec s)))))
    rw [hsep]
    simp [List.append_assoc]

theorem render_abs (s : FileState) (hg : goodState s) :
    (fileToStringRun osEOL s).2 = linesJoin (fileLines true (absOf s)) := by
  unfold fileToStringRun
  rw [fileToStringGo_abs s hg s.sections (fun sc h => h) [] true (by simp)]
  rfl

theorem parseLineStep_blank_any (s : FileState) (osec : Option Str) :
    parseLineStep ⟨s, none, osec⟩ [] = ⟨s, none, osec⟩ := by
  unfold parseLineStep
  dsimp only
  rw [if_neg (show ¬(startsWithChar '#' (strTrimEnd []) = true) from by decide)]
  rw [show parseEntryCtl (strTrimEnd []) = none from rfl]
  cases osec <;> rfl

theorem parseLineStep_blank_pc (s : FileState) (pc : Str) :
    parseLineStep ⟨s, some pc, none⟩ [] = ⟨fileSection pc s, none, some pc⟩ := by
  unfold parseLineStep
  dsimp only
  rw [if_neg (show ¬(startsWithChar '#' (strTrimEnd []) = true) from by decide)]
  rw [show parseEntryCtl (strTrimEnd []) = none from rfl]

theorem parseLineStep_hash (s : FileState) (pc : Option Str) (osec : Option Str) :
    parseLineStep ⟨s, pc, osec⟩ ['#'] = ⟨s, pc, none⟩ := by
  unfold parseLineStep
  dsimp only
  rw [if_pos (show startsWithChar '#' (strTrimEnd ['#']) = true from by decide)]
  rw [show strTrim (List.drop 1 (strTrimEnd ['#'])) = ([] : Str) from by decide]
  rw [if_pos rfl]

theorem parseLineStep_title (s : FileState) (t : Str) (osec : Option Str)
    (hgt : goodTitle t) (hne : t ≠ []) :
    parseLineStep ⟨s, none, osec⟩ ('#' :: ' ' :: t) = ⟨s, some t, none⟩ := by
  obtain ⟨hnl, hts, htd⟩ := hgt
  have hline : strTrimEnd ('#' :: ' ' :: t) = '#' :: ' ' :: t :=
    strTrimEnd_append_of ['#', ' '] t hts hne
  unfold parseLineStep
  dsimp only
  rw [hline]
  rw [if_pos (show startsWithChar '#' ('#' :: ' ' :: t) = true from by
    simp [startsWithChar])]
  have hcomment : strTrim (List.drop 1 ('#' :: ' ' :: t)) = t := by
    rw [show List.drop 1 ('#' :: ' ' :: t) = ' ' :: t from rfl]
    unfold strTrim
    have hst : strTrimEnd (' ' :: t) = ' ' :: t := strTrimEnd_append_of [' '] t hts hne
    rw [hst]
    rw [show List.dropWhile wsp (' ' :: t) = List.dropWhile wsp t from by
      rw [List.dropWhile_cons, if_pos (by decide)]]
    exact htd
  rw [hcomment]
  rw [if_neg hne]

theorem parseLineStep_entry_open (s : FileState) (t : Str)
    (pem : Str × Effect × MatchScope)
    (hne : pem.1 ≠ [])
    (hig : pem.2.1 = Effect.ignore →
      startsWithChar '!' pem.1 = false ∧ startsWithPair '\\' '#' pem.1 = false)
    (hall : pem.2.2 = MatchScope.all →
      endsWithChar '/' pem.1 = false ∧ endsWithChar '\\' pem.1 = false) :
    parseLineStep ⟨s, none, some t⟩ (entryLine pem.1 pem.2.1 pem.2.2)
      = ⟨addEntry t pem s, none, some t⟩ := by
  have htr := entryLine_trimEnd pem.1 pem.2.1 pem.2.2 hne hall
  unfold parseLineStep
  dsimp only
  rw [htr.1]
  rw [if_neg (show ¬(startsWithChar '#' (entryLine pem.1 pem.2.1 pem.2.2) = true) from by
    rw [entryLine_not_comment pem.1 pem.2.1 pem.2.2 hne (fun h2 => (hig h2).1)]; simp)]
  rw [entryLine_parse pem.1 pem.2.1 pem.2.2 hne hig hall]
  rfl

theorem parseLineStep_entry_pc (s : FileState) (t : Str) (osec : Option Str)
    (pem : Str × Effect × MatchScope)
    (hne : pem.1 ≠ [])
    (hig : pem.2.1 = Effect.ignore →
      startsWithChar '!' pem.1 = false ∧ startsWithPair '\\' '#' pem.1 = false)
    (hall : pem.2.2 = MatchScope.all →
      endsWithChar '/' pem.1 = false ∧ endsWithChar '\\' pem.1 = false) :
    parseLineStep ⟨s, some t, osec⟩ (entryLine pem.1 pem.2.1 pem.2.2)
      = ⟨addEntry t pem (fileSection t s), none, some t⟩ := by
  have htr := entryLine_trimEnd pem.1 pem.2.1 pem.2.2 hne hall
  unfold parseLineStep
  dsimp only
  rw [htr.1]
  rw [if_neg (show ¬(startsWithChar '#' (entryLine pem.1 pem.2.1 pem.2.2) = true) from by
    rw [entryLine_not_comment pem.1 pem.2.1 pem.2.2 hne (fun h2 => (hig h2).1)]; simp)]
  rw [entryLine_parse pem.1 pem.2.1 pem.2.2 hne hig hall]
  rfl

theorem parseLineStep_entry_fresh (s : FileState)
    (pem : Str × Effect × MatchScope)
    (hne : pem.1 ≠ [])
    (hig : pem.2.1 = Effect.ignore →
      startsWithChar '!' pem.1 = false ∧ startsWithPair '\\' '#' pem.1 = false)
    (hall : pem.2.2 = MatchScope.all →
      endsWithChar '/' pem.1 = false ∧ endsWithChar '\\' pem.1 = false) :
    parseLineStep ⟨s, none, none⟩ (entryLine pem.1 pem.2.1 pem.2.2)
      = ⟨addEntry [] pem (fileSection [] s), none, some []⟩ := by
  have htr := entryLine_trimEnd pem.1 pem.2.1 pem.2.2 hne hall
  unfold parseLineStep
  dsimp only
  rw [htr.1]
  rw [if_neg (show ¬(startsWithChar '#' (entryLine pem.1 pem.2.1 pem.2.2) = true) from by
    rw [entryLine_not_comment pem.1 pem.2.1 pem.2.2 hne (fun h2 => (hig h2).1)]; simp)]
  rw [entryLine_parse pem.1 pem.2.1 pem.2.2 hne hig hall]
  rfl

theorem foldl_entries (t : Str) (es : List (Str × Effect × MatchScope))
    (hges : ∀ pem ∈ es, goodPattern pem) (s : FileState) :
    (entryLinesOf es).foldl parseLineStep ⟨s, none, some t⟩
      = ⟨es.foldl (fun s2 pem => addEntry t pem s2) s, none, some t⟩ := by
  induction es generalizing s with
  | nil => rfl
  | cons pem rest ih =>
    obtain ⟨h1, h2, h3, h4⟩ := hges pem (List.mem_cons_self _ _)
    show (entryLinesOf rest).foldl parseLineStep
        (parseLineStep ⟨s, none, some t⟩ (entryLine pem.1 pem.2.1 pem.2.2)) = _
    rw [parseLineStep_entry_open s t pem h1 h3 h4]
    exact ih (fun x hx => hges x (List.mem_cons_of_mem _ hx)) _

theorem fileLines_wf (L : List (Str × List (Str × Effect × MatchScope)))
    (hgood : ∀ sec ∈ L, goodTitle sec.1 ∧ (sec.1 = [] → sec.2 ≠ [])
      ∧ ∀ pem ∈ sec.2, goodPattern pem) (first : Bool) :
    ∀ l ∈ fileLines first L, (∀ c ∈ l, c ≠ '\n') ∧ endsWithChar '\r' l = false := by
  induction L generalizing first with
  | nil => intro l hl; cases first <;> simp [fileLines] at hl
  | cons sec rest ih =>
    intro l hl
    rw [show fileLines first (sec :: rest)
        = ((if first then [] else [] :: (if sec.1 = [] then [['#']] else []))
          ++ blockLines sec.1 sec.2) ++ fileLines false rest from rfl] at hl
    obtain ⟨hgt, hunt, hges⟩ := hgood sec (List.mem_cons_self _ _)
    rcases List.mem_append.mp hl with h1 | h1
    · rcases List.mem_append.mp h1 with hsep | hblk
      · cases first with
        | true => simp at hsep
        | false =>
          have hsep3 : l ∈ [] :: (if sec.1 = [] then [['#']] else []) := hsep
          rcases List.mem_cons.mp hsep3 with rfl | hsep2
          · exact ⟨by intro c hc; simp at hc, rfl⟩
          · by_cases hsec : sec.1 = []
            · rw [if_pos hsec] at hsep2
              have hl2 : l = ['#'] := by simpa using hsep2
              subst hl2
              exact ⟨by decide, by decide⟩
            · rw [if_neg hsec] at hsep2
              simp at hsep2
      · unfold blockLines at hblk
        rcases List.mem_append.mp hblk with htl | hent
        · by_cases hsec : sec.1 = []
          · rw [if_pos hsec] at htl; simp at htl
          · rw [if_neg hsec] at htl
            have hl2 : l = '#' :: ' ' :: sec.1 := by simpa using htl
            subst hl2
            constructor
            · intro c hc
              rcases List.mem_cons.mp hc with rfl | hc2
              · decide
              · rcases List.mem_cons.mp hc2 with rfl | hc3
                · decide
                · exact hgt.1 c hc3
            · exact endsWith_wsp_false ('#' :: ' ' :: sec.1)
                (strTrimEnd_append_of ['#', ' '] sec.1 hgt.2.1 hsec)
                (List.cons_ne_nil _ _) '\r' (by decide)
        · unfold entryLinesOf at hent
          obtain ⟨pem, hpem, rfl⟩ := List.mem_map.mp hent
          obtain ⟨h1, h2, h3, h4⟩ := hges pem hpem
          exact ⟨entryLine_no_nl pem.1 pem.2.1 pem.2.2 h2,
            (entryLine_trimEnd pem.1 pem.2.1 pem.2.2 h1 h4).2⟩
    · exact ih (fun x hx => hgood x (List.mem_cons_of_mem _ hx)) false l h1

theorem foldl_block (t : Str) (es : List (Str × Effect × MatchScope))
    (hunt : t = [] → es ≠ []) (hgt : goodTitle t)
    (hges : ∀ pem ∈ es, goodPattern pem)
    (s : FileState) (osec : Option Str) (hosec : t = [] → osec = none) :
    (∃ osec2, (blockLines t es).foldl parseLineStep ⟨s, none, osec⟩
        = ⟨addSec (t, es) s, none, osec2⟩)
    ∨ (∃ s0 tp, (blockLines t es).foldl parseLineStep ⟨s, none, osec⟩
        = ⟨s0, some tp, none⟩ ∧ fileSection tp s0 = addSec (t, es) s) := by
  by_cases ht : t = []
  · subst ht
    have hosec2 := hosec rfl
    subst hosec2
    cases es with
    | nil => exact absurd rfl (hunt rfl)
    | cons pem more =>
      left
      refine ⟨some [], ?_⟩
      obtain ⟨h1, h2, h3, h4⟩ := hges pem (List.mem_cons_self _ _)
      rw [show blockLines [] (pem :: more)
          = entryLine pem.1 pem.2.1 pem.2.2 :: entryLinesOf more from rfl]
      rw [List.foldl_cons, parseLineStep_entry_fresh s pem h1 h3 h4]
      rw [foldl_entries [] more (fun x hx => hges x (List.mem_cons_of_mem _ hx)) _]
      rfl
  · have hstep : (blockLines t es).foldl parseLineStep ⟨s, none, osec⟩
        = (entryLinesOf es).foldl parseLineStep ⟨s, some t, none⟩ := by
      rw [show blockLines t es = ('#' :: ' ' :: t) :: entryLinesOf es from by
        unfold blockLines; rw [if_neg ht]; rfl]
      rw [List.foldl_cons, parseLineStep_title s t osec hgt ht]
    cases es with
    | nil =>
      right
      refine ⟨s, t, ?_, rfl⟩
      rw [hstep]
      rfl
    | cons pem more =>
      left
      refine ⟨some t, ?_⟩
      obtain ⟨h1, h2, h3, h4⟩ := hges pem (List.mem_cons_self _ _)
      rw [hstep]
      rw [show entryLinesOf (pem :: more)
          = entryLine pem.1 pem.2.1 pem.2.2 :: entryLinesOf more from rfl]
      rw [List.foldl_cons, parseLineStep_entry_pc s t none pem h1 h3 h4]
      rw [foldl_entries t more (fun x hx => hges x (List.mem_cons_of_mem _ hx)) _]
      rfl

theorem foldl_rest (L : List (Str × List (Str × Effect × MatchScope)))
    (hgood : ∀ sec ∈ L, goodTitle sec.1 ∧ (sec.1 = [] → sec.2 ≠ [])
      ∧ ∀ pem ∈ sec.2, goodPattern pem) :
    ∀ (sB : FileState) (st : ParseSt),
      ((∃ osec, st = ⟨sB, none, osec⟩)
        ∨ (∃ s0 tp, st = ⟨s0, some tp, none⟩ ∧ fileSection tp s0 = sB)) →
      ∃ osec2, (fileLines false L ++ [[]]).foldl parseLineStep st
        = ⟨L.foldl (fun s sec => addSec sec s) sB, none, osec2⟩ := by
  induction L with
  | nil =>
    intro sB st hst
    rcases hst with ⟨osec, rfl⟩ | ⟨s0, tp, rfl, hfs⟩
    · refine ⟨osec, ?_⟩
      rw [show fileLines false [] ++ [[]] = [([] : Str)] from rfl]
      rw [List.foldl_cons, parseLineStep_blank_any]
      rfl
    · refine ⟨some tp, ?_⟩
      rw [show fileLines false [] ++ [[]] = [([] : Str)] from rfl]
      rw [List.foldl_cons, parseLineStep_blank_pc, hfs]
      rfl
  | cons sec rest ih =>
    intro sB st hst
    obtain ⟨hgt, hunt, hges⟩ := hgood sec (List.mem_cons_self _ _)
    have hsplit : fileLines false (sec :: rest) ++ [[]]
        = (([] :: (if sec.1 = [] then [['#']] else [])) ++ blockLines sec.1 sec.2)
          ++ (fileLines false rest ++ [[]]) := by
      rw [show fileLines false (sec :: rest)
          = (([] :: (if sec.1 = [] then [['#']] else [])) ++ blockLines sec.1 sec.2)
            ++ fileLines false rest from rfl]
      rw [List.append_assoc]
    have hpre : ∃ osecA, (([] :: (if sec.1 = [] then [['#']] else []))).foldl
          parseLineStep st = ⟨sB, none, osecA⟩ ∧ (sec.1 = [] → osecA = none) := by
      rcases hst with ⟨osec, rfl⟩ | ⟨s0, tp, rfl, hfs⟩
      · by_cases hsec : sec.1 = []
        · refine ⟨none, ?_, fun _ => rfl⟩
          rw [if_pos hsec]
          rw [List.foldl_cons, parseLineStep_blank_any, List.foldl_cons,
            parseLineStep_hash]
          rfl
        · refine ⟨osec, ?_, fun h => absurd h hsec⟩
          rw [if_neg hsec]
          rw [List.foldl_cons, parseLineStep_blank_any]
          rfl
      · by_cases hsec : sec.1 = []
        · refine ⟨none, ?_, fun _ => rfl⟩
          rw [if_pos hsec]
          rw [List.foldl_cons, parseLineStep_blank_pc, List.foldl_cons,
            parseLineStep_hash, hfs]
          rfl
        · refine ⟨some tp, ?_, fun h => absurd h hsec⟩
          rw [if_neg hsec]
          rw [List.foldl_cons, parseLineStep_blank_pc, hfs]
          rfl
    obtain ⟨osecA, hpre1, hpre2⟩ := hpre
    have hinner : List.foldl parseLineStep st
        (([] :: (if sec.1 = [] then [['#']] else [])) ++ blockLines sec.1 sec.2)
        = List.foldl parseLineStep ⟨sB, none, osecA⟩ (blockLines sec.1 sec.2) := by
      rw [List.foldl_append, hpre1]
    rw [hsplit, List.foldl_append, hinner]
    have hblk := foldl_block sec.1 sec.2 hunt hgt hges sB osecA hpre2
    have hih := ih (fun x hx => hgood x (List.mem_cons_of_mem _ hx))
    rcases hblk with ⟨osec2, hblk⟩ | ⟨s0p, tpp, hblk, hfsp⟩
    · rw [hblk]
      exact hih (addSec sec sB) _ (Or.inl ⟨osec2, rfl⟩)
    · rw [hblk]
      exact hih (addSec sec sB) _ (Or.inr ⟨s0p, tpp, rfl, hfsp⟩)

theorem parse_build (L : List (Str × List (Str × Effect × MatchScope)))
    (hg : goodAbs L) :
    runParse (linesJoin (fileLines true L)) emptyFile
      = fileSetModified false (buildFile L) := by
  obtain ⟨hgood, hnt, hnp⟩ := hg
  cases L with
  | nil => rfl
  | cons sec rest =>
    obtain ⟨hgt, hunt, hges⟩ := hgood sec (List.mem_cons_self _ _)
    have hsj := splitLines_join (fileLines true (sec :: rest))
      (fileLines_wf (sec :: rest) hgood true)
    have hsplit : fileLines true (sec :: rest) ++ [[]]
        = blockLines sec.1 sec.2 ++ (fileLines false rest ++ [[]]) := by
      rw [show fileLines true (sec :: rest)
          = blockLines sec.1 sec.2 ++ fileLines false rest from rfl]
      rw [List.append_assoc]
    have hblk := foldl_block sec.1 sec.2 hunt hgt hges emptyFile none (fun _ => rfl)
    unfold runParse
    dsimp only
    rw [hsj, hsplit, List.foldl_append]
    rcases hblk with ⟨osec2, hblk⟩ | ⟨s0p, tpp, hblk, hfsp⟩
    · rw [hblk]
      obtain ⟨osec3, hrest⟩ := foldl_rest rest
        (fun x hx => hgood x (List.mem_cons_of_mem _ hx))
        (addSec sec emptyFile) _ (Or.inl ⟨osec2, rfl⟩)
      rw [hrest]
      rfl
    · rw [hblk]
      obtain ⟨osec3, hrest⟩ := foldl_rest rest
        (fun x hx => hgood x (List.mem_cons_of_mem _ hx))
        (addSec sec emptyFile) _ (Or.inr ⟨s0p, tpp, rfl, hfsp⟩)
      rw [hrest]
      rfl

theorem ctlAttachTo_new (ci : Nat) (t : Str) (hi : Nat) (s : FileState)
    (hc : (getCtl s ci).attachedTo = none) :
    ctlAttachTo ci t hi s
      = secAttachEntry t hi ci
          (setCtl ci { getCtl s ci with attachedTo := some t } s) := by
  unfold ctlAttachTo
  dsimp only
  rw [if_neg (show ¬((getCtl s ci).detached = false
      ∧ (getCtl s ci).attachedTo = some t) from by
    rw [hc]; rintro ⟨h1, h2⟩; exact Option.noConfusion h2)]

theorem secAttachEntry_nodm (t : Str) (hi ci : Nat) (s : FileState)
    (hdm : (getSec s t).detachedMap = none) :
    secAttachEntry t hi ci s
      = fileAttachEntry ci (updSec t (fun sc =>
          { sc with entries := mSet (getHandle s hi).pattern (hi, ci) sc.entries }) s) := by
  unfold secAttachEntry
  dsimp only
  have hdm2 : (getSec (updSec t (fun sc =>
      { sc with entries := mSet (getHandle s hi).pattern (hi, ci) sc.entries }) s)
        t).detachedMap = none := by
    by_cases hsi : (secIdx s t).isSome
    · rw [getSec_updSec_self t (fun sc =>
        { sc with entries := mSet (getHandle s hi).pattern (hi, ci) sc.entries })
        s (fun sc => rfl) hsi]
      exact hdm
    · have hnone : secIdx s t = none := by
        cases hidx : secIdx s t with
        | none => rfl
        | some i => rw [hidx] at hsi; simp at hsi
      rw [updSec_eq_none t (fun sc =>
        { sc with entries := mSet (getHandle s hi).pattern (hi, ci) sc.entries })
        s hnone]
      exact hdm
  rw [hdm2]

theorem fileAttachEntry_fresh (ci : Nat) (s : FileState)
    (hfresh : mGet (getCtl s ci).pattern s.entryCtls = none) :
    fileAttachEntry ci s
      = (fileModify { s with entryCtls := mSet (getCtl s ci).pattern ci s.entryCtls },
          ci) := by
  unfold fileAttachEntry
  dsimp only
  rw [hfresh]

theorem addEntry_fresh (t : Str) (pem : Str × Effect × MatchScope) (s : FileState)
    (hdm : (getSec s t).detachedMap = none)
    (hfresh : mGet pem.1 s.entryCtls = none) :
    addEntry t pem s
      = fileModify { updSec t (fun sc => { sc with entries := mSet pem.1 (s.handles.length, s.ctls.length) sc.entries }) { s with ctls := s.ctls ++ [⟨pem.1, some pem.2.1, some pem.2.2, some t, false⟩], handles := s.handles ++ [⟨pem.1, t, s.ctls.length⟩] } with entryCtls := mSet pem.1 s.ctls.length s.entryCtls } := by
  have hg1 : getCtl { s with ctls := s.ctls ++ [parsedCtl pem] } s.ctls.length
      = parsedCtl pem := getD_append_len s.ctls (parsedCtl pem) default
  show (ctlAttachTo s.ctls.length t s.handles.length { s with ctls := s.ctls ++ [parsedCtl pem], handles := s.handles ++ [⟨(getCtl { s with ctls := s.ctls ++ [parsedCtl pem] } s.ctls.length).pattern, t, s.ctls.length⟩] }).1 = _
  rw [show (getCtl { s with ctls := s.ctls ++ [parsedCtl pem] } s.ctls.length).pattern
      = pem.1 from by rw [hg1]; rfl]
  have hg2 : getCtl { s with ctls := s.ctls ++ [parsedCtl pem], handles := s.handles ++ [⟨pem.1, t, s.ctls.length⟩] } s.ctls.length = parsedCtl pem :=
    getD_append_len s.ctls (parsedCtl pem) default
  rw [ctlAttachTo_new s.ctls.length t s.handles.length { s with ctls := s.ctls ++ [parsedCtl pem], handles := s.handles ++ [⟨pem.1, t, s.ctls.length⟩] } (by rw [hg2]; rfl)]
  rw [hg2]
  have hset : setCtl s.ctls.length { parsedCtl pem with attachedTo := some t } { s with ctls := s.ctls ++ [parsedCtl pem], handles := s.handles ++ [⟨pem.1, t, s.ctls.length⟩] } = { s with ctls := s.ctls ++ [⟨pem.1, some pem.2.1, some pem.2.2, some t, false⟩], handles := s.handles ++ [⟨pem.1, t, s.ctls.length⟩] } := by
    unfold setCtl
    dsimp only
    rw [set_append_len]
    rfl
  rw [hset]
  rw [secAttachEntry_nodm t s.handles.length s.ctls.length { s with ctls := s.ctls ++ [⟨pem.1, some pem.2.1, some pem.2.2, some t, false⟩], handles := s.handles ++ [⟨pem.1, t, s.ctls.length⟩] } hdm]
  have hgh : getHandle { s with ctls := s.ctls ++ [⟨pem.1, some pem.2.1, some pem.2.2, some t, false⟩], handles := s.handles ++ [⟨pem.1, t, s.ctls.length⟩] } s.handles.length = ⟨pem.1, t, s.ctls.length⟩ :=
    getD_append_len s.handles _ default
  rw [show (getHandle { s with ctls := s.ctls ++ [⟨pem.1, some pem.2.1, some pem.2.2, some t, false⟩], handles := s.handles ++ [⟨pem.1, t, s.ctls.length⟩] } s.handles.length).pattern = pem.1 from by rw [hgh]]
  have hctls : getCtl (updSec t (fun sc => { sc with entries := mSet pem.1 (s.handles.length, s.ctls.length) sc.entries }) { s with ctls := s.ctls ++ [⟨pem.1, some pem.2.1, some pem.2.2, some t, false⟩], handles := s.handles ++ [⟨pem.1, t, s.ctls.length⟩] }) s.ctls.length = ⟨pem.1, some pem.2.1, some pem.2.2, some t, false⟩ := by
    rw [getCtl_updSec]
    exact getD_append_len s.ctls _ default
  have hec : (updSec t (fun sc => { sc with entries := mSet pem.1 (s.handles.length, s.ctls.length) sc.entries }) { s with ctls := s.ctls ++ [⟨pem.1, some pem.2.1, some pem.2.2, some t, false⟩], handles := s.handles ++ [⟨pem.1, t, s.ctls.length⟩] }).entryCtls = s.entryCtls := by
    rw [updSec_entryCtls]
  rw [fileAttachEntry_fresh s.ctls.length _ (by rw [hctls, hec]; exact hfresh)]
  dsimp only
  rw [hctls, hec]

theorem forall₂_mem_right {α β : Type} (R : α → β → Prop) (l1 : List α) (l2 : List β)
    (h : List.Forall₂ R l1 l2) (y : β) (hy : y ∈ l2) : ∃ x ∈ l1, R x y := by
  induction h with
  | nil => simp at hy
  | cons hr hrest ih =>
    rcases List.mem_cons.mp hy with rfl | hy2
    · exact ⟨_, List.mem_cons_self _ _, hr⟩
    · obtain ⟨x, hx, hrx⟩ := ih hy2
      exact ⟨x, List.mem_cons_of_mem _ hx, hrx⟩

theorem forall₂_snoc_left {α β : Type} (R : α → β → Prop) (l1 : List α) (x : α)
    (l2 : List β) (h : List.Forall₂ R (l1 ++ [x]) l2) :
    ∃ l2a y, l2 = l2a ++ [y] ∧ List.Forall₂ R l1 l2a ∧ R x y := by
  induction l1 generalizing l2 with
  | nil =>
    cases h with
    | cons hr hrest =>
      cases hrest with
      | nil => exact ⟨[], _, rfl, List.Forall₂.nil, hr⟩
  | cons a rest ih =>
    cases h with
    | cons hr hrest =>
      obtain ⟨l2a, y, rfl, hf, hxy⟩ := ih _ hrest
      exact ⟨_ :: l2a, y, rfl, List.Forall₂.cons hr hf, hxy⟩

theorem findIdx_titles_none_go (t : Str) (l : List SectionCtl)
    (h : ∀ sc ∈ l, sc.title ≠ t) :
    ∀ n : Nat, l.findIdx? (fun sc => sc.title = t) n = none := by
  induction l with
  | nil => intro n; rfl
  | cons a rest ih =>
    intro n
    rw [List.findIdx?_cons]
    rw [if_neg (show ¬(decide (a.title = t) = true) from by
      simp [h a (List.mem_cons_self _ _)])]
    exact ih (fun sc hsc => h sc (List.mem_cons_of_mem _ hsc)) (n + 1)

theorem secIdx_none_of (s : FileState) (t : Str)
    (h : ∀ sc ∈ s.sections, sc.title ≠ t) : secIdx s t = none :=
  findIdx_titles_none_go t s.sections h 0

theorem findIdx_titles_snoc_go (t : Str) (sc : SectionCtl) (hsc : sc.title = t)
    (pre : List SectionCtl) (hpre : ∀ x ∈ pre, x.title ≠ t) :
    ∀ n : Nat, (pre ++ [sc]).findIdx? (fun x => x.title = t) n
      = some (n + pre.length) := by
  induction pre with
  | nil =>
    intro n
    rw [List.nil_append, List.findIdx?_cons]
    rw [if_pos (show decide (sc.title = t) = true from by simp [hsc])]
    rfl
  | cons a rest ih =>
    intro n
    rw [List.cons_append, List.findIdx?_cons]
    rw [if_neg (show ¬(decide (a.title = t) = true) from by
      simp [hpre a (List.mem_cons_self _ _)])]
    rw [ih (fun x hx => hpre x (List.mem_cons_of_mem _ hx)) (n + 1)]
    have harith : n + 1 + rest.length = n + (a :: rest).length := by
      simp [List.length_cons]; omega
    rw [harith]

theorem secIdx_snoc (s : FileState) (pre : List SectionCtl) (sc : SectionCtl) (t : Str)
    (hs : s.sections = pre ++ [sc]) (hpre : ∀ x ∈ pre, x.title ≠ t)
    (hsc : sc.title = t) : secIdx s t = some pre.length := by
  unfold secIdx
  rw [hs, findIdx_titles_snoc_go t sc hsc pre hpre 0, Nat.zero_add]

theorem entryOK_ext (s s2 : FileState) (tl : Str) (pem : Str × Effect × MatchScope)
    (e : Str × Nat × Nat)
    (hh : ∃ lh, s2.handles = s.handles ++ lh)
    (hc : ∃ lc, s2.ctls = s.ctls ++ lc)
    (hm : ∀ p v, mGet p s.entryCtls = some v → mGet p s2.entryCtls = some v)
    (h : entryOK s tl pem e) : entryOK s2 tl pem e := by
  obtain ⟨h1, h2, h3, h4, h5, h6⟩ := h
  obtain ⟨lh, hlh⟩ := hh
  obtain ⟨lc, hlc⟩ := hc
  refine ⟨h1, ?_, ?_, ?_, ?_, hm _ _ h6⟩
  · rw [hlh, List.length_append]; omega
  · rw [hlc, List.length_append]; omega
  · unfold getHandle
    rw [hlh, List.getD_append _ _ _ _ h2]
    exact h4
  · unfold getCtl
    rw [hlc, List.getD_append _ _ _ _ h3]
    exact h5

theorem buildInv_fileSection (done : List (Str × List (Str × Effect × MatchScope)))
    (t : Str) (s : FileState) (hinv : buildInv done s)
    (hnew : t ∉ done.map (fun sec => sec.1)) :
    buildInv (done ++ [(t, [])]) (fileSection t s) := by
  obtain ⟨hsecs, hreg⟩ := hinv
  have htitles : ∀ sc ∈ s.sections, sc.title ≠ t := by
    intro sc hsc hct
    obtain ⟨sec, hsec, hrel⟩ := forall₂_mem_right _ _ _ hsecs sc hsc
    have hmem : sec.1 ∈ done.map (fun sec => sec.1) := List.mem_map_of_mem _ hsec
    rw [← hrel.1, hct] at hmem
    exact hnew hmem
  have hsi : secIdx s t = none := secIdx_none_of s t htitles
  have hfs : fileSection t s = { s with sections := s.sections ++ [⟨t, [], none⟩] } := by
    unfold fileSection
    rw [if_neg (show ¬((secIdx s t).isSome = true) from by rw [hsi]; simp)]
  rw [hfs]
  constructor
  · apply List.rel_append
    · refine List.Forall₂.imp ?_ hsecs
      intro sec sc hsO
      obtain ⟨hs1, hs2, hs3⟩ := hsO
      refine ⟨hs1, hs2, List.Forall₂.imp ?_ hs3⟩
      intro pem e he
      exact entryOK_ext s _ sec.1 pem e ⟨[], by simp⟩ ⟨[], by simp⟩
        (fun p v hv => hv) he
    · exact List.forall₂_cons.mpr ⟨⟨rfl, rfl, List.Forall₂.nil⟩, List.Forall₂.nil⟩
  · intro p hp
    have hmem := hreg p hp
    unfold allPats at hmem ⊢
    rw [List.map_append, List.flatten_append]
    exact List.mem_append.mpr (Or.inl hmem)

theorem allPats_snoc (A : List (Str × List (Str × Effect × MatchScope))) (t : Str)
    (es : List (Str × Effect × MatchScope)) :
    allPats (A ++ [(t, es)]) = allPats A ++ es.map (fun pem => pem.1) := by
  unfold allPats
  rw [List.map_append, List.flatten_append]
  simp

theorem buildInv_addEntry (done : List (Str × List (Str × Effect × MatchScope)))
    (t : Str) (esDone : List (Str × Effect × MatchScope))
    (pem : Str × Effect × MatchScope) (s : FileState)
    (hinv : buildInv (done ++ [(t, esDone)]) s)
    (ht : t ∉ done.map (fun sec => sec.1))
    (hp : pem.1 ∉ allPats (done ++ [(t, esDone)])) :
    buildInv (done ++ [(t, esDone ++ [pem])]) (addEntry t pem s) := by
  obtain ⟨hsecs, hreg⟩ := hinv
  obtain ⟨pre, sc, hsecsEq, hpre, hsc⟩ := forall₂_snoc_left _ _ _ _ hsecs
  obtain ⟨hscT, hscDm, hscEnt⟩ := hsc
  have hpreT : ∀ x ∈ pre, x.title ≠ t := by
    intro x hx hxt
    obtain ⟨sec, hsec, hrel⟩ := forall₂_mem_right _ _ _ hpre x hx
    have hmem : sec.1 ∈ done.map (fun sec => sec.1) := List.mem_map_of_mem _ hsec
    rw [← hrel.1, hxt] at hmem
    exact ht hmem
  have hsi : secIdx s t = some pre.length := secIdx_snoc s pre sc t hsecsEq hpreT hscT
  have hfresh : mGet pem.1 s.entryCtls = none := by
    cases hm : mGet pem.1 s.entryCtls with
    | none => rfl
    | some v => exact absurd (hreg pem.1 (by rw [hm]; simp)) hp
  have hdm : (getSec s t).detachedMap = none := by
    unfold getSec
    rw [hsi]
    dsimp only
    rw [hsecsEq, getD_append_len]
    exact hscDm
  have hpesDone : pem.1 ∉ keysOf sc.entries := by
    intro hmem
    unfold keysOf at hmem
    obtain ⟨e, he, heq⟩ := List.mem_map.mp hmem
    obtain ⟨pem', hpem', hrel⟩ := forall₂_mem_right _ _ _ hscEnt e he
    apply hp
    rw [allPats_snoc]
    refine List.mem_append.mpr (Or.inr ?_)
    rw [← heq, hrel.1]
    exact List.mem_map_of_mem _ hpem'
  rw [addEntry_fresh t pem s hdm hfresh]
  have hsi1 : secIdx { s with ctls := s.ctls ++ [⟨pem.1, some pem.2.1, some pem.2.2, some t, false⟩], handles := s.handles ++ [⟨pem.1, t, s.ctls.length⟩] } t = some pre.length := hsi
  rw [updSec_eq_some t (fun sc => { sc with entries := mSet pem.1 (s.handles.length, s.ctls.length) sc.entries }) _ pre.length hsi1]
  rw [show ({ s with ctls := s.ctls ++ [⟨pem.1, some pem.2.1, some pem.2.2, some t, false⟩], handles := s.handles ++ [⟨pem.1, t, s.ctls.length⟩] } : FileState).sections = pre ++ [sc] from hsecsEq]
  rw [getD_append_len, set_append_len]
  dsimp only
  rw [mSet_fresh pem.1 _ sc.entries (mGet_eq_none_of_not_mem pem.1 sc.entries hpesDone)]
  rw [mSet_fresh pem.1 s.ctls.length s.entryCtls hfresh]
  constructor
  · apply List.rel_append
    · refine List.Forall₂.imp ?_ hpre
      intro sec x hx
      obtain ⟨hx1, hx2, hx3⟩ := hx
      refine ⟨hx1, hx2, List.Forall₂.imp ?_ hx3⟩
      intro pem' e he
      exact entryOK_ext s _ sec.1 pem' e ⟨_, rfl⟩ ⟨_, rfl⟩
        (fun p v hv => mGet_append_left p s.entryCtls _ v hv) he
    · refine List.forall₂_cons.mpr ⟨?_, List.Forall₂.nil⟩
      refine ⟨hscT, hscDm, ?_⟩
      apply List.rel_append
      · refine List.Forall₂.imp ?_ hscEnt
        intro pem' e he
        exact entryOK_ext s _ t pem' e ⟨_, rfl⟩ ⟨_, rfl⟩
          (fun p v hv => mGet_append_left p s.entryCtls _ v hv) he
      · refine List.forall₂_cons.mpr ⟨?_, List.Forall₂.nil⟩
        refine ⟨rfl, ?_, ?_, ?_, ?_, ?_⟩
        · show s.handles.length < (s.handles ++ [(⟨pem.1, t, s.ctls.length⟩ : Handle)]).length
          rw [List.length_append]
          simp
        · show s.ctls.length < (s.ctls ++ [(⟨pem.1, some pem.2.1, some pem.2.2, some t, false⟩ : EntryCtl)]).length
          rw [List.length_append]
          simp
        · show (s.handles ++ [(⟨pem.1, t, s.ctls.length⟩ : Handle)]).getD s.handles.length default = (⟨pem.1, t, s.ctls.length⟩ : Handle)
          exact getD_append_len _ _ _
        · show (s.ctls ++ [(⟨pem.1, some pem.2.1, some pem.2.2, some t, false⟩ : EntryCtl)]).getD s.ctls.length default = (⟨pem.1, some pem.2.1, some pem.2.2, some t, false⟩ : EntryCtl)
          exact getD_append_len _ _ _
        · show mGet pem.1 (s.entryCtls ++ [(pem.1, s.ctls.length)]) = some s.ctls.length
          rw [mGet_append_right pem.1 s.entryCtls _ hfresh]
          simp [mGet]
  · intro p hp2
    have hp3 : mGet p (s.entryCtls ++ [(pem.1, s.ctls.length)]) ≠ none := hp2
    rw [allPats_snoc, List.map_append]
    by_cases hpc : mGet p s.entryCtls = none
    · rw [mGet_append_right p s.entryCtls _ hpc] at hp3
      have hpp : p = pem.1 := by
        by_contra hne
        apply hp3
        rw [mGet_cons, if_neg (fun hc => hne hc.symm)]
        rfl
      subst hpp
      refine List.mem_append.mpr (Or.inr (List.mem_append.mpr (Or.inr ?_)))
      rw [List.map_cons, List.map_nil]
      exact List.mem_singleton.mpr rfl
    · have hmem := hreg p hpc
      rw [allPats_snoc] at hmem
      simp only [List.mem_append] at hmem ⊢
      rcases hmem with h1 | h1
      · exact Or.inl h1
      · exact Or.inr (Or.inl h1)

theorem allPats_append (A B : List (Str × List (Str × Effect × MatchScope))) :
    allPats (A ++ B) = allPats A ++ allPats B := by
  unfold allPats
  rw [List.map_append, List.flatten_append]

theorem allPats_cons (sec : Str × List (Str × Effect × MatchScope))
    (B : List (Str × List (Str × Effect × MatchScope))) :
    allPats (sec :: B) = sec.2.map (fun pem => pem.1) ++ allPats B := by
  unfold allPats
  rw [List.map_cons, List.flatten_cons]

theorem buildInv_entries (done : List (Str × List (Str × Effect × MatchScope)))
    (t : Str) (es : List (Str × Effect × MatchScope)) :
    ∀ (esDone : List (Str × Effect × MatchScope)) (s : FileState),
      buildInv (done ++ [(t, esDone)]) s →
      t ∉ done.map (fun sec => sec.1) →
      (∀ pem ∈ es, pem.1 ∉ allPats (done ++ [(t, esDone)])) →
      (es.map (fun pem => pem.1)).Nodup →
      buildInv (done ++ [(t, esDone ++ es)])
        (es.foldl (fun s2 pem => addEntry t pem s2) s) := by
  induction es with
  | nil => intro esDone s hinv ht _ _; simpa using hinv
  | cons pem rest ih =>
    intro esDone s hinv ht hfr hnd
    have h1 := buildInv_addEntry done t esDone pem s hinv ht
      (hfr pem (List.mem_cons_self _ _))
    have hfr2 : ∀ pem2 ∈ rest, pem2.1 ∉ allPats (done ++ [(t, esDone ++ [pem])]) := by
      intro pem2 hm hmem
      rw [allPats_snoc, List.map_append] at hmem
      rcases List.mem_append.mp hmem with hA | hA
      · exact hfr pem2 (List.mem_cons_of_mem _ hm)
          (by rw [allPats_snoc]; exact List.mem_append.mpr (Or.inl hA))
      · rcases List.mem_append.mp hA with hB | hB
        · exact hfr pem2 (List.mem_cons_of_mem _ hm)
            (by rw [allPats_snoc]; exact List.mem_append.mpr (Or.inr hB))
        · have heq : pem2.1 = pem.1 := by simpa using hB
          have hndc : (pem.1 :: rest.map (fun pem => pem.1)).Nodup := by
            have hx := hnd
            rw [List.map_cons] at hx
            exact hx
          exact (List.nodup_cons.mp hndc).1 (heq ▸ List.mem_map_of_mem _ hm)
    have hndc2 : (pem.1 :: rest.map (fun pem => pem.1)).Nodup := by
      have hx := hnd
      rw [List.map_cons] at hx
      exact hx
    have hnd2 : (rest.map (fun pem => pem.1)).Nodup := (List.nodup_cons.mp hndc2).2
    have h2 := ih (esDone ++ [pem]) (addEntry t pem s) h1 ht hfr2 hnd2
    rw [show esDone ++ pem :: rest = (esDone ++ [pem]) ++ rest from by simp]
    exact h2

theorem buildInv_addSec (done : List (Str × List (Str × Effect × MatchScope)))
    (sec : Str × List (Str × Effect × MatchScope)) (s : FileState)
    (hinv : buildInv done s)
    (ht : sec.1 ∉ done.map (fun sec => sec.1))
    (hfr : ∀ pem ∈ sec.2, pem.1 ∉ allPats done)
    (hnd : (sec.2.map (fun pem => pem.1)).Nodup) :
    buildInv (done ++ [sec]) (addSec sec s) := by
  obtain ⟨t, es⟩ := sec
  have h0 := buildInv_fileSection done t s hinv ht
  have hfr0 : ∀ pem ∈ es, pem.1 ∉ allPats (done ++ [(t, [])]) := by
    intro pem hm hmem
    rw [allPats_snoc] at hmem
    rcases List.mem_append.mp hmem with h1 | h1
    · exact hfr pem hm h1
    · simp at h1
  have h1 := buildInv_entries done t es [] (fileSection t s) h0 ht hfr0 hnd
  simpa using h1

theorem buildInv_sections (L : List (Str × List (Str × Effect × MatchScope))) :
    ∀ (done : List (Str × List (Str × Effect × MatchScope))) (s : FileState),
      buildInv done s →
      ((done ++ L).map (fun sec => sec.1)).Nodup →
      (allPats (done ++ L)).Nodup →
      buildInv (done ++ L) (L.foldl (fun s sec => addSec sec s) s) := by
  induction L with
  | nil => intro done s hinv _ _; simpa using hinv
  | cons sec rest ih =>
    intro done s hinv htnd hpnd
    have ht : sec.1 ∉ done.map (fun sec => sec.1) := by
      intro hmem
      have h2 : ((done.map (fun sec => sec.1)) ++ ((sec :: rest).map (fun sec => sec.1))).Nodup := by
        rw [← List.map_append]
        exact htnd
      exact List.disjoint_of_nodup_append h2 hmem
        (by rw [List.map_cons]; exact List.mem_cons_self _ _)
    have hpnd2 : (allPats done ++ allPats (sec :: rest)).Nodup := by
      rw [← allPats_append]
      exact hpnd
    have hfr : ∀ pem ∈ sec.2, pem.1 ∉ allPats done := by
      intro pem hm hmem
      exact List.disjoint_of_nodup_append hpnd2 hmem
        (by rw [allPats_cons]
            exact List.mem_append.mpr (Or.inl (List.mem_map_of_mem _ hm)))
    have hnd1 : (sec.2.map (fun pem => pem.1)).Nodup := by
      have h2 := List.Nodup.of_append_right hpnd2
      rw [allPats_cons] at h2
      exact List.Nodup.of_append_left h2
    have hstep := buildInv_addSec done sec s hinv ht hfr hnd1
    have hts : (((done ++ [sec]) ++ rest).map (fun sec => sec.1)).Nodup := by
      rw [List.append_assoc]
      exact htnd
    have hps : (allPats ((done ++ [sec]) ++ rest)).Nodup := by
      rw [List.append_assoc]
      exact hpnd
    have hih := ih (done ++ [sec]) (addSec sec s) hstep hts hps
    rw [show done ++ sec :: rest = (done ++ [sec]) ++ rest from by simp]
    exact hih

theorem buildFile_inv (L : List (Str × List (Str × Effect × MatchScope)))
    (hg : goodAbs L) : buildInv L (buildFile L) := by
  obtain ⟨hgood, htnd, hpnd⟩ := hg
  have h0 : buildInv [] emptyFile := by
    constructor
    · exact List.Forall₂.nil
    · intro p hp
      exact absurd rfl hp
  have h := buildInv_sections L [] emptyFile h0 (by simpa using htnd)
    (by simpa using hpnd)
  simpa using h

theorem liveIn_of_entryOK (s : FileState) (tl : Str) (pem : Str × Effect × MatchScope)
    (e : Str × Nat × Nat) (h : entryOK s tl pem e) : liveIn s tl e.2.1 = true := by
  obtain ⟨h1, h2, h3, h4, h5, h6⟩ := h
  unfold liveIn hCurrentSection hCurrent
  rw [h4]
  dsimp only
  rw [h6]
  dsimp only
  rw [show (getCtl s e.2.2).attachedTo = some tl from by rw [h5]]
  simp

theorem tuple_of_entryOK (s : FileState) (tl : Str) (pem : Str × Effect × MatchScope)
    (e : Str × Nat × Nat) (h : entryOK s tl pem e) :
    (tl, (getHandle s e.2.1).pattern, hEffect s e.2.1, hMatchScope s e.2.1)
      = (tl, pem.1, pem.2.1, pem.2.2) := by
  obtain ⟨h1, h2, h3, h4, h5, h6⟩ := h
  unfold hEffect hMatchScope
  rw [h4]
  dsimp only
  rw [h5]

theorem entTuples_of_forall₂ (s : FileState) (tl : Str)
    (pems : List (Str × Effect × MatchScope)) (ents : List (Str × Nat × Nat))
    (h : List.Forall₂ (entryOK s tl) pems ents) :
    (ents.filter (fun e => liveIn s tl e.2.1)).map (fun e =>
        (tl, (getHandle s e.2.1).pattern, hEffect s e.2.1, hMatchScope s e.2.1))
      = pems.map (fun pem => (tl, pem.1, pem.2.1, pem.2.2)) := by
  induction h with
  | nil => rfl
  | cons hr hrest ih =>
    rw [List.filter_cons, if_pos (liveIn_of_entryOK s tl _ _ hr), List.map_cons,
      tuple_of_entryOK s tl _ _ hr, List.map_cons, ih]

theorem secTuples_of_secOK (s : FileState)
    (sec : Str × List (Str × Effect × MatchScope)) (sc : SectionCtl)
    (h : secOK s sec sc) :
    (sc.entries.filter (fun e => liveIn s sc.title e.2.1)).map (fun e =>
        (sc.title, (getHandle s e.2.1).pattern, hEffect s e.2.1, hMatchScope s e.2.1))
      = sec.2.map (fun pem => (sec.1, pem.1, pem.2.1, pem.2.2)) := by
  obtain ⟨hT, hDm, hEnt⟩ := h
  rw [hT]
  exact entTuples_of_forall₂ s sec.1 sec.2 sc.entries hEnt

theorem mapTuples_of_forall₂ (s : FileState)
    (L : List (Str × List (Str × Effect × MatchScope))) (scs : List SectionCtl)
    (h : List.Forall₂ (secOK s) L scs) :
    scs.map (fun sc => (sc.entries.filter (fun e => liveIn s sc.title e.2.1)).map (fun e =>
        (sc.title, (getHandle s e.2.1).pattern, hEffect s e.2.1, hMatchScope s e.2.1)))
      = L.map (fun sec => sec.2.map (fun pem => (sec.1, pem.1, pem.2.1, pem.2.2))) := by
  induction h with
  | nil => rfl
  | cons hr hrest ih =>
    rw [List.map_cons, List.map_cons, ih]
    rw [secTuples_of_secOK s _ _ hr]

theorem fileTuples_of_inv (L : List (Str × List (Str × Effect × MatchScope)))
    (s : FileState) (h : buildInv L s) : fileTuples s = tuplesOf L := by
  obtain ⟨hsecs, hreg⟩ := h
  unfold fileTuples tuplesOf
  exact congrArg List.flatten (mapTuples_of_forall₂ s L s.sections hsecs)

theorem fileTuples_abs (s : FileState) (hg : goodState s) :
    fileTuples s = tuplesOf (absOf s) := by
  obtain ⟨habs, hsync⟩ := hg
  unfold fileTuples tuplesOf absOf
  rw [List.map_map]
  refine congrArg List.flatten ?_
  apply List.map_congr_left
  intro sc hsc
  obtain ⟨hdm, hent⟩ := hsync sc hsc
  rw [List.filter_eq_self.mpr (fun e he => liveIn_of_synced s sc.title e (hent e he))]
  show sc.entries.map _ = ((absSec s sc).2.map (fun pem => ((absSec s sc).1, pem.1, pem.2.1, pem.2.2)))
  unfold absSec
  dsimp only
  rw [List.map_map]
  apply List.map_congr_left
  intro e he
  obtain hp := hent e he
  show (sc.title, (getHandle s e.2.1).pattern, hEffect s e.2.1, hMatchScope s e.2.1) = _
  rw [show (getHandle s e.2.1).pattern = e.1 from by rw [hp.2.2.1]]
  rfl

/-- C2: the round-trip holds on well-formed states.  For a file whose
observable content is well formed (patterns nonempty, single-line and free
of the escape-sensitive decorations that the codec cannot round-trip,
titles single-line and trim-stable, a nonempty untitled section, no
duplicate titles or patterns) and whose section bookkeeping is synchronized
with the registry with no replace pass in progress, parsing the string
produced by GitIgnoreFile.toString into a fresh file yields exactly the
same ordered (section title, pattern, effect, match scope) tuples as the
original file.  The unconditional claim is refuted by c2_counterexample. -/
theorem c2_roundtrip_good (s : FileState) (h : goodState s) :
    fileTuples (runParse (fileToStringRun osEOL s).2 emptyFile) = fileTuples s := by
  rw [render_abs s h]
  rw [parse_build (absOf s) h.1]
  rw [fileTuples_setModified]
  rw [fileTuples_of_inv (absOf s) (buildFile (absOf s)) (buildFile_inv (absOf s) h.1)]
  exact (fileTuples_abs s h).symm

/-- Witness for C2: a concrete four-entry, two-section file (with an
untitled section, an include-effect entry and a directories-only entry)
satisfies the synchronization hypothesis and round-trips. -/
theorem c2_witness :
    fileTuples (runParse (fileToStringRun osEOL (runParse (strOf ("x\n# test\np\n!q\nr/\n")) emptyFile)).2 emptyFile)
      = fileTuples (runParse (strOf ("x\n# test\np\n!q\nr/\n")) emptyFile) :=
  c2_roundtrip_good (runParse (strOf ("x\n# test\np\n!q\nr/\n")) emptyFile)
    ⟨by decide, by decide⟩
